import Mathlib

/-!
# gmf_memory_resource: a best-fit pool allocator with coalescing

A shallow embedding of `source/gmf_memory_resource.h`.

* Addresses (`void*`) and sizes (`size_t`) are natural numbers below `WORD = 2^64`;
  the null pointer is `0`.  Arithmetic that the source does on `size_t` is reduced
  modulo `WORD`.
* The three ordered containers are lists kept in the order in which an in-order
  traversal of the C++ container visits its elements.  An iterator is a position in
  that list; `end()` is the length of the list.
* A thrown `std::invalid_argument` and the undefined behaviour of `erase(end())`
  are the two values of `fault`.
-/

namespace GMF

/-- The number of values of `size_t` (and of addresses). -/
def WORD : Nat := 2 ^ 64

/-- What a call can end in instead of returning. -/
inductive fault where
  | invalid_argument
  | undefined_behaviour
deriving DecidableEq, Repr

/-- The struct `entity`: the half-open byte range from `front` to `back`. -/
structure entity where
  front : Nat
  back : Nat
deriving DecidableEq, Repr

/-- The constructor `entity(void* f, void* b)`: throws when `f > b` as addresses. -/
def entity.ctor (f b : Nat) : Except fault entity :=
  if f > b then .error .invalid_argument else .ok ⟨f, b⟩

/-- The method `entity::get_bytes_count`: `back - front` in `size_t`. -/
def entity.get_bytes_count (e : entity) : Nat :=
  (e.back + WORD - e.front) % WORD

/-- The method `entity::close_left`: the given entity ends where this one starts. -/
def entity.close_left (self e : entity) : Bool :=
  self.front == e.back

/-- The method `entity::close_right`: the given entity starts where this one ends. -/
def entity.close_right (self e : entity) : Bool :=
  self.back == e.front

/-- The struct `imaginary_entity`, a search key that is never stored. -/
structure imaginary_entity where
  front : Nat
  back : Nat
  count_ : Nat
deriving DecidableEq, Repr

/-- The constructor `imaginary_entity(void* front)`: `entity(front, front)`, count `0`. -/
def imaginary_entity.of_front (front : Nat) : imaginary_entity :=
  ⟨front, front, 0⟩

/-- The constructor `imaginary_entity(size_t count)`: `entity(nullptr, nullptr)`. -/
def imaginary_entity.of_count (count : Nat) : imaginary_entity :=
  ⟨0, 0, count⟩

/-- The override `imaginary_entity::get_bytes_count`: the stored count. -/
def imaginary_entity.get_bytes_count (k : imaginary_entity) : Nat :=
  k.count_

/-- The function `offset_void_ptr`: the pointer shifted by `bytes`, in `size_t`. -/
def offset_void_ptr (ptr bytes : Nat) : Nat :=
  (ptr + bytes) % WORD

/-! ### Ordered containers

Both comparators of the source have the shape `key l < key r`, with `key` either
`get_bytes_count` (`entity_ordering_by_bytes_`) or `front`
(`entity_ordering_by_front_address__`).  The container operations below take the key
function and, for a search, the key value of the probe. -/

/-- The member `lower_bound`: position of the first element not ordered before the key. -/
def lower_bound (key : entity → Nat) (k : Nat) : List entity → Nat
  | [] => 0
  | x :: xs => if key x < k then lower_bound key k xs + 1 else 0

/-- The member `upper_bound`: position of the first element ordered after the key. -/
def upper_bound (key : entity → Nat) (k : Nat) : List entity → Nat
  | [] => 0
  | x :: xs => if k < key x then 0 else upper_bound key k xs + 1

/-- The member `std::multiset::insert`: the new element goes to the upper bound of the
elements equivalent to it. -/
def multiset_insert (key : entity → Nat) (e : entity) : List entity → List entity
  | [] => [e]
  | x :: xs => if key e < key x then e :: x :: xs else x :: multiset_insert key e xs

/-- The member `std::set::insert`: nothing is inserted when an equivalent element is
already there. -/
def set_insert (key : entity → Nat) (e : entity) : List entity → List entity
  | [] => [e]
  | x :: xs =>
    if key e < key x then e :: x :: xs
    else if key x < key e then x :: set_insert key e xs
    else x :: xs

/-- The member `std::set::erase(const key_type&)`: removes the element equivalent to the
key, if there is one. -/
def set_erase (key : entity → Nat) (k : Nat) : List entity → List entity
  | [] => []
  | x :: xs =>
    if key x < k then x :: set_erase key k xs
    else if k < key x then x :: xs
    else xs

/-- The member `erase(iterator)`: erasing `end()` is undefined behaviour. -/
def erase_at (it : Nat) (pool : List entity) : Except fault (List entity) :=
  if it < pool.length then .ok (pool.eraseIdx it) else .error .undefined_behaviour

/-- The class `gmf_memory_resource`: its five data members. -/
structure gmf_memory_resource where
  free_entity_pool_by_bytes_ : List entity
  free_entity_pool_by_front_ : List entity
  occupied_entity_pool_by_front_ : List entity
  memory_pool_start_ : Nat
  memory_pool_end_ : Nat
deriving DecidableEq, Repr

/-- The constructor `gmf_memory_resource(void* memory_pool_start, void* memory_pool_start_end)`. -/
def gmf_memory_resource.ctor (memory_pool_start memory_pool_start_end : Nat) :
    Except fault gmf_memory_resource :=
  if memory_pool_start = 0 ∨ memory_pool_start_end = 0 then .error .invalid_argument
  else
    match entity.ctor memory_pool_start memory_pool_start_end with
    | .error f => .error f
    | .ok e1 =>
      match entity.ctor memory_pool_start memory_pool_start_end with
      | .error f => .error f
      | .ok e2 =>
        .ok { free_entity_pool_by_bytes_ := multiset_insert entity.get_bytes_count e1 []
              free_entity_pool_by_front_ := set_insert entity.front e2 []
              occupied_entity_pool_by_front_ := []
              memory_pool_start_ := memory_pool_start
              memory_pool_end_ := memory_pool_start_end }

/-- The method `do_allocate`: the returned address (`0` for `nullptr`) and the new state. -/
def do_allocate (s : gmf_memory_resource) (_Bytes _Align : Nat) :
    Except fault (Nat × gmf_memory_resource) :=
  if _Bytes = 0 then .ok (0, s)
  else
    let free_entity_it := lower_bound entity.get_bytes_count
      (imaginary_entity.of_count _Bytes).get_bytes_count s.free_entity_pool_by_bytes_
    match s.free_entity_pool_by_bytes_[free_entity_it]? with
    | none => .ok (0, s)
    | some ideal_free_entity =>
      match entity.ctor ideal_free_entity.front
          (offset_void_ptr ideal_free_entity.front _Bytes) with
      | .error f => .error f
      | .ok occupied_entity =>
        let by_bytes := s.free_entity_pool_by_bytes_.eraseIdx free_entity_it
        let by_front := set_erase entity.front ideal_free_entity.front
          s.free_entity_pool_by_front_
        let occupied := set_insert entity.front occupied_entity
          s.occupied_entity_pool_by_front_
        if ideal_free_entity.get_bytes_count > _Bytes then
          match entity.ctor occupied_entity.back ideal_free_entity.back with
          | .error f => .error f
          | .ok new_entity =>
            .ok (occupied_entity.front,
              { s with
                free_entity_pool_by_bytes_ :=
                  multiset_insert entity.get_bytes_count new_entity by_bytes
                free_entity_pool_by_front_ := set_insert entity.front new_entity by_front
                occupied_entity_pool_by_front_ := occupied })
        else
          .ok (occupied_entity.front,
            { s with
              free_entity_pool_by_bytes_ := by_bytes
              free_entity_pool_by_front_ := by_front
              occupied_entity_pool_by_front_ := occupied })

/-- The lambda `get_preview_free` of `do_deallocate`. -/
def get_preview_free (by_front : List entity) (_Ptr : Nat) : Option entity :=
  let free_entity_it := lower_bound entity.front (imaginary_entity.of_front _Ptr).front by_front
  let free_entity_it := if free_entity_it ≠ 0 then free_entity_it - 1 else free_entity_it
  match by_front[free_entity_it]? with
  | none => none
  | some e => if e.front > _Ptr then none else some e

/-- The lambda `get_next_free` of `do_deallocate`. -/
def get_next_free (by_front : List entity) (_Ptr : Nat) : Option entity :=
  by_front[upper_bound entity.front (imaginary_entity.of_front _Ptr).front by_front]?

/-- The local state of `do_deallocate` while it merges: the block being freed and the
two free pools. -/
structure merge_state where
  new_free_entity : entity
  by_front : List entity
  by_bytes : List entity
deriving DecidableEq, Repr

/-- The first `if` of `do_deallocate`: absorb the left neighbour when it is adjacent. -/
def absorb_left (left_free : Option entity) (m : merge_state) : Except fault merge_state :=
  match left_free with
  | none => .ok m
  | some l =>
    if m.new_free_entity.close_left l then
      match erase_at (lower_bound entity.get_bytes_count l.get_bytes_count m.by_bytes)
          m.by_bytes with
      | .error f => .error f
      | .ok by_bytes =>
        .ok { new_free_entity := { m.new_free_entity with front := l.front }
              by_front := set_erase entity.front l.front m.by_front
              by_bytes := by_bytes }
    else .ok m

/-- The second `if` of `do_deallocate`: absorb the right neighbour when it is adjacent. -/
def absorb_right (right_free : Option entity) (m : merge_state) : Except fault merge_state :=
  match right_free with
  | none => .ok m
  | some r =>
    if m.new_free_entity.close_right r then
      match erase_at (lower_bound entity.get_bytes_count r.get_bytes_count m.by_bytes)
          m.by_bytes with
      | .error f => .error f
      | .ok by_bytes =>
        .ok { new_free_entity := { m.new_free_entity with back := r.back }
              by_front := set_erase entity.front r.front m.by_front
              by_bytes := by_bytes }
    else .ok m

/-- The method `do_deallocate`. -/
def do_deallocate (s : gmf_memory_resource) (_Ptr _Bytes _Align : Nat) :
    Except fault gmf_memory_resource :=
  let occupied_entity_it := lower_bound entity.front (imaginary_entity.of_front _Ptr).front
    s.occupied_entity_pool_by_front_
  match s.occupied_entity_pool_by_front_[occupied_entity_it]? with
  | none => .ok s
  | some occupied =>
    if occupied.front ≠ _Ptr then .ok s
    else
      let left_free := get_preview_free s.free_entity_pool_by_front_ _Ptr
      let right_free := get_next_free s.free_entity_pool_by_front_ _Ptr
      match absorb_left left_free
          ⟨occupied, s.free_entity_pool_by_front_, s.free_entity_pool_by_bytes_⟩ with
      | .error f => .error f
      | .ok m1 =>
        match absorb_right right_free m1 with
        | .error f => .error f
        | .ok m2 =>
          .ok { s with
                occupied_entity_pool_by_front_ :=
                  s.occupied_entity_pool_by_front_.eraseIdx occupied_entity_it
                free_entity_pool_by_front_ :=
                  set_insert entity.front m2.new_free_entity m2.by_front
                free_entity_pool_by_bytes_ :=
                  multiset_insert entity.get_bytes_count m2.new_free_entity m2.by_bytes }

/-- The method `do_is_equal`: `_That` is a reference to any `memory_resource`, whatever
its class. -/
def do_is_equal {resource : Type} (_self : gmf_memory_resource) (_That : resource) : Bool :=
  false

/-! ### Calls and traces -/

/-- A call of one of the two public entry points. -/
inductive call where
  | allocate (bytes align : Nat)
  | deallocate (ptr bytes align : Nat)
deriving DecidableEq, Repr

/-- The arguments of a call are machine words. -/
def call.in_range : call → Prop
  | .allocate bytes align => bytes < WORD ∧ align < WORD
  | .deallocate ptr bytes align => ptr < WORD ∧ bytes < WORD ∧ align < WORD

/-- One call on a state: the state after it. -/
def step (s : gmf_memory_resource) : call → Except fault gmf_memory_resource
  | .allocate bytes align =>
    match do_allocate s bytes align with
    | .error f => .error f
    | .ok r => .ok r.2
  | .deallocate ptr bytes align => do_deallocate s ptr bytes align

/-- A finite sequence of calls, from left to right. -/
def run (s : gmf_memory_resource) : List call → Except fault gmf_memory_resource
  | [] => .ok s
  | c :: cs =>
    match step s c with
    | .error f => .error f
    | .ok s1 => run s1 cs

/-- The states a successfully constructed allocator can be in: every argument is a
machine word, and every call so far has returned. -/
inductive Reachable : gmf_memory_resource → Prop where
  | init (a b : Nat) (s : gmf_memory_resource) (ha : a < WORD) (hb : b < WORD)
      (h : gmf_memory_resource.ctor a b = .ok s) : Reachable s
  | call (s s1 : gmf_memory_resource) (c : call) (hs : Reachable s)
      (hc : c.in_range)
      (h : step s c = .ok s1) : Reachable s1

/-- Construction followed by a finite sequence of calls. -/
def run_from (a b : Nat) (cs : List call) : Except fault gmf_memory_resource :=
  match gmf_memory_resource.ctor a b with
  | .error f => .error f
  | .ok s => run s cs

/-! ### Properties of states -/

/-- Two half-open ranges have a byte in common. -/
def overlap (x y : entity) : Prop :=
  x.front < y.back ∧ y.front < x.back ∧ x.front < x.back ∧ y.front < y.back

instance (x y : entity) : Decidable (overlap x y) := by
  unfold overlap; infer_instance

/-- Two half-open ranges lie one after the other. -/
def disjoint (x y : entity) : Prop :=
  x.back ≤ y.front ∨ y.back ≤ x.front

instance (x y : entity) : Decidable (disjoint x y) := by
  unfold disjoint; infer_instance

/-- Every block held in one of the three indices. -/
def gmf_memory_resource.blocks (s : gmf_memory_resource) : List entity :=
  s.free_entity_pool_by_bytes_ ++ s.free_entity_pool_by_front_ ++
    s.occupied_entity_pool_by_front_

/-- The partition invariant: distinct blocks of the indices do not overlap, and the
blocks cover the pool and nothing else. -/
def Partition (s : gmf_memory_resource) : Prop :=
  (∀ x ∈ s.blocks, ∀ y ∈ s.blocks, x ≠ y → ¬ overlap x y) ∧
  (∀ addr : Nat, (s.memory_pool_start_ ≤ addr ∧ addr < s.memory_pool_end_) ↔
    ∃ x ∈ s.blocks, x.front ≤ addr ∧ addr < x.back)

/-- The two free indices hold the same blocks, each the same number of times. -/
def IndexAgreement (s : gmf_memory_resource) : Prop :=
  s.free_entity_pool_by_bytes_.Perm s.free_entity_pool_by_front_

/-- What the constructor of `entity` and the constructor of the pool establish for a
stored block: a non-null front, `front ≤ back`, and both are machine words. -/
def entity.valid (e : entity) : Prop :=
  0 < e.front ∧ e.front ≤ e.back ∧ e.back < WORD

instance (e : entity) : Decidable e.valid := by
  unfold entity.valid; infer_instance

/-- The container invariants of a state: each index is ordered by its comparator (the
address indices without equivalent elements), and every stored block is valid. -/
structure Inv (s : gmf_memory_resource) : Prop where
  by_bytes_ordered : s.free_entity_pool_by_bytes_.Pairwise
    (fun x y => x.get_bytes_count ≤ y.get_bytes_count)
  by_front_ordered : s.free_entity_pool_by_front_.Pairwise (fun x y => x.front < y.front)
  occupied_ordered : s.occupied_entity_pool_by_front_.Pairwise (fun x y => x.front < y.front)
  valid : ∀ e ∈ s.blocks, e.valid

/-- A well-formed state: the container invariants hold, both free indices hold the same
blocks, and the free and occupied blocks are non-empty ranges lying one after the other. -/
structure WellFormed (s : gmf_memory_resource) : Prop where
  inv : Inv s
  agree : IndexAgreement s
  apart : (s.free_entity_pool_by_front_ ++ s.occupied_entity_pool_by_front_).Pairwise disjoint
  nonempty : ∀ e ∈ s.free_entity_pool_by_front_ ++ s.occupied_entity_pool_by_front_,
    e.front < e.back

/-- The free blocks are not empty, or the pool itself is empty: nothing is occupied and
every block of the size index has length zero. -/
def FreeNonempty (s : gmf_memory_resource) : Prop :=
  (∀ e ∈ s.free_entity_pool_by_bytes_ ++ s.free_entity_pool_by_front_, e.front < e.back) ∨
  (s.occupied_entity_pool_by_front_ = [] ∧
    ∀ e ∈ s.free_entity_pool_by_bytes_, e.get_bytes_count = 0)

/-- The front of the free block that ends at `p`, or `p` when there is none. -/
def merged_front (by_front : List entity) (p : Nat) : Nat :=
  match by_front.find? (fun e => e.back == p) with
  | some l => l.front
  | none => p

/-- The back of the free block that starts at `q`, or `q` when there is none. -/
def merged_back (by_front : List entity) (q : Nat) : Nat :=
  match by_front.find? (fun e => e.front == q) with
  | some r => r.back
  | none => q

/-! ### Example states -/

/-- Five calls on the pool from 100 to 140 after which a left neighbour is absorbed while
another free block of the same length precedes it in the size index. -/
def coalesce_trace : List call :=
  [.allocate 10 1, .allocate 10 1, .allocate 10 1, .deallocate 100 10 1, .deallocate 110 10 1]

/-- The state that `coalesce_trace` ends in. -/
def coalesce_state : gmf_memory_resource :=
  { free_entity_pool_by_bytes_ := [⟨100, 110⟩, ⟨100, 120⟩]
    free_entity_pool_by_front_ := [⟨100, 120⟩, ⟨130, 140⟩]
    occupied_entity_pool_by_front_ := [⟨120, 130⟩]
    memory_pool_start_ := 100
    memory_pool_end_ := 140 }

/-- The calls of `coalesce_trace` followed by `allocate(10)` and `allocate(20)`. -/
def drain_trace : List call :=
  coalesce_trace ++ [.allocate 10 1, .allocate 20 1]

/-- The state that `drain_trace` ends in. -/
def drained_state : gmf_memory_resource :=
  { free_entity_pool_by_bytes_ := []
    free_entity_pool_by_front_ := [⟨130, 140⟩]
    occupied_entity_pool_by_front_ := [⟨100, 110⟩, ⟨120, 130⟩]
    memory_pool_start_ := 100
    memory_pool_end_ := 140 }

/-- A state of the pool from 100 to 200 with free blocks of lengths 10, 50 and 20,
released in this order, and two occupied blocks between them. -/
def best_fit_state : gmf_memory_resource :=
  { free_entity_pool_by_bytes_ := [⟨100, 110⟩, ⟨180, 200⟩, ⟨120, 170⟩]
    free_entity_pool_by_front_ := [⟨100, 110⟩, ⟨120, 170⟩, ⟨180, 200⟩]
    occupied_entity_pool_by_front_ := [⟨110, 120⟩, ⟨170, 180⟩]
    memory_pool_start_ := 100
    memory_pool_end_ := 200 }

/-- The calls that lead to `best_fit_state`. -/
def best_fit_trace : List call :=
  [.allocate 10 1, .allocate 10 1, .allocate 50 1, .allocate 10 1, .allocate 20 1,
    .deallocate 100 10 1, .deallocate 120 50 1, .deallocate 180 20 1]

/-! ### Further example states -/

/-- The state before the last call of `coalesce_trace`: a well-formed state with two free
blocks of length 10, the older one, from 130 to 140, first in the size index. -/
def twin_state : gmf_memory_resource :=
  { free_entity_pool_by_bytes_ := [⟨130, 140⟩, ⟨100, 110⟩]
    free_entity_pool_by_front_ := [⟨100, 110⟩, ⟨130, 140⟩]
    occupied_entity_pool_by_front_ := [⟨110, 120⟩, ⟨120, 130⟩]
    memory_pool_start_ := 100
    memory_pool_end_ := 140 }

/-- The calls that lead to `twin_state`. -/
def twin_trace : List call :=
  [.allocate 10 1, .allocate 10 1, .allocate 10 1, .deallocate 100 10 1]

/-- Seven calls on the pool from 100 to 160: a left neighbour of length 20 is absorbed
while another free block of length 20 precedes it in the size index, and two
allocations are then served from the size index. -/
def adjacent_trace : List call :=
  [.allocate 20 1, .allocate 10 1, .allocate 10 1, .deallocate 100 20 1,
    .deallocate 120 10 1, .allocate 10 1, .allocate 20 1]

/-- The state that `adjacent_trace` ends in. -/
def adjacent_state : gmf_memory_resource :=
  { free_entity_pool_by_bytes_ := [⟨110, 120⟩, ⟨120, 130⟩]
    free_entity_pool_by_front_ := [⟨110, 120⟩, ⟨120, 130⟩, ⟨140, 160⟩]
    occupied_entity_pool_by_front_ := [⟨100, 110⟩, ⟨130, 140⟩]
    memory_pool_start_ := 100
    memory_pool_end_ := 160 }

/-- The state of the empty pool at address 100. -/
def empty_pool_state : gmf_memory_resource :=
  { free_entity_pool_by_bytes_ := [⟨100, 100⟩]
    free_entity_pool_by_front_ := [⟨100, 100⟩]
    occupied_entity_pool_by_front_ := []
    memory_pool_start_ := 100
    memory_pool_end_ := 100 }

/-! ### The neighbour probes as the specification words them -/

/-- The result `r` is the entry with the greatest front that is at most `p`, or nothing
when no entry has a front that is at most `p`. -/
def greatest_front_le (by_front : List entity) (p : Nat) (r : Option entity) : Prop :=
  match r with
  | some e => e ∈ by_front ∧ e.front ≤ p ∧ ∀ x ∈ by_front, x.front ≤ p → x.front ≤ e.front
  | none => ∀ x ∈ by_front, ¬ x.front ≤ p

/-- The result `r` is the entry with the smallest front that is greater than `p`, or
nothing when no entry has a front greater than `p`. -/
def smallest_front_gt (by_front : List entity) (p : Nat) (r : Option entity) : Prop :=
  match r with
  | some e => e ∈ by_front ∧ p < e.front ∧ ∀ x ∈ by_front, p < x.front → e.front ≤ x.front
  | none => ∀ x ∈ by_front, ¬ p < x.front

/-- The result `r` is the entry with the greatest front that is less than `p`, or nothing
when no entry has a front less than `p`. -/
def greatest_front_lt (by_front : List entity) (p : Nat) (r : Option entity) : Prop :=
  match r with
  | some e => e ∈ by_front ∧ e.front < p ∧ ∀ x ∈ by_front, x.front < p → x.front ≤ e.front
  | none => ∀ x ∈ by_front, ¬ x.front < p

/-- Every block of the three indices lies inside the pool. -/
def InPool (s : gmf_memory_resource) : Prop :=
  ∀ e ∈ s.blocks, s.memory_pool_start_ ≤ e.front ∧ e.back ≤ s.memory_pool_end_

/-- Every free block, in either free index, has positive length. -/
def PositiveFree (s : gmf_memory_resource) : Prop :=
  ∀ e ∈ s.free_entity_pool_by_bytes_ ++ s.free_entity_pool_by_front_, e.front < e.back

/-! ### Allocating a batch and freeing it -/

/-- A sequence of `allocate` calls, given by their size and alignment arguments: the
addresses that were returned and are not null, in the order of the calls, and the state
after the last call. -/
def allocate_all (s : gmf_memory_resource) :
    List (Nat × Nat) → Except fault (List Nat × gmf_memory_resource)
  | [] => .ok ([], s)
  | (bytes, align) :: rest =>
    match do_allocate s bytes align with
    | .error f => .error f
    | .ok (p, s1) =>
      match allocate_all s1 rest with
      | .error f => .error f
      | .ok (ps, s2) => .ok (if p = 0 then ps else p :: ps, s2)

/-- A sequence of `deallocate` calls, given by their address, size and alignment
arguments: the state after the last call. -/
def deallocate_all (s : gmf_memory_resource) :
    List (Nat × Nat × Nat) → Except fault gmf_memory_resource
  | [] => .ok s
  | (p, bytes, align) :: rest =>
    match do_deallocate s p bytes align with
    | .error f => .error f
    | .ok s1 => deallocate_all s1 rest

/-- The length of a block as a natural number. -/
def entity.length (e : entity) : Nat :=
  e.back - e.front

/-- The free and occupied blocks tile the pool from `a` to `b`: they are non-empty, lie
one after the other inside the pool and their lengths add up to the length of the pool;
no two free blocks touch; and the size index holds as many blocks of each length as the
address index. -/
structure Tiling (a b : Nat) (s : gmf_memory_resource) : Prop where
  inv : Inv s
  lengths : (s.free_entity_pool_by_bytes_.map entity.get_bytes_count).Perm
    (s.free_entity_pool_by_front_.map entity.get_bytes_count)
  apart : (s.free_entity_pool_by_front_ ++ s.occupied_entity_pool_by_front_).Pairwise disjoint
  nonempty : ∀ e ∈ s.free_entity_pool_by_front_ ++ s.occupied_entity_pool_by_front_,
    e.front < e.back
  inside : InPool s
  total : ((s.free_entity_pool_by_front_ ++ s.occupied_entity_pool_by_front_).map
    entity.length).sum = b - a
  coalesced : ∀ x ∈ s.free_entity_pool_by_front_, ∀ y ∈ s.free_entity_pool_by_front_,
    x.back ≠ y.front
  pool_start : s.memory_pool_start_ = a
  pool_end : s.memory_pool_end_ = b

/-! ## Theorems

### The container operations -/

theorem getElem?_lower_bound (key : entity → Nat) (k : Nat) (l : List entity) :
    l[lower_bound key k l]? = l.find? (fun x => decide (k ≤ key x)) := by
  induction l with
  | nil => simp [lower_bound]
  | cons x xs ih =>
    by_cases h : key x < k
    · have h1 : ¬ k ≤ key x := by omega
      simp [lower_bound, h, h1, ih]
    · have h1 : k ≤ key x := by omega
      simp [lower_bound, h, h1]

theorem eraseIdx_lower_bound (key : entity → Nat) (k : Nat) (l : List entity) :
    l.eraseIdx (lower_bound key k l) = l.eraseP (fun x => decide (k ≤ key x)) := by
  induction l with
  | nil => simp [lower_bound]
  | cons x xs ih =>
    by_cases h : key x < k
    · have h1 : ¬ k ≤ key x := by omega
      simp [lower_bound, h, h1, ih]
    · have h1 : k ≤ key x := by omega
      simp [lower_bound, h, h1]

theorem lower_bound_lt_length (key : entity → Nat) (k : Nat) (l : List entity)
    (x : entity) (hx : x ∈ l) (hk : k ≤ key x) : lower_bound key k l < l.length := by
  induction l with
  | nil => simp at hx
  | cons y ys ih =>
    by_cases h : key y < k
    · have : x ∈ ys := by
        rcases List.mem_cons.mp hx with h1 | h1
        · subst h1; omega
        · exact h1
      simp [lower_bound, h, ih this]
    · simp [lower_bound, h]

theorem lower_bound_eq_length (key : entity → Nat) (k : Nat) (l : List entity)
    (h : ∀ x ∈ l, key x < k) : lower_bound key k l = l.length := by
  induction l with
  | nil => simp [lower_bound]
  | cons y ys ih =>
    have hy := h y (by simp)
    simp [lower_bound, hy, ih (fun x hx => h x (by simp [hx]))]

/-- In an ordered pool the element at the lower bound is a least one among those that
are not ordered before the key. -/
theorem lower_bound_least (key : entity → Nat) (k : Nat) (l : List entity) (e : entity)
    (hl : l.Pairwise (fun x y => key x ≤ key y))
    (he : l[lower_bound key k l]? = some e) :
    e ∈ l ∧ k ≤ key e ∧ ∀ x ∈ l, k ≤ key x → key e ≤ key x := by
  induction l with
  | nil => simp [lower_bound] at he
  | cons y ys ih =>
    rw [List.pairwise_cons] at hl
    by_cases h : key y < k
    · simp only [lower_bound, h, if_true, List.getElem?_cons_succ] at he
      obtain ⟨h1, h2, h3⟩ := ih hl.2 he
      refine ⟨by simp [h1], h2, ?_⟩
      intro x hx hkx
      rcases List.mem_cons.mp hx with h4 | h4
      · subst h4; omega
      · exact h3 x h4 hkx
    · simp only [lower_bound, h, if_false, List.getElem?_cons_zero, Option.some.injEq] at he
      subst he
      refine ⟨by simp, by omega, ?_⟩
      intro x hx _
      rcases List.mem_cons.mp hx with h4 | h4
      · subst h4; exact le_refl _
      · exact hl.1 x h4

theorem perm_cons_eraseIdx (l : List entity) (i : Nat) (e : entity) (h : l[i]? = some e) :
    l.Perm (e :: l.eraseIdx i) := by
  induction l generalizing i with
  | nil => simp at h
  | cons y ys ih =>
    cases i with
    | zero => simp at h; subst h; simp
    | succ n =>
      simp only [List.getElem?_cons_succ] at h
      simp only [List.eraseIdx_cons_succ]
      exact ((ih n h).cons y).trans (List.Perm.swap e y _)

theorem multiset_insert_perm (key : entity → Nat) (e : entity) (l : List entity) :
    (multiset_insert key e l).Perm (e :: l) := by
  induction l with
  | nil => simp [multiset_insert]
  | cons y ys ih =>
    by_cases h : key e < key y
    · simp [multiset_insert, h]
    · simp only [multiset_insert, h, if_false]
      exact (ih.cons y).trans (List.Perm.swap e y _)

theorem set_insert_perm (key : entity → Nat) (e : entity) (l : List entity)
    (h : ∀ x ∈ l, key x ≠ key e) : (set_insert key e l).Perm (e :: l) := by
  induction l with
  | nil => simp [set_insert]
  | cons y ys ih =>
    have hy := h y (by simp)
    by_cases h1 : key e < key y
    · simp [set_insert, h1]
    · have h2 : key y < key e := by omega
      simp only [set_insert, h1, h2, if_false, if_true]
      exact ((ih (fun x hx => h x (by simp [hx]))).cons y).trans (List.Perm.swap e y _)

theorem set_erase_eq_erase (key : entity → Nat) (e : entity) (l : List entity)
    (hl : l.Pairwise (fun x y => key x < key y)) (he : e ∈ l) :
    set_erase key (key e) l = l.erase e := by
  induction l with
  | nil => simp at he
  | cons y ys ih =>
    rw [List.pairwise_cons] at hl
    by_cases hye : y = e
    · subst hye; simp [set_erase]
    · have he1 : e ∈ ys := by
        rcases List.mem_cons.mp he with h | h
        · exact absurd h.symm hye
        · exact h
      have := hl.1 e he1
      simp [set_erase, this, ih hl.2 he1, List.erase_cons_tail, hye]

theorem mem_set_erase (key : entity → Nat) (k : Nat) (l : List entity)
    (hl : l.Pairwise (fun x y => key x < key y)) (x : entity) :
    x ∈ set_erase key k l ↔ x ∈ l ∧ key x ≠ k := by
  induction l with
  | nil => simp [set_erase]
  | cons y ys ih =>
    rw [List.pairwise_cons] at hl
    by_cases h1 : key y < k
    · simp only [set_erase, h1, if_true, List.mem_cons, ih hl.2]
      constructor
      · rintro (h | h)
        · subst h; exact ⟨Or.inl rfl, by omega⟩
        · exact ⟨Or.inr h.1, h.2⟩
      · rintro ⟨h | h, h2⟩
        · exact Or.inl h
        · exact Or.inr ⟨h, h2⟩
    · by_cases h2 : k < key y
      · simp only [set_erase, h1, h2, if_false, if_true, List.mem_cons]
        constructor
        · rintro (h | h)
          · subst h; exact ⟨Or.inl rfl, by omega⟩
          · have := hl.1 x h
            exact ⟨Or.inr h, by omega⟩
        · rintro ⟨h, _⟩; exact h
      · have h3 : key y = k := by omega
        simp only [set_erase, h1, h2, if_false, List.mem_cons]
        constructor
        · intro h
          have := hl.1 x h
          exact ⟨Or.inr h, by omega⟩
        · rintro ⟨h | h, h4⟩
          · subst h; exact absurd h3 h4
          · exact h

theorem mem_set_insert (key : entity → Nat) (e : entity) (l : List entity)
    (hl : l.Pairwise (fun x y => key x < key y)) (x : entity) :
    x ∈ set_insert key e l ↔ x ∈ l ∨ (x = e ∧ ∀ y ∈ l, key y ≠ key e) := by
  induction l with
  | nil => simp [set_insert]
  | cons y ys ih =>
    rw [List.pairwise_cons] at hl
    by_cases h1 : key e < key y
    · simp only [set_insert, h1, if_true, List.mem_cons]
      constructor
      · rintro (h | h | h)
        · refine Or.inr ⟨h, ?_⟩
          intro z hz
          rcases hz with hz | hz
          · subst hz; omega
          · have := hl.1 z hz; omega
        · exact Or.inl (Or.inl h)
        · exact Or.inl (Or.inr h)
      · rintro (h | h)
        · exact Or.inr h
        · exact Or.inl h.1
    · by_cases h2 : key y < key e
      · simp only [set_insert, h1, h2, if_false, if_true, List.mem_cons, ih hl.2]
        constructor
        · rintro (h | h | h)
          · exact Or.inl (Or.inl h)
          · exact Or.inl (Or.inr h)
          · refine Or.inr ⟨h.1, ?_⟩
            intro z hz
            rcases hz with hz | hz
            · subst hz; omega
            · exact h.2 z hz
        · rintro (h | h)
          · rcases h with h | h
            · exact Or.inl h
            · exact Or.inr (Or.inl h)
          · exact Or.inr (Or.inr ⟨h.1, fun z hz => h.2 z (Or.inr hz)⟩)
      · simp only [set_insert, h1, h2, if_false, List.mem_cons]
        constructor
        · intro h; exact Or.inl h
        · rintro (h | h)
          · exact h
          · exact absurd (by omega) (h.2 y (Or.inl rfl))

theorem bytes_of_valid (e : entity) (h : e.valid) :
    e.get_bytes_count = e.back - e.front := by
  obtain ⟨_, h2, h3⟩ := h
  unfold entity.get_bytes_count
  unfold WORD at *
  omega

theorem bytes_of_le (e : entity) (h2 : e.front ≤ e.back) (h3 : e.back < WORD) :
    e.get_bytes_count = e.back - e.front := by
  unfold entity.get_bytes_count
  unfold WORD at *
  omega

/-- What `do_allocate` does once the lower bound of the size index is a block that is
large enough: no constructor throws. -/
theorem do_allocate_of_fit (s : gmf_memory_resource) (size align : Nat) (e : entity)
    (h0 : 0 < size)
    (he : s.free_entity_pool_by_bytes_[lower_bound entity.get_bytes_count size
      s.free_entity_pool_by_bytes_]? = some e)
    (h2 : e.front ≤ e.back) (h3 : e.back < WORD) (hfit : size ≤ e.get_bytes_count) :
    do_allocate s size align = .ok (e.front,
      { s with
        free_entity_pool_by_bytes_ :=
          if size < e.get_bytes_count then
            multiset_insert entity.get_bytes_count ⟨e.front + size, e.back⟩
              (s.free_entity_pool_by_bytes_.eraseIdx
                (lower_bound entity.get_bytes_count size s.free_entity_pool_by_bytes_))
          else s.free_entity_pool_by_bytes_.eraseIdx
                (lower_bound entity.get_bytes_count size s.free_entity_pool_by_bytes_)
        free_entity_pool_by_front_ :=
          if size < e.get_bytes_count then
            set_insert entity.front ⟨e.front + size, e.back⟩
              (set_erase entity.front e.front s.free_entity_pool_by_front_)
          else set_erase entity.front e.front s.free_entity_pool_by_front_
        occupied_entity_pool_by_front_ :=
          set_insert entity.front ⟨e.front, e.front + size⟩
            s.occupied_entity_pool_by_front_ }) := by
  have hb := bytes_of_le e h2 h3
  have h4 : (e.front + size) % WORD = e.front + size := by
    apply Nat.mod_eq_of_lt; omega
  have h5 : ¬ e.front > e.front + size := by omega
  have h6 : ¬ e.front + size > e.back := by omega
  have h7 : size ≠ 0 := by omega
  simp only [do_allocate, h7, if_false, imaginary_entity.of_count,
    imaginary_entity.get_bytes_count, he, entity.ctor, offset_void_ptr, h4, h5, h6]
  by_cases h8 : size < e.get_bytes_count
  · simp [h8]
  · simp [h8]

theorem mem_blocks (s : gmf_memory_resource) (x : entity) :
    x ∈ s.blocks ↔ x ∈ s.free_entity_pool_by_bytes_ ∨ x ∈ s.free_entity_pool_by_front_ ∨
      x ∈ s.occupied_entity_pool_by_front_ := by
  simp [gmf_memory_resource.blocks, or_assoc]

theorem disjoint_symm : Symmetric disjoint := by
  intro x y h
  exact h.symm

theorem WellFormed.by_front_nodup {s : gmf_memory_resource} (h : WellFormed s) :
    s.free_entity_pool_by_front_.Nodup := by
  refine h.inv.by_front_ordered.imp ?_
  intro a b hab hEq
  subst hEq
  exact absurd hab (lt_irrefl _)

theorem WellFormed.by_bytes_nodup {s : gmf_memory_resource} (h : WellFormed s) :
    s.free_entity_pool_by_bytes_.Nodup :=
  (List.Perm.nodup_iff h.agree).mpr h.by_front_nodup

/-! ### The neighbour probes of `do_deallocate` -/

theorem get_preview_free_cons (x : entity) (xs : List entity) (p : Nat) :
    get_preview_free (x :: xs) p =
      if x.front < p then
        (if lower_bound entity.front p xs = 0 then some x else get_preview_free xs p)
      else if x.front > p then none else some x := by
  by_cases h : x.front < p
  · by_cases h1 : lower_bound entity.front p xs = 0
    · have h2 : ¬ x.front > p := by omega
      simp [get_preview_free, imaginary_entity.of_front, lower_bound, h, h1, h2]
    · obtain ⟨n, hn⟩ := Nat.exists_eq_succ_of_ne_zero h1
      simp [get_preview_free, imaginary_entity.of_front, lower_bound, h, hn]
  · by_cases h2 : x.front > p
    · simp [get_preview_free, imaginary_entity.of_front, lower_bound, h, h2]
    · simp [get_preview_free, imaginary_entity.of_front, lower_bound, h, h2]

theorem get_next_free_cons (x : entity) (xs : List entity) (p : Nat) :
    get_next_free (x :: xs) p = if p < x.front then some x else get_next_free xs p := by
  by_cases h : p < x.front
  · simp [get_next_free, imaginary_entity.of_front, upper_bound, h]
  · simp [get_next_free, imaginary_entity.of_front, upper_bound, h]

theorem get_preview_free_mem (F : List entity) (p : Nat) (l : entity)
    (h : get_preview_free F p = some l) : l ∈ F := by
  induction F with
  | nil => simp [get_preview_free, lower_bound] at h
  | cons x xs ih =>
    rw [get_preview_free_cons] at h
    split at h
    · split at h
      · simp at h; simp [h]
      · simp [ih h]
    · split at h
      · simp at h
      · simp at h; simp [h]

theorem get_next_free_mem (F : List entity) (p : Nat) (r : entity)
    (h : get_next_free F p = some r) : r ∈ F ∧ p < r.front := by
  induction F with
  | nil => simp [get_next_free, upper_bound] at h
  | cons x xs ih =>
    rw [get_next_free_cons] at h
    split at h
    · next hp => simp at h; subst h; simp [hp]
    · have := ih h
      simp [this]

theorem lower_bound_eq_zero (key : entity → Nat) (k : Nat) (l : List entity)
    (hl : l.Pairwise (fun x y => key x < key y)) (h : lower_bound key k l = 0) :
    ∀ x ∈ l, k ≤ key x := by
  cases l with
  | nil => simp
  | cons y ys =>
    rw [List.pairwise_cons] at hl
    by_cases h1 : key y < k
    · simp [lower_bound, h1] at h
    · intro x hx
      rcases List.mem_cons.mp hx with h2 | h2
      · subst h2; omega
      · have := hl.1 x h2; omega

theorem lower_bound_ne_zero (key : entity → Nat) (k : Nat) (l : List entity)
    (h : lower_bound key k l ≠ 0) : ∃ y ∈ l, key y < k := by
  cases l with
  | nil => simp [lower_bound] at h
  | cons y ys =>
    by_cases h1 : key y < k
    · exact ⟨y, by simp, h1⟩
    · simp [lower_bound, h1] at h

/-- The left probe finds the free block that ends at `p`. -/
theorem get_preview_free_adjacent (F : List entity) (p : Nat) (e : entity)
    (hs : F.Pairwise (fun x y => x.front < y.front)) (hd : F.Pairwise disjoint)
    (hv : ∀ x ∈ F, x.front ≤ x.back)
    (he : e ∈ F) (hb : e.back = p) (hne : e.front < e.back) :
    get_preview_free F p = some e := by
  induction F with
  | nil => simp at he
  | cons x xs ih =>
    rw [List.pairwise_cons] at hs hd
    rw [get_preview_free_cons]
    by_cases h : x.front < p
    · rw [if_pos h]
      by_cases h1 : lower_bound entity.front p xs = 0
      · rw [if_pos h1]
        rcases List.mem_cons.mp he with h2 | h2
        · rw [h2]
        · have := lower_bound_eq_zero _ _ _ hs.2 h1 e h2
          omega
      · rw [if_neg h1]
        rcases List.mem_cons.mp he with h2 | h2
        · obtain ⟨y, hy, hyp⟩ := lower_bound_ne_zero _ _ _ h1
          have h3 := hs.1 y hy
          have h4 := hd.1 y hy
          have h5 := hv y (by simp [hy])
          subst h2
          rcases h4 with h4 | h4 <;> omega
        · exact ih hs.2 hd.2 (fun z hz => hv z (by simp [hz])) h2
    · rcases List.mem_cons.mp he with h2 | h2
      · subst h2; omega
      · have := hs.1 e h2
        omega

/-- The right probe finds the free block that starts at `q`, when no free block starts
between `p` and `q`. -/
theorem get_next_free_adjacent (F : List entity) (p q : Nat) (e : entity)
    (hs : F.Pairwise (fun x y => x.front < y.front))
    (hgap : ∀ x ∈ F, p < x.front → q ≤ x.front)
    (he : e ∈ F) (hf : e.front = q) (hpq : p < q) :
    get_next_free F p = some e := by
  induction F with
  | nil => simp at he
  | cons x xs ih =>
    rw [List.pairwise_cons] at hs
    rw [get_next_free_cons]
    by_cases h : p < x.front
    · rw [if_pos h]
      rcases List.mem_cons.mp he with h2 | h2
      · rw [h2]
      · have := hs.1 e h2
        have := hgap x (by simp) h
        omega
    · rw [if_neg h]
      rcases List.mem_cons.mp he with h2 | h2
      · subst h2; omega
      · exact ih hs.2 (fun z hz => hgap z (by simp [hz])) h2

/-! ### Coalescing -/

theorem set_erase_sublist (key : entity → Nat) (k : Nat) (l : List entity) :
    (set_erase key k l).Sublist l := by
  induction l with
  | nil => simp [set_erase]
  | cons y ys ih =>
    by_cases h1 : key y < k
    · simp only [set_erase, h1, if_true]
      exact ih.cons₂ y
    · by_cases h2 : k < key y
      · simp [set_erase, h1, h2]
      · simp [set_erase, h1, h2]

theorem lower_bound_self (key : entity → Nat) (e : entity) (l : List entity)
    (hl : l.Pairwise (fun x y => key x < key y)) (he : e ∈ l) :
    l[lower_bound key (key e) l]? = some e ∧
      l.eraseIdx (lower_bound key (key e) l) = l.erase e := by
  induction l with
  | nil => simp at he
  | cons y ys ih =>
    rw [List.pairwise_cons] at hl
    by_cases hye : y = e
    · subst hye; simp [lower_bound]
    · have he1 : e ∈ ys := by
        rcases List.mem_cons.mp he with h | h
        · exact absurd h.symm hye
        · exact h
      have := hl.1 e he1
      obtain ⟨h1, h2⟩ := ih hl.2 he1
      simp [lower_bound, this, h1, h2, List.erase_cons_tail, hye]

theorem mem_eraseIdx_of_ne (l : List entity) (i : Nat) (m x : entity)
    (hm : l[i]? = some m) (hx : x ∈ l) (hne : x ≠ m) : x ∈ l.eraseIdx i := by
  have h := (List.Perm.mem_iff (perm_cons_eraseIdx l i m hm)).mp hx
  rcases List.mem_cons.mp h with h1 | h1
  · exact absurd h1 hne
  · exact h1

theorem unique_back (F : List entity) (hd : F.Pairwise disjoint)
    (hne : ∀ x ∈ F, x.front < x.back) (x y : entity) (hx : x ∈ F) (hy : y ∈ F)
    (h : x.back = y.back) : x = y := by
  by_contra hxy
  have h1 := hd.forall disjoint_symm hx hy hxy
  have h2 := hne x hx
  have h3 := hne y hy
  rcases h1 with h1 | h1 <;> omega

theorem unique_front (F : List entity) (hs : F.Pairwise (fun x y => x.front < y.front))
    (x y : entity) (hx : x ∈ F) (hy : y ∈ F) (h : x.front = y.front) : x = y := by
  by_contra hxy
  have hs1 : F.Pairwise (fun x y => x.front ≠ y.front) :=
    hs.imp (fun hab => Nat.ne_of_lt hab)
  exact hs1.forall (fun a b hab => hab.symm) hx hy hxy h

theorem merged_front_of_mem (F : List entity) (p : Nat) (l : entity)
    (hd : F.Pairwise disjoint) (hne : ∀ x ∈ F, x.front < x.back)
    (hl : l ∈ F) (hb : l.back = p) : merged_front F p = l.front := by
  unfold merged_front
  split
  · next l1 h1 =>
    have h2 : l1.back = p := by simpa using List.find?_some h1
    have h3 := List.mem_of_find?_eq_some h1
    rw [unique_back F hd hne l1 l h3 hl (by omega)]
  · next h1 =>
    rw [List.find?_eq_none] at h1
    have := h1 l hl
    simp [hb] at this

theorem merged_front_of_not_mem (F : List entity) (p : Nat)
    (h : ∀ x ∈ F, x.back ≠ p) : merged_front F p = p := by
  unfold merged_front
  split
  · next l1 h1 =>
    have h2 : l1.back = p := by simpa using List.find?_some h1
    exact absurd h2 (h l1 (List.mem_of_find?_eq_some h1))
  · rfl

theorem merged_back_of_mem (F : List entity) (q : Nat) (r : entity)
    (hs : F.Pairwise (fun x y => x.front < y.front))
    (hr : r ∈ F) (hf : r.front = q) : merged_back F q = r.back := by
  unfold merged_back
  split
  · next r1 h1 =>
    have h2 : r1.front = q := by simpa using List.find?_some h1
    have h3 := List.mem_of_find?_eq_some h1
    rw [unique_front F hs r1 r h3 hr (by omega)]
  · next h1 =>
    rw [List.find?_eq_none] at h1
    have := h1 r hr
    simp [hf] at this

theorem merged_back_of_not_mem (F : List entity) (q : Nat)
    (h : ∀ x ∈ F, x.front ≠ q) : merged_back F q = q := by
  unfold merged_back
  split
  · next r1 h1 =>
    have h2 : r1.front = q := by simpa using List.find?_some h1
    exact absurd h2 (h r1 (List.mem_of_find?_eq_some h1))
  · rfl

/-- The first `if` of `do_deallocate` in a state whose free indices agree. -/
theorem absorb_left_spec (F B : List entity) (p q : Nat)
    (hs : F.Pairwise (fun x y => x.front < y.front)) (hd : F.Pairwise disjoint)
    (hne : ∀ x ∈ F, x.front < x.back) (hperm : B.Perm F)
    (hB : B.Pairwise (fun x y => x.get_bytes_count ≤ y.get_bytes_count)) :
    ∃ m1, absorb_left (get_preview_free F p) ⟨⟨p, q⟩, F, B⟩ = .ok m1 ∧
      m1.new_free_entity = ⟨merged_front F p, q⟩ ∧
      (∀ x, x ∈ m1.by_front ↔ x ∈ F ∧ x.back ≠ p) ∧
      m1.by_front.Pairwise (fun x y => x.front < y.front) ∧
      m1.by_bytes.Sublist B ∧
      (∀ r ∈ F, r.back ≠ p → ∃ y ∈ m1.by_bytes, r.get_bytes_count ≤ y.get_bytes_count) := by
  by_cases hex : ∃ l ∈ F, l.back = p
  · obtain ⟨l, hl, hb⟩ := hex
    have hprobe := get_preview_free_adjacent F p l hs hd
      (fun x hx => Nat.le_of_lt (hne x hx)) hl hb (hne l hl)
    have hlB : l ∈ B := (List.Perm.mem_iff hperm).mpr hl
    have hlt := lower_bound_lt_length entity.get_bytes_count l.get_bytes_count B l hlB
      (le_refl _)
    obtain ⟨m, hm⟩ : ∃ m, B[lower_bound entity.get_bytes_count l.get_bytes_count B]? = some m :=
      ⟨_, List.getElem?_eq_getElem hlt⟩
    obtain ⟨-, -, hleast⟩ := lower_bound_least _ _ _ m hB hm
    refine ⟨⟨⟨l.front, q⟩, set_erase entity.front l.front F,
      B.eraseIdx (lower_bound entity.get_bytes_count l.get_bytes_count B)⟩, ?_, ?_, ?_, ?_, ?_, ?_⟩
    · simp only [absorb_left, hprobe, entity.close_left, hb, beq_self_eq_true, if_true,
        erase_at, hlt]
    · simp [merged_front_of_mem F p l hd hne hl hb]
    · intro x
      simp only [mem_set_erase entity.front l.front F hs x]
      constructor
      · rintro ⟨h1, h2⟩
        refine ⟨h1, fun h3 => h2 ?_⟩
        rw [unique_back F hd hne x l h1 hl (by omega)]
      · rintro ⟨h1, h2⟩
        refine ⟨h1, fun h3 => h2 ?_⟩
        rw [unique_front F hs x l h1 hl h3, hb]
    · exact hs.sublist (set_erase_sublist _ _ _)
    · exact List.eraseIdx_sublist _ _
    · intro r hr hrb
      have hrB : r ∈ B := (List.Perm.mem_iff hperm).mpr hr
      have hrl : r ≠ l := fun h => hrb (by rw [h, hb])
      by_cases hrm : r = m
      · refine ⟨l, mem_eraseIdx_of_ne B _ m l hm hlB (fun h => hrl (by rw [hrm, h])), ?_⟩
        rw [hrm]
        exact hleast l hlB (le_refl _)
      · exact ⟨r, mem_eraseIdx_of_ne B _ m r hm hrB hrm, le_refl _⟩
  · have hno : ∀ x ∈ F, x.back ≠ p := fun x hx hb => hex ⟨x, hx, hb⟩
    refine ⟨⟨⟨p, q⟩, F, B⟩, ?_, ?_, ?_, hs, List.Sublist.refl _, ?_⟩
    · cases hprobe : get_preview_free F p with
      | none => simp [absorb_left]
      | some l =>
        have hl := get_preview_free_mem F p l hprobe
        have := hno l hl
        have h1 : ¬ p = l.back := fun h => this h.symm
        simp [absorb_left, entity.close_left, h1]
    · simp [merged_front_of_not_mem F p hno]
    · intro x
      exact ⟨fun h => ⟨h, hno x h⟩, fun h => h.1⟩
    · intro r hr _
      exact ⟨r, (List.Perm.mem_iff hperm).mpr hr, le_refl _⟩

/-- The second `if` of `do_deallocate`, after the first one. -/
theorem absorb_right_spec (F F1 B1 : List entity) (p p1 q : Nat)
    (hs : F.Pairwise (fun x y => x.front < y.front))
    (hne : ∀ x ∈ F, x.front < x.back)
    (hgap : ∀ x ∈ F, p < x.front → q ≤ x.front) (hpq : p < q)
    (hs1 : F1.Pairwise (fun x y => x.front < y.front)) (hsub : ∀ x ∈ F1, x ∈ F)
    (hfit : ∀ r ∈ F, r.back ≠ p → ∃ y ∈ B1, r.get_bytes_count ≤ y.get_bytes_count) :
    ∃ m2, absorb_right (get_next_free F p) ⟨⟨p1, q⟩, F1, B1⟩ = .ok m2 ∧
      m2.new_free_entity = ⟨p1, merged_back F q⟩ ∧
      (∀ x, x ∈ m2.by_front ↔ x ∈ F1 ∧ x.front ≠ q) ∧
      m2.by_front.Pairwise (fun x y => x.front < y.front) ∧
      m2.by_bytes.Sublist B1 := by
  by_cases hex : ∃ r ∈ F, r.front = q
  · obtain ⟨r, hr, hf⟩ := hex
    have hprobe := get_next_free_adjacent F p q r hs hgap hr hf hpq
    have hrb : r.back ≠ p := by
      have := hne r hr
      omega
    obtain ⟨y, hy, hyr⟩ := hfit r hr hrb
    have hlt := lower_bound_lt_length entity.get_bytes_count r.get_bytes_count B1 y hy hyr
    refine ⟨⟨⟨p1, r.back⟩, set_erase entity.front r.front F1,
      B1.eraseIdx (lower_bound entity.get_bytes_count r.get_bytes_count B1)⟩, ?_, ?_, ?_, ?_, ?_⟩
    · simp only [absorb_right, hprobe, entity.close_right, hf, beq_self_eq_true, if_true,
        erase_at, hlt]
    · simp [merged_back_of_mem F q r hs hr hf]
    · intro x
      rw [hf]
      exact mem_set_erase entity.front q F1 hs1 x
    · exact hs1.sublist (set_erase_sublist _ _ _)
    · exact List.eraseIdx_sublist _ _
  · have hno : ∀ x ∈ F, x.front ≠ q := fun x hx hb => hex ⟨x, hx, hb⟩
    refine ⟨⟨⟨p1, q⟩, F1, B1⟩, ?_, ?_, ?_, hs1, List.Sublist.refl _⟩
    · cases hprobe : get_next_free F p with
      | none => simp [absorb_right]
      | some r =>
        have hr := (get_next_free_mem F p r hprobe).1
        have := hno r hr
        have h1 : ¬ q = r.front := fun h => this h.symm
        simp [absorb_right, entity.close_right, h1]
    · simp [merged_back_of_not_mem F q hno]
    · intro x
      constructor
      · intro h
        exact ⟨h, hno x (hsub x h)⟩
      · exact fun h => h.1

theorem set_insert_ordered (key : entity → Nat) (e : entity) (l : List entity)
    (hl : l.Pairwise (fun x y => key x < key y)) :
    (set_insert key e l).Pairwise (fun x y => key x < key y) := by
  induction l with
  | nil => simp [set_insert]
  | cons y ys ih =>
    have hl1 := List.pairwise_cons.mp hl
    by_cases h1 : key e < key y
    · simp only [set_insert, h1, if_true]
      refine List.pairwise_cons.mpr ⟨?_, hl⟩
      intro z hz
      rcases List.mem_cons.mp hz with h | h
      · subst h; exact h1
      · have := hl1.1 z h; omega
    · by_cases h2 : key y < key e
      · simp only [set_insert, h1, h2, if_false, if_true]
        refine List.pairwise_cons.mpr ⟨?_, ih hl1.2⟩
        intro z hz
        rcases (mem_set_insert key e ys hl1.2 z).mp hz with h | h
        · exact hl1.1 z h
        · rw [h.1]; exact h2
      · simpa [set_insert, h1, h2] using hl

theorem mem_multiset_insert (key : entity → Nat) (e : entity) (l : List entity) (x : entity) :
    x ∈ multiset_insert key e l ↔ x = e ∨ x ∈ l := by
  rw [List.Perm.mem_iff (multiset_insert_perm key e l), List.mem_cons]

theorem multiset_insert_ordered (key : entity → Nat) (e : entity) (l : List entity)
    (hl : l.Pairwise (fun x y => key x ≤ key y)) :
    (multiset_insert key e l).Pairwise (fun x y => key x ≤ key y) := by
  induction l with
  | nil => simp [multiset_insert]
  | cons y ys ih =>
    have hl1 := List.pairwise_cons.mp hl
    by_cases h1 : key e < key y
    · simp only [multiset_insert, h1, if_true]
      refine List.pairwise_cons.mpr ⟨?_, hl⟩
      intro z hz
      rcases List.mem_cons.mp hz with h | h
      · subst h; omega
      · have := hl1.1 z h; omega
    · simp only [multiset_insert, h1, if_false]
      refine List.pairwise_cons.mpr ⟨?_, ih hl1.2⟩
      intro z hz
      rcases (mem_multiset_insert key e ys z).mp hz with h | h
      · rw [h]; omega
      · exact hl1.1 z h

/-- What `do_deallocate` does in a well-formed state when `p` is the front of the
occupied block that ends at `q`. -/
theorem do_deallocate_spec (s : gmf_memory_resource) (p q bytes align : Nat)
    (hwf : WellFormed s) (hocc : (⟨p, q⟩ : entity) ∈ s.occupied_entity_pool_by_front_) :
    ∃ F2 B2,
      do_deallocate s p bytes align = .ok
        { s with
          occupied_entity_pool_by_front_ := s.occupied_entity_pool_by_front_.erase ⟨p, q⟩
          free_entity_pool_by_front_ := set_insert entity.front
            ⟨merged_front s.free_entity_pool_by_front_ p,
              merged_back s.free_entity_pool_by_front_ q⟩ F2
          free_entity_pool_by_bytes_ := multiset_insert entity.get_bytes_count
            ⟨merged_front s.free_entity_pool_by_front_ p,
              merged_back s.free_entity_pool_by_front_ q⟩ B2 } ∧
      (∀ x, x ∈ F2 ↔ x ∈ s.free_entity_pool_by_front_ ∧ x.back ≠ p ∧ x.front ≠ q) ∧
      F2.Pairwise (fun x y => x.front < y.front) ∧
      B2.Sublist s.free_entity_pool_by_bytes_ ∧
      (∀ y ∈ F2, y.front ≠ merged_front s.free_entity_pool_by_front_ p) := by
  have hap := List.pairwise_append.mp hwf.apart
  have hs := hwf.inv.by_front_ordered
  have hne : ∀ x ∈ s.free_entity_pool_by_front_, x.front < x.back :=
    fun x hx => hwf.nonempty x (by simp [hx])
  have hpq : p < q := hwf.nonempty ⟨p, q⟩ (by simp [hocc])
  have hfar : ∀ x ∈ s.free_entity_pool_by_front_, x.back ≤ p ∨ q ≤ x.front :=
    fun x hx => hap.2.2 x hx ⟨p, q⟩ hocc
  have hgap : ∀ x ∈ s.free_entity_pool_by_front_, p < x.front → q ≤ x.front := by
    intro x hx h
    have := hne x hx
    rcases hfar x hx with h1 | h1 <;> omega
  obtain ⟨hO1, hO2⟩ := lower_bound_self entity.front ⟨p, q⟩ _ hwf.inv.occupied_ordered hocc
  obtain ⟨m1, hm1, hnew1, hmem1, hs1, hsub1, hfit1⟩ := absorb_left_spec
    s.free_entity_pool_by_front_ s.free_entity_pool_by_bytes_ p q hs hap.1 hne hwf.agree
    hwf.inv.by_bytes_ordered
  obtain ⟨n1, F1, B1⟩ := m1
  simp only at hnew1 hmem1 hs1 hsub1 hfit1
  subst hnew1
  obtain ⟨m2, hm2, hnew2, hmem2, hs2, hsub2⟩ := absorb_right_spec
    s.free_entity_pool_by_front_ F1 B1 p (merged_front s.free_entity_pool_by_front_ p) q
    hs hne hgap hpq hs1 (fun x hx => ((hmem1 x).mp hx).1) hfit1
  obtain ⟨n2, F2, B2⟩ := m2
  simp only at hnew2 hmem2 hs2 hsub2
  subst hnew2
  have hmemF2 : ∀ x, x ∈ F2 ↔ x ∈ s.free_entity_pool_by_front_ ∧ x.back ≠ p ∧ x.front ≠ q := by
    intro x
    rw [hmem2 x, hmem1 x, and_assoc]
  refine ⟨F2, B2, ?_, hmemF2, hs2, hsub2.trans hsub1, ?_⟩
  · simp only [do_deallocate, imaginary_entity.of_front]
    simp only [entity.front] at hO1 hO2
    simp only [hO1, hO2, ne_eq, not_true_eq_false, if_false, hm1, hm2]
  · intro y hy hyf
    obtain ⟨hy1, hy2, -⟩ := (hmemF2 y).mp hy
    by_cases hex : ∃ l ∈ s.free_entity_pool_by_front_, l.back = p
    · obtain ⟨l, hl, hb⟩ := hex
      rw [merged_front_of_mem _ p l hap.1 hne hl hb] at hyf
      rw [unique_front _ hs y l hy1 hl hyf] at hy2
      exact hy2 hb
    · have hno : ∀ x ∈ s.free_entity_pool_by_front_, x.back ≠ p :=
        fun x hx hb => hex ⟨x, hx, hb⟩
      rw [merged_front_of_not_mem _ p hno] at hyf
      have := hne y hy1
      rcases hfar y hy1 with h1 | h1 <;> omega

theorem ctor_ok (a b : Nat) (s : gmf_memory_resource)
    (h : gmf_memory_resource.ctor a b = .ok s) :
    a ≠ 0 ∧ b ≠ 0 ∧ a ≤ b ∧ s = ⟨[⟨a, b⟩], [⟨a, b⟩], [], a, b⟩ := by
  unfold gmf_memory_resource.ctor entity.ctor at h
  by_cases h1 : a = 0 ∨ b = 0
  · simp [h1] at h
  · by_cases h2 : a > b
    · simp [h1, h2] at h
    · simp [h1, h2, multiset_insert, set_insert] at h
      refine ⟨fun h3 => h1 (Or.inl h3), fun h3 => h1 (Or.inr h3), by omega, h.symm⟩

theorem reachable_run (cs : List call) : ∀ (s s1 : gmf_memory_resource), Reachable s →
    (∀ c ∈ cs, c.in_range) → run s cs = .ok s1 → Reachable s1 := by
  induction cs with
  | nil => intro s s1 hs _ h; simp [run] at h; subst h; exact hs
  | cons c cs ih =>
    intro s s1 hs hc h
    simp only [run] at h
    split at h
    · simp at h
    · next s2 h2 =>
      exact ih s2 s1 (Reachable.call s s2 c hs (hc c (by simp)) h2)
        (fun c1 h1 => hc c1 (by simp [h1])) h

theorem reachable_run_from (a b : Nat) (cs : List call) (s : gmf_memory_resource)
    (ha : a < WORD) (hb : b < WORD) (hc : ∀ c ∈ cs, c.in_range)
    (h : run_from a b cs = .ok s) : Reachable s := by
  unfold run_from at h
  split at h
  · simp at h
  · next s0 h0 => exact reachable_run cs s0 s (Reachable.init a b s0 ha hb h0) hc h

theorem best_fit_state_wf : WellFormed best_fit_state :=
  ⟨⟨by decide, by decide, by decide, by decide⟩, by unfold IndexAgreement; decide, by decide,
    by decide⟩

theorem best_fit_state_reachable : Reachable best_fit_state :=
  reachable_run_from 100 200 best_fit_trace best_fit_state (by decide) (by decide)
    (by simp [best_fit_trace, call.in_range, WORD]) rfl

/-! ### The container invariants hold in every reachable state -/

theorem mem_of_mem_set_insert (key : entity → Nat) (e : entity) (l : List entity) (x : entity)
    (h : x ∈ set_insert key e l) : x = e ∨ x ∈ l := by
  induction l with
  | nil => simpa [set_insert] using h
  | cons y ys ih =>
    by_cases h1 : key e < key y
    · simp only [set_insert, h1, if_true, List.mem_cons] at h
      simpa using h
    · by_cases h2 : key y < key e
      · simp only [set_insert, h1, h2, if_false, if_true, List.mem_cons] at h
        rcases h with h | h
        · exact Or.inr (by simp [h])
        · rcases ih h with h3 | h3
          · exact Or.inl h3
          · exact Or.inr (by simp [h3])
      · simp only [set_insert, h1, h2, if_false] at h
        exact Or.inr h

theorem ctor_inv (a b : Nat) (s : gmf_memory_resource) (hb : b < WORD)
    (h : gmf_memory_resource.ctor a b = .ok s) :
    Inv s ∧ ∀ e ∈ s.occupied_entity_pool_by_front_, e.front < e.back := by
  obtain ⟨ha0, -, hab, hs⟩ := ctor_ok a b s h
  subst hs
  refine ⟨⟨by simp, by simp, by simp, ?_⟩, by simp⟩
  intro e he
  simp [gmf_memory_resource.blocks] at he
  subst he
  exact ⟨by simp; omega, hab, hb⟩

theorem do_allocate_inv (s s1 : gmf_memory_resource) (n al p : Nat) (hn : n < WORD)
    (hinv : Inv s) (hocc : ∀ e ∈ s.occupied_entity_pool_by_front_, e.front < e.back)
    (h : do_allocate s n al = .ok (p, s1)) :
    Inv s1 ∧ ∀ e ∈ s1.occupied_entity_pool_by_front_, e.front < e.back := by
  unfold do_allocate at h
  by_cases h0 : n = 0
  · simp [h0] at h
    rw [← h.2]
    exact ⟨hinv, hocc⟩
  · simp only [h0, if_false, imaginary_entity.of_count, imaginary_entity.get_bytes_count] at h
    split at h
    · simp at h
      rw [← h.2]
      exact ⟨hinv, hocc⟩
    · next e he =>
      have hmem : e ∈ s.free_entity_pool_by_bytes_ := List.mem_iff_getElem?.mpr ⟨_, he⟩
      obtain ⟨hv1, hv2, hv3⟩ := hinv.valid e ((mem_blocks s e).mpr (Or.inl hmem))
      unfold entity.ctor offset_void_ptr at h
      by_cases hc1 : e.front > (e.front + n) % WORD
      · simp [hc1] at h
      · simp only [hc1, if_false] at h
        have hlt : (e.front + n) % WORD < WORD := Nat.mod_lt _ (by unfold WORD; decide)
        have hpos : e.front < (e.front + n) % WORD := by
          unfold WORD at *
          omega
        have hvo : entity.valid ⟨e.front, (e.front + n) % WORD⟩ := ⟨hv1, Nat.le_of_lt hpos, hlt⟩
        have hB1 := hinv.by_bytes_ordered.sublist (List.eraseIdx_sublist
          s.free_entity_pool_by_bytes_ (lower_bound entity.get_bytes_count n
            s.free_entity_pool_by_bytes_))
        have hF1 := hinv.by_front_ordered.sublist (set_erase_sublist entity.front e.front
          s.free_entity_pool_by_front_)
        have hO1 := set_insert_ordered entity.front ⟨e.front, (e.front + n) % WORD⟩ _
          hinv.occupied_ordered
        have hOv : ∀ x ∈ set_insert entity.front ⟨e.front, (e.front + n) % WORD⟩
            s.occupied_entity_pool_by_front_, x.valid ∧ x.front < x.back := by
          intro x hx
          rcases mem_of_mem_set_insert _ _ _ _ hx with h1 | h1
          · subst h1; exact ⟨hvo, hpos⟩
          · exact ⟨hinv.valid x ((mem_blocks s x).mpr (Or.inr (Or.inr h1))), hocc x h1⟩
        have hBv : ∀ x ∈ s.free_entity_pool_by_bytes_.eraseIdx
            (lower_bound entity.get_bytes_count n s.free_entity_pool_by_bytes_), x.valid :=
          fun x hx => hinv.valid x ((mem_blocks s x).mpr (Or.inl (List.mem_of_mem_eraseIdx hx)))
        have hFv : ∀ x ∈ set_erase entity.front e.front s.free_entity_pool_by_front_,
            x.valid :=
          fun x hx => hinv.valid x ((mem_blocks s x).mpr
            (Or.inr (Or.inl ((set_erase_sublist _ _ _).subset hx))))
        by_cases hgt : e.get_bytes_count > n
        · simp only [hgt, if_true] at h
          by_cases hc2 : (e.front + n) % WORD > e.back
          · simp [hc2] at h
          · simp only [hc2, if_false, Except.ok.injEq, Prod.mk.injEq] at h
            have hvn : entity.valid ⟨(e.front + n) % WORD, e.back⟩ := ⟨by simp; omega, by simp; omega, hv3⟩
            rw [← h.2]
            refine ⟨⟨multiset_insert_ordered _ _ _ hB1, set_insert_ordered _ _ _ hF1, hO1, ?_⟩,
              fun x hx => (hOv x hx).2⟩
            intro x hx
            rcases (mem_blocks _ x).mp hx with h1 | h1 | h1
            · rcases (mem_multiset_insert _ _ _ x).mp h1 with h2 | h2
              · rw [h2]; exact hvn
              · exact hBv x h2
            · rcases mem_of_mem_set_insert _ _ _ _ h1 with h2 | h2
              · rw [h2]; exact hvn
              · exact hFv x h2
            · exact (hOv x h1).1
        · simp only [hgt, if_false, Except.ok.injEq, Prod.mk.injEq] at h
          rw [← h.2]
          refine ⟨⟨hB1, hF1, hO1, ?_⟩, fun x hx => (hOv x hx).2⟩
          intro x hx
          rcases (mem_blocks _ x).mp hx with h1 | h1 | h1
          · exact hBv x h1
          · exact hFv x h1
          · exact (hOv x h1).1

theorem absorb_left_inv (lf : Option entity) (m m1 : merge_state)
    (hlf : ∀ l, lf = some l → l.valid) (hv : m.new_free_entity.valid)
    (h : absorb_left lf m = .ok m1) :
    m1.new_free_entity.valid ∧ m1.by_front.Sublist m.by_front ∧
      m1.by_bytes.Sublist m.by_bytes ∧
      (m.new_free_entity.front < m.new_free_entity.back →
        m1.new_free_entity.front < m1.new_free_entity.back) := by
  unfold absorb_left at h
  cases lf with
  | none =>
    simp at h
    subst h
    exact ⟨hv, List.Sublist.refl _, List.Sublist.refl _, fun h => h⟩
  | some l =>
    obtain ⟨hl1, hl2, -⟩ := hlf l rfl
    obtain ⟨hv1, hv2, hv3⟩ := hv
    simp only at h
    by_cases hc : m.new_free_entity.close_left l = true
    · have hc1 : m.new_free_entity.front = l.back := by
        simpa [entity.close_left] using hc
      simp only [hc, if_true, erase_at] at h
      by_cases hlt : lower_bound entity.get_bytes_count l.get_bytes_count m.by_bytes <
          m.by_bytes.length
      · simp only [hlt, if_true, Except.ok.injEq] at h
        subst h
        exact ⟨⟨hl1, by simp only; omega, hv3⟩, set_erase_sublist _ _ _,
          List.eraseIdx_sublist _ _, fun h => by simp only; omega⟩
      · simp [hlt] at h
    · simp only [hc, Bool.false_eq_true, if_false, Except.ok.injEq] at h
      subst h
      exact ⟨⟨hv1, hv2, hv3⟩, List.Sublist.refl _, List.Sublist.refl _, fun h => h⟩

theorem absorb_right_inv (rf : Option entity) (m m1 : merge_state)
    (hrf : ∀ r, rf = some r → r.valid) (hv : m.new_free_entity.valid)
    (h : absorb_right rf m = .ok m1) :
    m1.new_free_entity.valid ∧ m1.by_front.Sublist m.by_front ∧
      m1.by_bytes.Sublist m.by_bytes ∧
      (m.new_free_entity.front < m.new_free_entity.back →
        m1.new_free_entity.front < m1.new_free_entity.back) := by
  unfold absorb_right at h
  cases rf with
  | none =>
    simp at h
    subst h
    exact ⟨hv, List.Sublist.refl _, List.Sublist.refl _, fun h => h⟩
  | some r =>
    obtain ⟨-, hr2, hr3⟩ := hrf r rfl
    obtain ⟨hv1, hv2, hv3⟩ := hv
    simp only at h
    by_cases hc : m.new_free_entity.close_right r = true
    · have hc1 : m.new_free_entity.back = r.front := by
        simpa [entity.close_right] using hc
      simp only [hc, if_true, erase_at] at h
      by_cases hlt : lower_bound entity.get_bytes_count r.get_bytes_count m.by_bytes <
          m.by_bytes.length
      · simp only [hlt, if_true, Except.ok.injEq] at h
        subst h
        exact ⟨⟨hv1, by simp only; omega, hr3⟩, set_erase_sublist _ _ _,
          List.eraseIdx_sublist _ _, fun h => by simp only; omega⟩
      · simp [hlt] at h
    · simp only [hc, Bool.false_eq_true, if_false, Except.ok.injEq] at h
      subst h
      exact ⟨⟨hv1, hv2, hv3⟩, List.Sublist.refl _, List.Sublist.refl _, fun h => h⟩

theorem do_deallocate_inv (s s1 : gmf_memory_resource) (p n al : Nat)
    (hinv : Inv s) (hocc : ∀ e ∈ s.occupied_entity_pool_by_front_, e.front < e.back)
    (h : do_deallocate s p n al = .ok s1) :
    Inv s1 ∧ ∀ e ∈ s1.occupied_entity_pool_by_front_, e.front < e.back := by
  unfold do_deallocate at h
  simp only at h
  split at h
  · simp at h
    subst h
    exact ⟨hinv, hocc⟩
  · next occ hocc1 =>
    by_cases hne : occ.front ≠ p
    · simp [hne] at h
      subst h
      exact ⟨hinv, hocc⟩
    · simp only [hne, if_false] at h
      have hoccm : occ ∈ s.occupied_entity_pool_by_front_ :=
        List.mem_iff_getElem?.mpr ⟨_, hocc1⟩
      have hvo := hinv.valid occ ((mem_blocks s occ).mpr (Or.inr (Or.inr hoccm)))
      have hFv : ∀ x ∈ s.free_entity_pool_by_front_, x.valid :=
        fun x hx => hinv.valid x ((mem_blocks s x).mpr (Or.inr (Or.inl hx)))
      split at h
      · simp at h
      · next m1 hm1 =>
        obtain ⟨hv1, hF1, hB1, -⟩ := absorb_left_inv _ _ m1
          (fun l hl => hFv l (get_preview_free_mem _ _ l hl)) hvo hm1
        split at h
        · simp at h
        · next m2 hm2 =>
          obtain ⟨hv2, hF2, hB2, -⟩ := absorb_right_inv _ _ m2
            (fun r hr => hFv r (get_next_free_mem _ _ r hr).1) hv1 hm2
          simp only [Except.ok.injEq] at h
          subst h
          have hOsub := List.eraseIdx_sublist s.occupied_entity_pool_by_front_
            (lower_bound entity.front (imaginary_entity.of_front p).front
              s.occupied_entity_pool_by_front_)
          refine ⟨⟨multiset_insert_ordered _ _ _ (hinv.by_bytes_ordered.sublist (hB2.trans hB1)),
            set_insert_ordered _ _ _ (hinv.by_front_ordered.sublist (hF2.trans hF1)),
            hinv.occupied_ordered.sublist hOsub, ?_⟩, fun x hx => hocc x (hOsub.subset hx)⟩
          intro x hx
          rcases (mem_blocks _ x).mp hx with h1 | h1 | h1
          · rcases (mem_multiset_insert _ _ _ x).mp h1 with h2 | h2
            · rw [h2]; exact hv2
            · exact hinv.valid x ((mem_blocks s x).mpr (Or.inl ((hB2.trans hB1).subset h2)))
          · rcases mem_of_mem_set_insert _ _ _ _ h1 with h2 | h2
            · rw [h2]; exact hv2
            · exact hFv x ((hF2.trans hF1).subset h2)
          · exact hinv.valid x ((mem_blocks s x).mpr (Or.inr (Or.inr (hOsub.subset h1))))

/-- Every reachable state satisfies the container invariants, and its occupied blocks are
not empty. -/
theorem reachable_inv (s : gmf_memory_resource) (h : Reachable s) :
    Inv s ∧ ∀ e ∈ s.occupied_entity_pool_by_front_, e.front < e.back := by
  induction h with
  | init a b s _ hb h => exact ctor_inv a b s hb h
  | call s s1 c _ hc h ih =>
    cases c with
    | allocate bytes align =>
      simp only [step] at h
      split at h
      · simp at h
      · next r hr =>
        simp only [Except.ok.injEq] at h
        subst h
        exact do_allocate_inv s r.2 bytes align r.1 hc.1 ih.1 ih.2 hr
    | deallocate ptr bytes align =>
      exact do_deallocate_inv s s1 ptr bytes align ih.1 ih.2 h

theorem allocate_zero_eq (s : gmf_memory_resource) (align : Nat) :
    do_allocate s 0 align = .ok (0, s) := by
  simp [do_allocate]

theorem ctor_free_nonempty (a b : Nat) (s : gmf_memory_resource) (hb : b < WORD)
    (h : gmf_memory_resource.ctor a b = .ok s) : FreeNonempty s := by
  obtain ⟨-, -, hab, hs⟩ := ctor_ok a b s h
  subst hs
  by_cases hlt : a < b
  · left
    intro e he
    simp at he
    subst he
    exact hlt
  · right
    refine ⟨rfl, ?_⟩
    intro e he
    simp at he
    subst he
    have : a = b := by omega
    subst this
    rw [bytes_of_le ⟨a, a⟩ (le_refl _) hb]
    simp

theorem do_allocate_free_nonempty (s s1 : gmf_memory_resource) (n al p : Nat)
    (hinv : Inv s) (hfn : FreeNonempty s)
    (h : do_allocate s n al = .ok (p, s1)) : FreeNonempty s1 := by
  by_cases h0 : n = 0
  · subst h0
    rw [allocate_zero_eq] at h
    simp at h
    rw [← h.2]
    exact hfn
  · by_cases hfit : ∃ x ∈ s.free_entity_pool_by_bytes_, n ≤ x.get_bytes_count
    · rcases hfn with hfn | hfn
      · obtain ⟨x, hx, hxk⟩ := hfit
        have hlt := lower_bound_lt_length entity.get_bytes_count n _ x hx hxk
        obtain ⟨e, he⟩ : ∃ e, s.free_entity_pool_by_bytes_[lower_bound entity.get_bytes_count n
            s.free_entity_pool_by_bytes_]? = some e :=
          ⟨_, List.getElem?_eq_getElem hlt⟩
        obtain ⟨hmem, hge, -⟩ := lower_bound_least _ _ _ e hinv.by_bytes_ordered he
        have hv := hinv.valid e ((mem_blocks s e).mpr (Or.inl hmem))
        have hb := bytes_of_valid e hv
        rw [do_allocate_of_fit s n al e (by omega) he hv.2.1 hv.2.2 hge] at h
        simp only [Except.ok.injEq, Prod.mk.injEq] at h
        rw [← h.2]
        left
        intro x hx
        simp only [List.mem_append] at hx
        by_cases hgt : n < e.get_bytes_count
        · simp only [hgt, if_true] at hx
          rcases hx with h1 | h1
          · rcases (mem_multiset_insert _ _ _ x).mp h1 with h2 | h2
            · rw [h2]; simp only; omega
            · exact hfn x (by simp [List.mem_of_mem_eraseIdx h2])
          · rcases mem_of_mem_set_insert _ _ _ _ h1 with h2 | h2
            · rw [h2]; simp only; omega
            · exact hfn x (by simp [(set_erase_sublist _ _ _).subset h2])
        · simp only [hgt, if_false] at hx
          rcases hx with h1 | h1
          · exact hfn x (by simp [List.mem_of_mem_eraseIdx h1])
          · exact hfn x (by simp [(set_erase_sublist _ _ _).subset h1])
      · obtain ⟨x, hx, hxk⟩ := hfit
        have := hfn.2 x hx
        omega
    · have hno : ∀ x ∈ s.free_entity_pool_by_bytes_, x.get_bytes_count < n := by
        intro x hx
        by_contra hx1
        exact hfit ⟨x, hx, by omega⟩
      have h1 := lower_bound_eq_length entity.get_bytes_count n _ hno
      simp [do_allocate, h0, imaginary_entity.of_count, imaginary_entity.get_bytes_count,
        h1] at h
      rw [← h.2]
      exact hfn

theorem do_deallocate_free_nonempty (s s1 : gmf_memory_resource) (p n al : Nat)
    (hinv : Inv s) (hocc : ∀ e ∈ s.occupied_entity_pool_by_front_, e.front < e.back)
    (hfn : FreeNonempty s)
    (h : do_deallocate s p n al = .ok s1) : FreeNonempty s1 := by
  unfold do_deallocate at h
  simp only at h
  split at h
  · simp at h
    subst h
    exact hfn
  · next occ hocc1 =>
    by_cases hne : occ.front ≠ p
    · simp [hne] at h
      subst h
      exact hfn
    · simp only [hne, if_false] at h
      have hoccm : occ ∈ s.occupied_entity_pool_by_front_ :=
        List.mem_iff_getElem?.mpr ⟨_, hocc1⟩
      have hvo := hinv.valid occ ((mem_blocks s occ).mpr (Or.inr (Or.inr hoccm)))
      have hFv : ∀ x ∈ s.free_entity_pool_by_front_, x.valid :=
        fun x hx => hinv.valid x ((mem_blocks s x).mpr (Or.inr (Or.inl hx)))
      rcases hfn with hfn | hfn
      · split at h
        · simp at h
        · next m1 hm1 =>
          obtain ⟨hv1, hF1, hB1, hn1⟩ := absorb_left_inv _ _ m1
            (fun l hl => hFv l (get_preview_free_mem _ _ l hl)) hvo hm1
          split at h
          · simp at h
          · next m2 hm2 =>
            obtain ⟨hv2, hF2, hB2, hn2⟩ := absorb_right_inv _ _ m2
              (fun r hr => hFv r (get_next_free_mem _ _ r hr).1) hv1 hm2
            simp only [Except.ok.injEq] at h
            subst h
            left
            intro x hx
            simp only [List.mem_append] at hx
            rcases hx with h1 | h1
            · rcases (mem_multiset_insert _ _ _ x).mp h1 with h2 | h2
              · rw [h2]; exact hn2 (hn1 (hocc occ hoccm))
              · exact hfn x (by simp [(hB2.trans hB1).subset h2])
            · rcases mem_of_mem_set_insert _ _ _ _ h1 with h2 | h2
              · rw [h2]; exact hn2 (hn1 (hocc occ hoccm))
              · exact hfn x (by simp [(hF2.trans hF1).subset h2])
      · rw [hfn.1] at hoccm
        simp at hoccm

/-- In every reachable state the free blocks are not empty, unless the pool is empty. -/
theorem reachable_free_nonempty (s : gmf_memory_resource) (h : Reachable s) :
    FreeNonempty s := by
  induction h with
  | init a b s _ hb h => exact ctor_free_nonempty a b s hb h
  | call s s1 c hs hc h ih =>
    cases c with
    | allocate bytes align =>
      simp only [step] at h
      split at h
      · simp at h
      · next r hr =>
        simp only [Except.ok.injEq] at h
        subst h
        exact do_allocate_free_nonempty s r.2 bytes align r.1 (reachable_inv s hs).1 ih hr
    | deallocate ptr bytes align =>
      exact do_deallocate_free_nonempty s s1 ptr bytes align (reachable_inv s hs).1
        (reachable_inv s hs).2 ih h

/-- In a reachable state with an occupied block, or with a free block that is not empty,
index agreement and the blocks lying one after the other give the whole of
well-formedness. -/
theorem reachable_well_formed (s : gmf_memory_resource) (h : Reachable s)
    (hag : IndexAgreement s)
    (hap : (s.free_entity_pool_by_front_ ++ s.occupied_entity_pool_by_front_).Pairwise disjoint)
    (ho : s.occupied_entity_pool_by_front_ ≠ [] ∨
      ∃ x ∈ s.free_entity_pool_by_bytes_, 0 < x.get_bytes_count) : WellFormed s := by
  obtain ⟨hinv, hocc⟩ := reachable_inv s h
  refine ⟨hinv, hag, hap, ?_⟩
  intro e he
  rcases List.mem_append.mp he with h1 | h1
  · rcases reachable_free_nonempty s h with h2 | h2
    · exact h2 e (by simp [h1])
    · rcases ho with ho | ⟨x, hx, hx0⟩
      · exact absurd h2.1 ho
      · have := h2.2 x hx
        omega
  · exact hocc e h1

/-! ### Allocation from the lower bound of the size index -/

/-- When some block of the size index is large enough, `do_allocate` returns the front of
the block at the lower bound, which is a smallest block that is large enough, and takes
it out of the size index. -/
theorem allocate_fit (s : gmf_memory_resource) (size align : Nat) (hinv : Inv s)
    (h0 : 0 < size)
    (hfit : ∃ x ∈ s.free_entity_pool_by_bytes_, size ≤ x.get_bytes_count) :
    ∃ e ∈ s.free_entity_pool_by_bytes_, ∃ s1,
      do_allocate s size align = .ok (e.front, s1) ∧
      (size < e.get_bytes_count →
        (e :: s1.free_entity_pool_by_bytes_).Perm
          (⟨e.front + size, e.back⟩ :: s.free_entity_pool_by_bytes_)) ∧
      (¬ size < e.get_bytes_count →
        (e :: s1.free_entity_pool_by_bytes_).Perm s.free_entity_pool_by_bytes_) ∧
      size ≤ e.get_bytes_count ∧
      ∀ x ∈ s.free_entity_pool_by_bytes_, size ≤ x.get_bytes_count →
        e.get_bytes_count ≤ x.get_bytes_count := by
  obtain ⟨x, hx, hxk⟩ := hfit
  have hlt := lower_bound_lt_length entity.get_bytes_count size _ x hx hxk
  obtain ⟨e, he⟩ : ∃ e, s.free_entity_pool_by_bytes_[lower_bound entity.get_bytes_count size
      s.free_entity_pool_by_bytes_]? = some e :=
    ⟨_, List.getElem?_eq_getElem hlt⟩
  obtain ⟨hmem, hge, hleast⟩ := lower_bound_least _ _ _ e hinv.by_bytes_ordered he
  have hv := hinv.valid e ((mem_blocks s e).mpr (Or.inl hmem))
  have hperm := perm_cons_eraseIdx _ _ e he
  refine ⟨e, hmem, _, do_allocate_of_fit s size align e h0 he hv.2.1 hv.2.2 hge, ?_, ?_,
    hge, hleast⟩
  · intro h
    simp only [h, if_true]
    exact ((multiset_insert_perm _ _ _).cons e).trans
      ((List.Perm.swap _ _ _).trans (hperm.symm.cons _))
  · intro h
    simp only [h, if_false]
    exact hperm.symm

theorem mem_set_insert_fresh (e : entity) (F2 : List entity)
    (hs : F2.Pairwise (fun x y => x.front < y.front))
    (hfresh : ∀ y ∈ F2, y.front ≠ e.front) (x : entity) :
    x ∈ set_insert entity.front e F2 ↔ x = e ∨ x ∈ F2 := by
  rw [mem_set_insert entity.front e F2 hs x]
  constructor
  · rintro (h | h)
    · exact Or.inr h
    · exact Or.inl h.1
  · rintro (h | h)
    · exact Or.inr ⟨h, hfresh⟩
    · exact Or.inl h

/-! ### The claims -/

/-- Claim C1 (partition invariant), evaluated on the code: the five calls of
`coalesce_trace` on the pool from 100 to 140 all return and end in `coalesce_state`, a
reachable state whose size-ordered free index holds the overlapping blocks from 100 to
110 and from 100 to 120; the partition invariant does not hold there. -/
theorem partition_broken_by_coalesce :
    run_from 100 140 coalesce_trace = .ok coalesce_state ∧
    Reachable coalesce_state ∧
    (⟨100, 110⟩ : entity) ∈ coalesce_state.free_entity_pool_by_bytes_ ∧
    (⟨100, 120⟩ : entity) ∈ coalesce_state.free_entity_pool_by_bytes_ ∧
    overlap ⟨100, 110⟩ ⟨100, 120⟩ ∧
    ¬ Partition coalesce_state := by
  refine ⟨rfl, ?_, by decide, by decide, by decide, ?_⟩
  · exact reachable_run_from 100 140 coalesce_trace coalesce_state (by decide) (by decide)
      (by simp [coalesce_trace, call.in_range, WORD]) rfl
  · intro h
    exact h.1 ⟨100, 110⟩ (by decide) ⟨100, 120⟩ (by decide) (by decide) (by decide)

/-- Claim C2 (index agreement), evaluated on the code: in the reachable state
`coalesce_state` the address-ordered free index holds the block from 130 to 140 and the
size-ordered free index does not, so the two free indices do not hold the same blocks. -/
theorem index_agreement_broken_by_coalesce :
    run_from 100 140 coalesce_trace = .ok coalesce_state ∧
    Reachable coalesce_state ∧
    (⟨130, 140⟩ : entity) ∈ coalesce_state.free_entity_pool_by_front_ ∧
    (⟨130, 140⟩ : entity) ∉ coalesce_state.free_entity_pool_by_bytes_ ∧
    ¬ IndexAgreement coalesce_state := by
  refine ⟨rfl, ?_, by decide, by decide, ?_⟩
  · exact reachable_run_from 100 140 coalesce_trace coalesce_state (by decide) (by decide)
      (by simp [coalesce_trace, call.in_range, WORD]) rfl
  · intro h
    have := (List.Perm.mem_iff h (a := (⟨130, 140⟩ : entity))).mpr (by decide)
    exact absurd this (by decide)

/-- Claim C3 (deallocation of a validated address), evaluated on the code: `drained_state`
is reachable, 120 is the front of one of its occupied blocks, the right neighbour from 130
to 140 is adjacent, and `deallocate(120)` looks that neighbour up in the empty size index
and erases the end position. -/
theorem deallocate_erases_end_of_size_index :
    run_from 100 140 drain_trace = .ok drained_state ∧
    Reachable drained_state ∧
    (⟨120, 130⟩ : entity) ∈ drained_state.occupied_entity_pool_by_front_ ∧
    get_next_free drained_state.free_entity_pool_by_front_ 120 = some ⟨130, 140⟩ ∧
    do_deallocate drained_state 120 10 1 = .error .undefined_behaviour := by
  refine ⟨rfl, ?_, by decide, rfl, rfl⟩
  exact reachable_run_from 100 140 drain_trace drained_state (by decide) (by decide)
    (by simp [drain_trace, coalesce_trace, call.in_range, WORD]) rfl

/-- Claim C4 (best fit): in a state whose containers are ordered and whose blocks are
valid, when the size-ordered free index holds a block of length at least `size > 0`,
`allocate(size)` returns the front of a block `e` of that index which it takes out of the
index (putting back the remainder when `e` is longer than `size`); `e` has length at
least `size`, and no block of the index that is long enough is shorter than `e`. -/
theorem allocate_best_fit (s : gmf_memory_resource) (size align : Nat) (hinv : Inv s)
    (h0 : 0 < size)
    (hfit : ∃ x ∈ s.free_entity_pool_by_bytes_, size ≤ x.get_bytes_count) :
    ∃ e ∈ s.free_entity_pool_by_bytes_, ∃ s1,
      do_allocate s size align = .ok (e.front, s1) ∧
      (size < e.get_bytes_count →
        (e :: s1.free_entity_pool_by_bytes_).Perm
          (⟨e.front + size, e.back⟩ :: s.free_entity_pool_by_bytes_)) ∧
      (¬ size < e.get_bytes_count →
        (e :: s1.free_entity_pool_by_bytes_).Perm s.free_entity_pool_by_bytes_) ∧
      size ≤ e.get_bytes_count ∧
      ∀ x ∈ s.free_entity_pool_by_bytes_, size ≤ x.get_bytes_count →
        ¬ x.get_bytes_count < e.get_bytes_count := by
  obtain ⟨e, he, s1, h1, h2, h3, h4, h5⟩ := allocate_fit s size align hinv h0 hfit
  exact ⟨e, he, s1, h1, h2, h3, h4, fun x hx hk => Nat.not_lt.mpr (h5 x hx hk)⟩

/-- Witness of C4: with free blocks of lengths 10, 50 and 20, `allocate(15)` is served
from the block of length 20, which starts at 180. -/
theorem allocate_best_fit_witness :
    Inv best_fit_state ∧ 0 < 15 ∧
    (∃ x ∈ best_fit_state.free_entity_pool_by_bytes_, 15 ≤ x.get_bytes_count) ∧
    best_fit_state.free_entity_pool_by_bytes_.map entity.get_bytes_count = [10, 20, 50] ∧
    (do_allocate best_fit_state 15 1).map Prod.fst = .ok 180 ∧
    ∃ e ∈ best_fit_state.free_entity_pool_by_bytes_, ∃ s1,
      do_allocate best_fit_state 15 1 = .ok (e.front, s1) ∧
      (15 < e.get_bytes_count →
        (e :: s1.free_entity_pool_by_bytes_).Perm
          (⟨e.front + 15, e.back⟩ :: best_fit_state.free_entity_pool_by_bytes_)) ∧
      (¬ 15 < e.get_bytes_count →
        (e :: s1.free_entity_pool_by_bytes_).Perm best_fit_state.free_entity_pool_by_bytes_) ∧
      15 ≤ e.get_bytes_count ∧
      ∀ x ∈ best_fit_state.free_entity_pool_by_bytes_, 15 ≤ x.get_bytes_count →
        ¬ x.get_bytes_count < e.get_bytes_count :=
  ⟨best_fit_state_wf.inv, by decide, ⟨⟨180, 200⟩, by decide, by decide⟩, by decide, rfl,
    allocate_best_fit best_fit_state 15 1 best_fit_state_wf.inv (by decide)
      ⟨⟨180, 200⟩, by decide, by decide⟩⟩

/-- Claim C5 (split correctness): in a well-formed state, when `allocate(k)` with `k > 0`
chooses the free block `e` (the block at the lower bound of the size index), `e` has
length `L ≥ k`, the call returns `e.front`, the occupied index gains exactly the block
from `e.front` to `e.front + k`, `e` leaves both free indices, the remainder from
`e.front + k` to `e.back` enters both free indices when `k < L` and nothing enters them
when `k = L`, and every other block of the three indices stays. -/
theorem allocate_split (s : gmf_memory_resource) (k align : Nat) (e : entity)
    (hwf : WellFormed s) (h0 : 0 < k)
    (hchosen : s.free_entity_pool_by_bytes_[lower_bound entity.get_bytes_count k
      s.free_entity_pool_by_bytes_]? = some e) :
    k ≤ e.back - e.front ∧
    ∃ s1, do_allocate s k align = .ok (e.front, s1) ∧
      s1.occupied_entity_pool_by_front_.Perm
        (⟨e.front, e.front + k⟩ :: s.occupied_entity_pool_by_front_) ∧
      (k < e.back - e.front →
        s1.free_entity_pool_by_bytes_.Perm
          (⟨e.front + k, e.back⟩ :: s.free_entity_pool_by_bytes_.erase e) ∧
        s1.free_entity_pool_by_front_.Perm
          (⟨e.front + k, e.back⟩ :: s.free_entity_pool_by_front_.erase e)) ∧
      (k = e.back - e.front →
        s1.free_entity_pool_by_bytes_.Perm (s.free_entity_pool_by_bytes_.erase e) ∧
        s1.free_entity_pool_by_front_ = s.free_entity_pool_by_front_.erase e) ∧
      e ∉ s.free_entity_pool_by_bytes_.erase e ∧
      e ∉ s.free_entity_pool_by_front_.erase e ∧
      s1.memory_pool_start_ = s.memory_pool_start_ ∧
      s1.memory_pool_end_ = s.memory_pool_end_ := by
  have hfind := hchosen
  rw [getElem?_lower_bound] at hfind
  have hmemB : e ∈ s.free_entity_pool_by_bytes_ := List.mem_of_find?_eq_some hfind
  have hge : k ≤ e.get_bytes_count := by simpa using List.find?_some hfind
  have hmemF : e ∈ s.free_entity_pool_by_front_ := (List.Perm.mem_iff hwf.agree).mp hmemB
  have hv := hwf.inv.valid e ((mem_blocks s e).mpr (Or.inl hmemB))
  have hb := bytes_of_valid e hv
  rw [hb] at hge
  have hapart := List.pairwise_append.mp hwf.apart
  -- no occupied block starts where the chosen block starts
  have hocc : ∀ x ∈ s.occupied_entity_pool_by_front_,
      entity.front x ≠ entity.front (⟨e.front, e.front + k⟩ : entity) := by
    intro x hx hfr
    have hd := hapart.2.2 e hmemF x hx
    have hne := hwf.nonempty x (by simp [hx])
    have hfr1 : x.front = e.front := hfr
    rcases hd with hd | hd <;> omega
  -- no other free block starts inside the chosen block
  have hfree : k < e.back - e.front → ∀ x ∈ s.free_entity_pool_by_front_.erase e,
      entity.front x ≠ entity.front (⟨e.front + k, e.back⟩ : entity) := by
    intro hlt x hx hfr
    have hxF : x ∈ s.free_entity_pool_by_front_ := List.mem_of_mem_erase hx
    have hxe : x ≠ e := by
      intro h; subst h
      exact absurd hx (hwf.by_front_nodup.not_mem_erase)
    have hd := hapart.1.forall disjoint_symm hxF hmemF hxe
    obtain ⟨-, hvx, -⟩ := hwf.inv.valid x ((mem_blocks s x).mpr (Or.inr (Or.inl hxF)))
    have hfr1 : x.front = e.front + k := hfr
    rcases hd with hd | hd <;> omega
  have hperm := perm_cons_eraseIdx _ _ e hchosen
  have hB : (s.free_entity_pool_by_bytes_.eraseIdx (lower_bound entity.get_bytes_count k
      s.free_entity_pool_by_bytes_)).Perm (s.free_entity_pool_by_bytes_.erase e) :=
    List.Perm.cons_inv (hperm.symm.trans (List.perm_cons_erase hmemB))
  have hF : set_erase entity.front e.front s.free_entity_pool_by_front_ =
      s.free_entity_pool_by_front_.erase e :=
    set_erase_eq_erase entity.front e _ hwf.inv.by_front_ordered hmemF
  refine ⟨hge, _, do_allocate_of_fit s k align e h0 hchosen hv.2.1 hv.2.2 (by omega), ?_, ?_, ?_,
    hwf.by_bytes_nodup.not_mem_erase, hwf.by_front_nodup.not_mem_erase, rfl, rfl⟩
  · exact set_insert_perm _ _ _ hocc
  · intro hlt
    have hlt1 : k < e.get_bytes_count := by omega
    simp only [hlt1, if_true, hF]
    exact ⟨(multiset_insert_perm _ _ _).trans (hB.cons _), set_insert_perm _ _ _ (hfree hlt)⟩
  · intro heq
    have hlt1 : ¬ k < e.get_bytes_count := by omega
    simp only [hlt1, if_false, hF]
    exact ⟨hB, trivial⟩

/-- Witness of C5: `allocate(15)` on `best_fit_state` splits the block from 180 to 200. -/
theorem allocate_split_witness :
    WellFormed best_fit_state ∧ 0 < 15 ∧
    best_fit_state.free_entity_pool_by_bytes_[lower_bound entity.get_bytes_count 15
      best_fit_state.free_entity_pool_by_bytes_]? = some ⟨180, 200⟩ ∧
    15 ≤ 200 - 180 ∧
    ∃ s1, do_allocate best_fit_state 15 1 = .ok (180, s1) ∧
      s1.occupied_entity_pool_by_front_.Perm
        (⟨180, 180 + 15⟩ :: best_fit_state.occupied_entity_pool_by_front_) ∧
      (15 < 200 - 180 →
        s1.free_entity_pool_by_bytes_.Perm
          (⟨180 + 15, 200⟩ :: best_fit_state.free_entity_pool_by_bytes_.erase ⟨180, 200⟩) ∧
        s1.free_entity_pool_by_front_.Perm
          (⟨180 + 15, 200⟩ :: best_fit_state.free_entity_pool_by_front_.erase ⟨180, 200⟩)) ∧
      (15 = 200 - 180 →
        s1.free_entity_pool_by_bytes_.Perm
          (best_fit_state.free_entity_pool_by_bytes_.erase ⟨180, 200⟩) ∧
        s1.free_entity_pool_by_front_ =
          best_fit_state.free_entity_pool_by_front_.erase ⟨180, 200⟩) ∧
      (⟨180, 200⟩ : entity) ∉ best_fit_state.free_entity_pool_by_bytes_.erase ⟨180, 200⟩ ∧
      (⟨180, 200⟩ : entity) ∉ best_fit_state.free_entity_pool_by_front_.erase ⟨180, 200⟩ ∧
      s1.memory_pool_start_ = best_fit_state.memory_pool_start_ ∧
      s1.memory_pool_end_ = best_fit_state.memory_pool_end_ :=
  ⟨best_fit_state_wf, by decide, rfl,
    allocate_split best_fit_state 15 1 ⟨180, 200⟩ best_fit_state_wf (by decide) rfl⟩

/-- Claim C6 (coalescing on both sides): in a well-formed state whose address-ordered free
index holds the blocks from `a` to `p` and from `q` to `c` and whose occupied index holds
the block from `p` to `q`, `deallocate(p)` returns, removes that block from the occupied
index and leaves every other occupied block, and the address-ordered free index then
holds the block from `a` to `c` and every old entry other than the two neighbours, each
once. -/
theorem deallocate_coalesces_both_sides (s : gmf_memory_resource) (a p q c bytes align : Nat)
    (hwf : WellFormed s)
    (hl : (⟨a, p⟩ : entity) ∈ s.free_entity_pool_by_front_)
    (hr : (⟨q, c⟩ : entity) ∈ s.free_entity_pool_by_front_)
    (ho : (⟨p, q⟩ : entity) ∈ s.occupied_entity_pool_by_front_) :
    ∃ s1, do_deallocate s p bytes align = .ok s1 ∧
      s1.occupied_entity_pool_by_front_ = s.occupied_entity_pool_by_front_.erase ⟨p, q⟩ ∧
      (⟨p, q⟩ : entity) ∉ s1.occupied_entity_pool_by_front_ ∧
      (∀ x, x ∈ s1.free_entity_pool_by_front_ ↔
        x = ⟨a, c⟩ ∨ (x ∈ s.free_entity_pool_by_front_ ∧ x ≠ ⟨a, p⟩ ∧ x ≠ ⟨q, c⟩)) ∧
      s1.free_entity_pool_by_front_.Pairwise (fun x y => x.front < y.front) := by
  have hap := List.pairwise_append.mp hwf.apart
  have hs := hwf.inv.by_front_ordered
  have hne : ∀ x ∈ s.free_entity_pool_by_front_, x.front < x.back :=
    fun x hx => hwf.nonempty x (by simp [hx])
  have hOnodup : s.occupied_entity_pool_by_front_.Nodup :=
    hwf.inv.occupied_ordered.imp (fun hab hEq => by subst hEq; exact absurd hab (lt_irrefl _))
  obtain ⟨F2, B2, hd, hmem, hs2, -, hfresh⟩ := do_deallocate_spec s p q bytes align hwf ho
  have hmf := merged_front_of_mem _ p ⟨a, p⟩ hap.1 hne hl rfl
  have hmb := merged_back_of_mem _ q ⟨q, c⟩ hs hr rfl
  simp only at hmf hmb
  rw [hmf, hmb] at hd
  rw [hmf] at hfresh
  refine ⟨_, hd, rfl, hOnodup.not_mem_erase, ?_, set_insert_ordered _ _ _ hs2⟩
  intro x
  simp only [mem_set_insert_fresh ⟨a, c⟩ F2 hs2 hfresh x, hmem x]
  constructor
  · rintro (h | ⟨h1, h2, h3⟩)
    · exact Or.inl h
    · exact Or.inr ⟨h1, fun h => h2 (by rw [h]), fun h => h3 (by rw [h])⟩
  · rintro (h | ⟨h1, h2, h3⟩)
    · exact Or.inl h
    · refine Or.inr ⟨h1, fun h => h2 ?_, fun h => h3 ?_⟩
      · exact unique_back _ hap.1 hne x ⟨a, p⟩ h1 hl h
      · exact unique_front _ hs x ⟨q, c⟩ h1 hr h

/-- Witness of C6: on `best_fit_state`, `deallocate(110)` merges the free blocks from 100
to 110 and from 120 to 170 with the occupied block between them. -/
theorem deallocate_coalesces_both_sides_witness :
    WellFormed best_fit_state ∧
    (⟨100, 110⟩ : entity) ∈ best_fit_state.free_entity_pool_by_front_ ∧
    (⟨120, 170⟩ : entity) ∈ best_fit_state.free_entity_pool_by_front_ ∧
    (⟨110, 120⟩ : entity) ∈ best_fit_state.occupied_entity_pool_by_front_ ∧
    (do_deallocate best_fit_state 110 10 1).map
      gmf_memory_resource.free_entity_pool_by_front_ = .ok [⟨100, 170⟩, ⟨180, 200⟩] ∧
    ∃ s1, do_deallocate best_fit_state 110 10 1 = .ok s1 ∧
      s1.occupied_entity_pool_by_front_ =
        best_fit_state.occupied_entity_pool_by_front_.erase ⟨110, 120⟩ ∧
      (⟨110, 120⟩ : entity) ∉ s1.occupied_entity_pool_by_front_ ∧
      (∀ x, x ∈ s1.free_entity_pool_by_front_ ↔
        x = ⟨100, 170⟩ ∨ (x ∈ best_fit_state.free_entity_pool_by_front_ ∧
          x ≠ ⟨100, 110⟩ ∧ x ≠ ⟨120, 170⟩)) ∧
      s1.free_entity_pool_by_front_.Pairwise (fun x y => x.front < y.front) :=
  ⟨best_fit_state_wf, by decide, by decide, by decide, rfl,
    deallocate_coalesces_both_sides best_fit_state 100 110 120 170 10 1 best_fit_state_wf
      (by decide) (by decide) (by decide)⟩

/-- Claim C7 (coalescing only with adjacent neighbours): in a well-formed state, for every
occupied block from `p` to `q`, `deallocate(p)` returns and the block it inserts into both
free indices runs from `merged_front` to `merged_back`: from the front of the free block
whose back is `p` if there is one and from `p` otherwise, to the back of the free block
whose front is `q` if there is one and to `q` otherwise.  The address-ordered free index
loses exactly the free blocks whose back is `p` or whose front is `q`; every other free
block stays in it. -/
theorem deallocate_merges_only_adjacent (s : gmf_memory_resource) (p q bytes align : Nat)
    (hwf : WellFormed s)
    (ho : (⟨p, q⟩ : entity) ∈ s.occupied_entity_pool_by_front_) :
    (∀ l ∈ s.free_entity_pool_by_front_, l.back = p →
      merged_front s.free_entity_pool_by_front_ p = l.front) ∧
    ((∀ l ∈ s.free_entity_pool_by_front_, l.back ≠ p) →
      merged_front s.free_entity_pool_by_front_ p = p) ∧
    (∀ r ∈ s.free_entity_pool_by_front_, r.front = q →
      merged_back s.free_entity_pool_by_front_ q = r.back) ∧
    ((∀ r ∈ s.free_entity_pool_by_front_, r.front ≠ q) →
      merged_back s.free_entity_pool_by_front_ q = q) ∧
    ∃ s1 F2 B2, do_deallocate s p bytes align = .ok s1 ∧
      s1.free_entity_pool_by_front_ = set_insert entity.front
        ⟨merged_front s.free_entity_pool_by_front_ p,
          merged_back s.free_entity_pool_by_front_ q⟩ F2 ∧
      s1.free_entity_pool_by_bytes_ = multiset_insert entity.get_bytes_count
        ⟨merged_front s.free_entity_pool_by_front_ p,
          merged_back s.free_entity_pool_by_front_ q⟩ B2 ∧
      B2.Sublist s.free_entity_pool_by_bytes_ ∧
      (∀ x, x ∈ F2 ↔ x ∈ s.free_entity_pool_by_front_ ∧ x.back ≠ p ∧ x.front ≠ q) ∧
      (∀ x, x ∈ s1.free_entity_pool_by_front_ ↔
        x = ⟨merged_front s.free_entity_pool_by_front_ p,
          merged_back s.free_entity_pool_by_front_ q⟩ ∨
        (x ∈ s.free_entity_pool_by_front_ ∧ x.back ≠ p ∧ x.front ≠ q)) ∧
      (⟨merged_front s.free_entity_pool_by_front_ p,
        merged_back s.free_entity_pool_by_front_ q⟩ : entity) ∈ s1.free_entity_pool_by_bytes_ := by
  have hap := List.pairwise_append.mp hwf.apart
  have hs := hwf.inv.by_front_ordered
  have hne : ∀ x ∈ s.free_entity_pool_by_front_, x.front < x.back :=
    fun x hx => hwf.nonempty x (by simp [hx])
  obtain ⟨F2, B2, hd, hmem, hs2, hsub, hfresh⟩ := do_deallocate_spec s p q bytes align hwf ho
  refine ⟨fun l hl hb => merged_front_of_mem _ p l hap.1 hne hl hb,
    merged_front_of_not_mem _ p, fun r hr hf => merged_back_of_mem _ q r hs hr hf,
    merged_back_of_not_mem _ q, _, F2, B2, hd, rfl, rfl, hsub, hmem, ?_, ?_⟩
  · intro x
    rw [mem_set_insert_fresh ⟨merged_front s.free_entity_pool_by_front_ p,
      merged_back s.free_entity_pool_by_front_ q⟩ F2 hs2 hfresh x, hmem x]
  · exact (mem_multiset_insert _ _ _ _).mpr (Or.inl rfl)

/-- Witness of C7: on `best_fit_state`, `deallocate(170)` has both neighbours adjacent. -/
theorem deallocate_merges_only_adjacent_witness :
    WellFormed best_fit_state ∧
    (⟨170, 180⟩ : entity) ∈ best_fit_state.occupied_entity_pool_by_front_ ∧
    merged_front best_fit_state.free_entity_pool_by_front_ 170 = 120 ∧
    merged_back best_fit_state.free_entity_pool_by_front_ 180 = 200 ∧
    (do_deallocate best_fit_state 170 10 1).map
      gmf_memory_resource.free_entity_pool_by_front_ = .ok [⟨100, 110⟩, ⟨120, 200⟩] ∧
    ∃ s1 F2 B2, do_deallocate best_fit_state 170 10 1 = .ok s1 ∧
      s1.free_entity_pool_by_front_ = set_insert entity.front
        ⟨merged_front best_fit_state.free_entity_pool_by_front_ 170,
          merged_back best_fit_state.free_entity_pool_by_front_ 180⟩ F2 ∧
      s1.free_entity_pool_by_bytes_ = multiset_insert entity.get_bytes_count
        ⟨merged_front best_fit_state.free_entity_pool_by_front_ 170,
          merged_back best_fit_state.free_entity_pool_by_front_ 180⟩ B2 ∧
      B2.Sublist best_fit_state.free_entity_pool_by_bytes_ ∧
      (∀ x, x ∈ F2 ↔
        x ∈ best_fit_state.free_entity_pool_by_front_ ∧ x.back ≠ 170 ∧ x.front ≠ 180) ∧
      (∀ x, x ∈ s1.free_entity_pool_by_front_ ↔
        x = ⟨merged_front best_fit_state.free_entity_pool_by_front_ 170,
          merged_back best_fit_state.free_entity_pool_by_front_ 180⟩ ∨
        (x ∈ best_fit_state.free_entity_pool_by_front_ ∧ x.back ≠ 170 ∧ x.front ≠ 180)) ∧
      (⟨merged_front best_fit_state.free_entity_pool_by_front_ 170,
        merged_back best_fit_state.free_entity_pool_by_front_ 180⟩ : entity) ∈
          s1.free_entity_pool_by_bytes_ :=
  ⟨best_fit_state_wf, by decide, rfl, rfl, rfl,
    (deallocate_merges_only_adjacent best_fit_state 170 180 10 1 best_fit_state_wf
      (by decide)).2.2.2.2⟩

/-- Claim C8 (round trip): for a successfully constructed allocator over the pool from `a`
to `b`, whose state has nothing occupied and the single free block from `a` to `b` in
both free indices, and for every `N`, `p = allocate(N)` followed by `deallocate(p)` both
return and end in the state before the allocation. -/
theorem allocate_deallocate_round_trip (a b N align bytes1 align1 : Nat)
    (s : gmf_memory_resource) (hb : b < WORD)
    (h : gmf_memory_resource.ctor a b = .ok s) :
    s.occupied_entity_pool_by_front_ = [] ∧
    s.free_entity_pool_by_front_ = [⟨a, b⟩] ∧
    s.free_entity_pool_by_bytes_ = [⟨a, b⟩] ∧
    ∃ p s1, do_allocate s N align = .ok (p, s1) ∧
      do_deallocate s1 p bytes1 align1 = .ok s := by
  obtain ⟨ha0, hb0, hab, hs⟩ := ctor_ok a b s h
  subst hs
  refine ⟨rfl, rfl, rfl, ?_⟩
  have hbytes : entity.get_bytes_count ⟨a, b⟩ = b - a := bytes_of_le ⟨a, b⟩ hab hb
  by_cases hN0 : N = 0
  · subst hN0
    exact ⟨0, ⟨[⟨a, b⟩], [⟨a, b⟩], [], a, b⟩, by simp [do_allocate],
      by simp [do_deallocate, lower_bound]⟩
  · by_cases hfit : N ≤ b - a
    · have hnlt : ¬ (b - a < N) := by omega
      have hch : ([⟨a, b⟩] : List entity)[lower_bound entity.get_bytes_count N
          [⟨a, b⟩]]? = some ⟨a, b⟩ := by
        simp [lower_bound, hbytes, hnlt]
      have hal := do_allocate_of_fit ⟨[⟨a, b⟩], [⟨a, b⟩], [], a, b⟩ N align ⟨a, b⟩
        (by omega) hch hab hb (by rw [hbytes]; exact hfit)
      by_cases hlt : N < b - a
      · have h1 : ¬ (a + N < a) := by omega
        have h2 : a < a + N := by omega
        have h3 : entity.get_bytes_count ⟨a + N, b⟩ = b - (a + N) :=
          bytes_of_le ⟨a + N, b⟩ (by simp; omega) hb
        refine ⟨a, ⟨[⟨a + N, b⟩], [⟨a + N, b⟩], [⟨a, a + N⟩], a, b⟩, ?_, ?_⟩
        · rw [hal]
          simp [hbytes, hlt, hnlt, lower_bound, set_erase, set_insert, multiset_insert]
        · simp [do_deallocate, lower_bound, upper_bound, get_preview_free, get_next_free,
            absorb_left, absorb_right, imaginary_entity.of_front, entity.close_left,
            entity.close_right, erase_at, set_erase, set_insert, multiset_insert, h1, h2, h3]
      · refine ⟨a, ⟨[], [], [⟨a, a + N⟩], a, b⟩, ?_, ?_⟩
        · rw [hal]
          simp [hbytes, hlt, hnlt, lower_bound, set_erase, set_insert]
        · have h4 : a + N = b := by omega
          simp [do_deallocate, lower_bound, upper_bound, get_preview_free, get_next_free,
            absorb_left, absorb_right, imaginary_entity.of_front, set_insert,
            multiset_insert, h4]
    · have hlb : lower_bound entity.get_bytes_count N [⟨a, b⟩] = 1 := by
        have : b - a < N := by omega
        simp [lower_bound, hbytes, this]
      refine ⟨0, ⟨[⟨a, b⟩], [⟨a, b⟩], [], a, b⟩, ?_, by simp [do_deallocate, lower_bound]⟩
      simp [do_allocate, hN0, imaginary_entity.of_count, imaginary_entity.get_bytes_count, hlb]

/-- Witness of C8: the pool from 100 to 200 and a request of 30 bytes. -/
theorem allocate_deallocate_round_trip_witness :
    200 < WORD ∧
    gmf_memory_resource.ctor 100 200 = .ok ⟨[⟨100, 200⟩], [⟨100, 200⟩], [], 100, 200⟩ ∧
    do_allocate ⟨[⟨100, 200⟩], [⟨100, 200⟩], [], 100, 200⟩ 30 1 =
      .ok (100, ⟨[⟨130, 200⟩], [⟨130, 200⟩], [⟨100, 130⟩], 100, 200⟩) ∧
    ∃ p s1, do_allocate ⟨[⟨100, 200⟩], [⟨100, 200⟩], [], 100, 200⟩ 30 1 = .ok (p, s1) ∧
      do_deallocate s1 p 30 1 = .ok ⟨[⟨100, 200⟩], [⟨100, 200⟩], [], 100, 200⟩ :=
  ⟨by decide, rfl, rfl,
    (allocate_deallocate_round_trip 100 200 30 1 30 1
      ⟨[⟨100, 200⟩], [⟨100, 200⟩], [], 100, 200⟩ (by decide) rfl).2.2.2⟩

/-- Claim C9 (exhaustion): in a state whose containers are ordered and whose blocks are
valid, and for every `size > 0`: when no block of the size-ordered free index has length
at least `size`, `allocate(size)` returns the null pointer and the state it leaves is the
state it found; when some block is long enough, it returns a pointer that is not null. -/
theorem allocate_exhaustion (s : gmf_memory_resource) (size align : Nat) (hinv : Inv s)
    (h0 : 0 < size) :
    ((∀ x ∈ s.free_entity_pool_by_bytes_, x.get_bytes_count < size) →
      do_allocate s size align = .ok (0, s)) ∧
    ((∃ x ∈ s.free_entity_pool_by_bytes_, size ≤ x.get_bytes_count) →
      ∃ p s1, do_allocate s size align = .ok (p, s1) ∧ p ≠ 0) ∧
    ((∃ s1, do_allocate s size align = .ok (0, s1)) ↔
      ∀ x ∈ s.free_entity_pool_by_bytes_, x.get_bytes_count < size) := by
  have hnone : (∀ x ∈ s.free_entity_pool_by_bytes_, x.get_bytes_count < size) →
      do_allocate s size align = .ok (0, s) := by
    intro h
    have h1 := lower_bound_eq_length entity.get_bytes_count size _ h
    have h7 : size ≠ 0 := by omega
    simp [do_allocate, h7, imaginary_entity.of_count, imaginary_entity.get_bytes_count, h1]
  have hsome : (∃ x ∈ s.free_entity_pool_by_bytes_, size ≤ x.get_bytes_count) →
      ∃ p s1, do_allocate s size align = .ok (p, s1) ∧ p ≠ 0 := by
    intro hfit
    obtain ⟨e, hmem, s1, h1, -⟩ := allocate_fit s size align hinv h0 hfit
    have hv := hinv.valid e ((mem_blocks s e).mpr (Or.inl hmem))
    exact ⟨e.front, s1, h1, by have := hv.1; omega⟩
  refine ⟨hnone, hsome, ?_, fun h => ⟨s, hnone h⟩⟩
  rintro ⟨s1, hs1⟩
  by_contra hcon
  have hfit : ∃ x ∈ s.free_entity_pool_by_bytes_, size ≤ x.get_bytes_count := by
    by_contra hno
    apply hcon
    intro x hx
    by_contra hx1
    exact hno ⟨x, hx, by omega⟩
  obtain ⟨p, s2, h2, hp⟩ := hsome hfit
  rw [hs1] at h2
  injection h2 with h3
  injection h3 with h4 _
  exact hp h4.symm

/-- Witness of C9: no free block of `best_fit_state` holds 60 bytes. -/
theorem allocate_exhaustion_witness :
    Inv best_fit_state ∧ 0 < 60 ∧
    (∀ x ∈ best_fit_state.free_entity_pool_by_bytes_, x.get_bytes_count < 60) ∧
    do_allocate best_fit_state 60 1 = .ok (0, best_fit_state) :=
  ⟨best_fit_state_wf.inv, by decide, by decide,
    (allocate_exhaustion best_fit_state 60 1 best_fit_state_wf.inv (by decide)).1
      (by decide)⟩

/-- Claim C10 (zero-byte request): in every state and for every alignment argument,
`allocate(0)` returns the null pointer and leaves the state as it was. -/
theorem allocate_zero (s : gmf_memory_resource) (align : Nat) :
    do_allocate s 0 align = .ok (0, s) := by
  simp [do_allocate]

/-! ### The claims C11 to C20 -/

theorem twin_state_wf : WellFormed twin_state :=
  ⟨⟨by decide, by decide, by decide, by decide⟩, by unfold IndexAgreement; decide, by decide,
    by decide⟩

/-- Claim C11 (invalid free is a no-op): in every state and for every address `p` that is
not the front of a block of the occupied index, `deallocate(p)` returns without a fault
and leaves the state, and so all three indices, as it was. -/
theorem deallocate_invalid_noop (s : gmf_memory_resource) (p bytes align : Nat)
    (h : ∀ e ∈ s.occupied_entity_pool_by_front_, e.front ≠ p) :
    do_deallocate s p bytes align = .ok s := by
  unfold do_deallocate
  simp only
  split
  · rfl
  · next occ hocc =>
    have hmem : occ ∈ s.occupied_entity_pool_by_front_ := List.mem_iff_getElem?.mpr ⟨_, hocc⟩
    simp [h occ hmem]

/-- Witness of C11: on `best_fit_state` the null address, the address 115 inside an
occupied block, and the address 100 of a free block are not fronts of occupied blocks. -/
theorem deallocate_invalid_noop_witness :
    (∀ e ∈ best_fit_state.occupied_entity_pool_by_front_, e.front ≠ 115) ∧
    do_deallocate best_fit_state 115 5 1 = .ok best_fit_state ∧
    do_deallocate best_fit_state 0 5 1 = .ok best_fit_state ∧
    do_deallocate best_fit_state 100 10 1 = .ok best_fit_state :=
  ⟨by decide, deallocate_invalid_noop best_fit_state 115 5 1 (by decide),
    deallocate_invalid_noop best_fit_state 0 5 1 (by decide),
    deallocate_invalid_noop best_fit_state 100 10 1 (by decide)⟩

/-- Claim C12 (construction): the constructor fails with the invalid-argument error exactly
when `pool_start` is null, or `pool_end` is null, or `pool_start > pool_end` as unsigned
addresses; otherwise it returns the state with an empty occupied index and the one block
from `pool_start` to `pool_end` in both free indices. -/
theorem ctor_fails_iff (a b : Nat) :
    (gmf_memory_resource.ctor a b = .error .invalid_argument ↔ (a = 0 ∨ b = 0 ∨ a > b)) ∧
    (gmf_memory_resource.ctor a b = .ok ⟨[⟨a, b⟩], [⟨a, b⟩], [], a, b⟩ ↔
      ¬ (a = 0 ∨ b = 0 ∨ a > b)) ∧
    (∀ s, gmf_memory_resource.ctor a b = .ok s →
      s.occupied_entity_pool_by_front_ = [] ∧
      s.free_entity_pool_by_front_ = [⟨a, b⟩] ∧
      s.free_entity_pool_by_bytes_ = [⟨a, b⟩]) := by
  refine ⟨?_, ?_, ?_⟩
  · unfold gmf_memory_resource.ctor entity.ctor
    by_cases h1 : a = 0 ∨ b = 0
    · have : a = 0 ∨ b = 0 ∨ a > b := by rcases h1 with h | h <;> simp [h]
      simp [h1, this]
    · by_cases h2 : a > b
      · simp [h1, h2]
      · have : ¬ (a = 0 ∨ b = 0 ∨ a > b) := by
          intro h; rcases h with h | h | h
          · exact h1 (Or.inl h)
          · exact h1 (Or.inr h)
          · exact h2 h
        simp [h1, h2, this]
  · unfold gmf_memory_resource.ctor entity.ctor
    by_cases h1 : a = 0 ∨ b = 0
    · have : a = 0 ∨ b = 0 ∨ a > b := by rcases h1 with h | h <;> simp [h]
      simp [h1, this]
    · by_cases h2 : a > b
      · simp [h1, h2]
      · have : ¬ (a = 0 ∨ b = 0 ∨ a > b) := by
          intro h; rcases h with h | h | h
          · exact h1 (Or.inl h)
          · exact h1 (Or.inr h)
          · exact h2 h
        simp [h1, h2, this, multiset_insert, set_insert]
  · intro s hs
    obtain ⟨-, -, -, h⟩ := ctor_ok a b s hs
    subst h
    exact ⟨rfl, rfl, rfl⟩

/-- Claim C15 (identity): for every allocator instance and every memory resource, another
allocator over the same bytes and the instance itself included, `do_is_equal` returns
false. -/
theorem never_equal (resource : Type) (self : gmf_memory_resource) (that : resource) :
    do_is_equal self that = false ∧ do_is_equal self self = false :=
  ⟨rfl, rfl⟩

/-- Claim C16 (exact-instance removal from the size index), evaluated on the code:
`twin_state` is reachable and well-formed; `deallocate(110)` absorbs the left neighbour
from 100 to 110, but the entry at the lower bound of its length in the size index is the
block from 130 to 140, and that is the entry erased: afterwards the size index still
holds the absorbed neighbour, has lost the block from 130 to 140, and is not the old
index minus the neighbour plus the merged block. -/
theorem deallocate_erases_other_block_of_same_length :
    run_from 100 140 twin_trace = .ok twin_state ∧
    WellFormed twin_state ∧
    get_preview_free twin_state.free_entity_pool_by_front_ 110 = some ⟨100, 110⟩ ∧
    twin_state.free_entity_pool_by_bytes_[lower_bound entity.get_bytes_count
      (entity.get_bytes_count ⟨100, 110⟩) twin_state.free_entity_pool_by_bytes_]? =
        some ⟨130, 140⟩ ∧
    do_deallocate twin_state 110 10 1 = .ok coalesce_state ∧
    (⟨100, 110⟩ : entity) ∈ coalesce_state.free_entity_pool_by_bytes_ ∧
    (⟨130, 140⟩ : entity) ∉ coalesce_state.free_entity_pool_by_bytes_ ∧
    ¬ coalesce_state.free_entity_pool_by_bytes_.Perm
      (⟨100, 120⟩ :: twin_state.free_entity_pool_by_bytes_.erase ⟨100, 110⟩) := by
  refine ⟨rfl, twin_state_wf, rfl, rfl, rfl, by decide, by decide, by decide⟩

/-- Claim C20 (free blocks are maximally coalesced), evaluated on the code: the seven
calls of `adjacent_trace` on the pool from 100 to 160 all return and end in
`adjacent_state`, a reachable state whose address-ordered free index holds the adjacent
blocks from 110 to 120 and from 120 to 130. -/
theorem adjacent_free_blocks_reachable :
    run_from 100 160 adjacent_trace = .ok adjacent_state ∧
    Reachable adjacent_state ∧
    (⟨110, 120⟩ : entity) ∈ adjacent_state.free_entity_pool_by_front_ ∧
    (⟨120, 130⟩ : entity) ∈ adjacent_state.free_entity_pool_by_front_ ∧
    ¬ (∀ x ∈ adjacent_state.free_entity_pool_by_front_,
        ∀ y ∈ adjacent_state.free_entity_pool_by_front_, x.back ≠ y.front) := by
  refine ⟨rfl, ?_, by decide, by decide, ?_⟩
  · exact reachable_run_from 100 160 adjacent_trace adjacent_state (by decide) (by decide)
      (by simp [adjacent_trace, call.in_range, WORD]) rfl
  · intro h
    exact h ⟨110, 120⟩ (by decide) ⟨120, 130⟩ (by decide) rfl

/-! ### The shape of a call that returns -/

/-- A call of `do_allocate` that returns either returns null and leaves the state, or takes
the block at the lower bound of the size index, which is large enough. -/
theorem do_allocate_cases (s s1 : gmf_memory_resource) (n al p : Nat) (hinv : Inv s)
    (h : do_allocate s n al = .ok (p, s1)) :
    (p = 0 ∧ s1 = s) ∨
    ∃ e, 0 < n ∧ e ∈ s.free_entity_pool_by_bytes_ ∧ e.valid ∧
      s.free_entity_pool_by_bytes_[lower_bound entity.get_bytes_count n
        s.free_entity_pool_by_bytes_]? = some e ∧
      n ≤ e.back - e.front ∧ p = e.front ∧
      s1 = { s with
        free_entity_pool_by_bytes_ :=
          if n < e.get_bytes_count then
            multiset_insert entity.get_bytes_count ⟨e.front + n, e.back⟩
              (s.free_entity_pool_by_bytes_.eraseIdx
                (lower_bound entity.get_bytes_count n s.free_entity_pool_by_bytes_))
          else s.free_entity_pool_by_bytes_.eraseIdx
                (lower_bound entity.get_bytes_count n s.free_entity_pool_by_bytes_)
        free_entity_pool_by_front_ :=
          if n < e.get_bytes_count then
            set_insert entity.front ⟨e.front + n, e.back⟩
              (set_erase entity.front e.front s.free_entity_pool_by_front_)
          else set_erase entity.front e.front s.free_entity_pool_by_front_
        occupied_entity_pool_by_front_ :=
          set_insert entity.front ⟨e.front, e.front + n⟩
            s.occupied_entity_pool_by_front_ } := by
  by_cases h0 : n = 0
  · subst h0
    rw [allocate_zero_eq] at h
    simp only [Except.ok.injEq, Prod.mk.injEq] at h
    exact Or.inl ⟨h.1.symm, h.2.symm⟩
  · cases he : s.free_entity_pool_by_bytes_[lower_bound entity.get_bytes_count n
        s.free_entity_pool_by_bytes_]? with
    | none =>
      simp only [do_allocate, h0, if_false, imaginary_entity.of_count,
        imaginary_entity.get_bytes_count, he, Except.ok.injEq, Prod.mk.injEq] at h
      exact Or.inl ⟨h.1.symm, h.2.symm⟩
    | some e =>
      have hfind := he
      rw [getElem?_lower_bound] at hfind
      have hmem : e ∈ s.free_entity_pool_by_bytes_ := List.mem_of_find?_eq_some hfind
      have hge : n ≤ e.get_bytes_count := by simpa using List.find?_some hfind
      have hv := hinv.valid e ((mem_blocks s e).mpr (Or.inl hmem))
      rw [do_allocate_of_fit s n al e (by omega) he hv.2.1 hv.2.2 hge] at h
      simp only [Except.ok.injEq, Prod.mk.injEq] at h
      refine Or.inr ⟨e, by omega, hmem, hv, rfl, ?_, h.1.symm, h.2.symm⟩
      rw [← bytes_of_valid e hv]
      exact hge

/-- What the first `if` of `do_deallocate` does to the block being freed. -/
theorem absorb_left_new (lf : Option entity) (m m1 : merge_state)
    (h : absorb_left lf m = .ok m1) :
    m1.new_free_entity = m.new_free_entity ∨
    ∃ l, lf = some l ∧ l.back = m.new_free_entity.front ∧
      m1.new_free_entity = ⟨l.front, m.new_free_entity.back⟩ := by
  unfold absorb_left at h
  cases lf with
  | none =>
    simp at h
    subst h
    exact Or.inl rfl
  | some l =>
    simp only at h
    by_cases hc : m.new_free_entity.close_left l = true
    · have hc1 : m.new_free_entity.front = l.back := by
        simpa [entity.close_left] using hc
      simp only [hc, if_true, erase_at] at h
      by_cases hlt : lower_bound entity.get_bytes_count l.get_bytes_count m.by_bytes <
          m.by_bytes.length
      · simp only [hlt, if_true, Except.ok.injEq] at h
        subst h
        exact Or.inr ⟨l, rfl, hc1.symm, rfl⟩
      · simp [hlt] at h
    · simp only [hc, Bool.false_eq_true, if_false, Except.ok.injEq] at h
      subst h
      exact Or.inl rfl

/-- What the second `if` of `do_deallocate` does to the block being freed. -/
theorem absorb_right_new (rf : Option entity) (m m1 : merge_state)
    (h : absorb_right rf m = .ok m1) :
    m1.new_free_entity = m.new_free_entity ∨
    ∃ r, rf = some r ∧ r.front = m.new_free_entity.back ∧
      m1.new_free_entity = ⟨m.new_free_entity.front, r.back⟩ := by
  unfold absorb_right at h
  cases rf with
  | none =>
    simp at h
    subst h
    exact Or.inl rfl
  | some r =>
    simp only at h
    by_cases hc : m.new_free_entity.close_right r = true
    · have hc1 : m.new_free_entity.back = r.front := by
        simpa [entity.close_right] using hc
      simp only [hc, if_true, erase_at] at h
      by_cases hlt : lower_bound entity.get_bytes_count r.get_bytes_count m.by_bytes <
          m.by_bytes.length
      · simp only [hlt, if_true, Except.ok.injEq] at h
        subst h
        exact Or.inr ⟨r, rfl, hc1.symm, rfl⟩
      · simp [hlt] at h
    · simp only [hc, Bool.false_eq_true, if_false, Except.ok.injEq] at h
      subst h
      exact Or.inl rfl

/-- A call of `do_deallocate` that returns either leaves the state, or frees the occupied
block whose front is the address: the block, extended by the two `if`s, goes into both
free indices. -/
theorem do_deallocate_cases (s s1 : gmf_memory_resource) (p n al : Nat)
    (h : do_deallocate s p n al = .ok s1) :
    s1 = s ∨
    ∃ occ m1 m2, occ ∈ s.occupied_entity_pool_by_front_ ∧ occ.front = p ∧
      absorb_left (get_preview_free s.free_entity_pool_by_front_ p)
        ⟨occ, s.free_entity_pool_by_front_, s.free_entity_pool_by_bytes_⟩ = .ok m1 ∧
      absorb_right (get_next_free s.free_entity_pool_by_front_ p) m1 = .ok m2 ∧
      s1 = { s with
        occupied_entity_pool_by_front_ := s.occupied_entity_pool_by_front_.eraseIdx
          (lower_bound entity.front p s.occupied_entity_pool_by_front_)
        free_entity_pool_by_front_ := set_insert entity.front m2.new_free_entity m2.by_front
        free_entity_pool_by_bytes_ :=
          multiset_insert entity.get_bytes_count m2.new_free_entity m2.by_bytes } := by
  unfold do_deallocate at h
  simp only [imaginary_entity.of_front] at h
  split at h
  · simp only [Except.ok.injEq] at h
    exact Or.inl h.symm
  · next occ hocc1 =>
    by_cases hne : occ.front ≠ p
    · rw [if_pos hne] at h
      simp only [Except.ok.injEq] at h
      exact Or.inl h.symm
    · rw [if_neg hne] at h
      have hoccm : occ ∈ s.occupied_entity_pool_by_front_ :=
        List.mem_iff_getElem?.mpr ⟨_, hocc1⟩
      split at h
      · simp at h
      · next m1 hm1 =>
        split at h
        · simp at h
        · next m2 hm2 =>
          simp only [Except.ok.injEq] at h
          exact Or.inr ⟨occ, m1, m2, hoccm, by simpa using hne, hm1, hm2, h.symm⟩

theorem mem_blocks_of_free (s : gmf_memory_resource) (x : entity)
    (h : x ∈ s.free_entity_pool_by_bytes_ ++ s.free_entity_pool_by_front_) : x ∈ s.blocks := by
  rcases List.mem_append.mp h with h1 | h1
  · exact (mem_blocks s x).mpr (Or.inl h1)
  · exact (mem_blocks s x).mpr (Or.inr (Or.inl h1))

/-- Which blocks the indices hold after a call of `do_allocate` that returns. -/
theorem do_allocate_mem (s s1 : gmf_memory_resource) (n al p : Nat) (hinv : Inv s)
    (h : do_allocate s n al = .ok (p, s1)) :
    s1.memory_pool_start_ = s.memory_pool_start_ ∧
    s1.memory_pool_end_ = s.memory_pool_end_ ∧
    ((p = 0 ∧ s1 = s) ∨
      ∃ e, e ∈ s.free_entity_pool_by_bytes_ ∧ e.valid ∧ 0 < n ∧ n ≤ e.back - e.front ∧
        p = e.front ∧
        (∀ x ∈ s1.free_entity_pool_by_bytes_ ++ s1.free_entity_pool_by_front_,
          x ∈ s.free_entity_pool_by_bytes_ ++ s.free_entity_pool_by_front_ ∨
          (n < e.back - e.front ∧ x = ⟨e.front + n, e.back⟩)) ∧
        (∀ x ∈ s1.occupied_entity_pool_by_front_,
          x ∈ s.occupied_entity_pool_by_front_ ∨ x = ⟨e.front, e.front + n⟩)) := by
  rcases do_allocate_cases s s1 n al p hinv h with ⟨hp, hs⟩ | ⟨e, h0, hmem, hv, -, hfit, hp, hs⟩
  · subst hs
    exact ⟨rfl, rfl, Or.inl ⟨hp, rfl⟩⟩
  · subst hs
    have hb := bytes_of_valid e hv
    refine ⟨rfl, rfl, Or.inr ⟨e, hmem, hv, h0, hfit, hp, ?_, ?_⟩⟩
    · intro x hx
      simp only [List.mem_append] at hx ⊢
      by_cases hgt : n < e.get_bytes_count
      · simp only [hgt, if_true] at hx
        rcases hx with h1 | h1
        · rcases (mem_multiset_insert _ _ _ x).mp h1 with h2 | h2
          · exact Or.inr ⟨by omega, h2⟩
          · exact Or.inl (Or.inl (List.mem_of_mem_eraseIdx h2))
        · rcases mem_of_mem_set_insert _ _ _ _ h1 with h2 | h2
          · exact Or.inr ⟨by omega, h2⟩
          · exact Or.inl (Or.inr ((set_erase_sublist _ _ _).subset h2))
      · simp only [hgt, if_false] at hx
        rcases hx with h1 | h1
        · exact Or.inl (Or.inl (List.mem_of_mem_eraseIdx h1))
        · exact Or.inl (Or.inr ((set_erase_sublist _ _ _).subset h1))
    · intro x hx
      rcases mem_of_mem_set_insert _ _ _ _ hx with h2 | h2
      · exact Or.inr h2
      · exact Or.inl h2

/-- Which blocks the indices hold after a call of `do_deallocate` that returns. -/
theorem do_deallocate_mem (s s1 : gmf_memory_resource) (p n al : Nat) (hinv : Inv s)
    (h : do_deallocate s p n al = .ok s1) :
    s1.memory_pool_start_ = s.memory_pool_start_ ∧
    s1.memory_pool_end_ = s.memory_pool_end_ ∧
    (s1 = s ∨
      ∃ occ new, occ ∈ s.occupied_entity_pool_by_front_ ∧ occ.front = p ∧
        (new.front = occ.front ∨
          ∃ l ∈ s.free_entity_pool_by_front_, l.back = occ.front ∧ new.front = l.front) ∧
        (new.back = occ.back ∨
          ∃ r ∈ s.free_entity_pool_by_front_, r.front = occ.back ∧ new.back = r.back) ∧
        (∀ x ∈ s1.free_entity_pool_by_bytes_ ++ s1.free_entity_pool_by_front_,
          x ∈ s.free_entity_pool_by_bytes_ ++ s.free_entity_pool_by_front_ ∨ x = new) ∧
        (∀ x ∈ s1.occupied_entity_pool_by_front_, x ∈ s.occupied_entity_pool_by_front_)) := by
  rcases do_deallocate_cases s s1 p n al h with hs | ⟨occ, m1, m2, hocc, hp, hm1, hm2, hs⟩
  · subst hs
    exact ⟨rfl, rfl, Or.inl rfl⟩
  · subst hs
    have hvo := hinv.valid occ ((mem_blocks s occ).mpr (Or.inr (Or.inr hocc)))
    have hFv : ∀ x ∈ s.free_entity_pool_by_front_, x.valid :=
      fun x hx => hinv.valid x ((mem_blocks s x).mpr (Or.inr (Or.inl hx)))
    obtain ⟨hv1, hF1, hB1, -⟩ := absorb_left_inv _ _ m1
      (fun l hl => hFv l (get_preview_free_mem _ _ l hl)) hvo hm1
    obtain ⟨-, hF2, hB2, -⟩ := absorb_right_inv _ _ m2
      (fun r hr => hFv r (get_next_free_mem _ _ r hr).1) hv1 hm2
    have hn1 := absorb_left_new _ _ m1 hm1
    have hn2 := absorb_right_new _ _ m2 hm2
    simp only at hn1
    refine ⟨rfl, rfl, Or.inr ⟨occ, m2.new_free_entity, hocc, hp, ?_, ?_, ?_, ?_⟩⟩
    · have hf2 : m2.new_free_entity.front = m1.new_free_entity.front := by
        rcases hn2 with h2 | ⟨r, -, -, h2⟩
        · rw [h2]
        · rw [h2]
      rw [hf2]
      rcases hn1 with h1 | ⟨l, hl, hlb, h1⟩
      · exact Or.inl (by rw [h1])
      · exact Or.inr ⟨l, get_preview_free_mem _ _ l hl, hlb, by rw [h1]⟩
    · have hb1 : m1.new_free_entity.back = occ.back := by
        rcases hn1 with h1 | ⟨l, -, -, h1⟩
        · rw [h1]
        · rw [h1]
      rcases hn2 with h2 | ⟨r, hr, hrf, h2⟩
      · exact Or.inl (by rw [h2, hb1])
      · exact Or.inr ⟨r, (get_next_free_mem _ _ r hr).1, by rw [hrf, hb1], by rw [h2]⟩
    · intro x hx
      simp only [List.mem_append] at hx ⊢
      rcases hx with h1 | h1
      · rcases (mem_multiset_insert _ _ _ x).mp h1 with h2 | h2
        · exact Or.inr h2
        · exact Or.inl (Or.inl ((hB2.trans hB1).subset h2))
      · rcases mem_of_mem_set_insert _ _ _ _ h1 with h2 | h2
        · exact Or.inr h2
        · exact Or.inl (Or.inr ((hF2.trans hF1).subset h2))
    · intro x hx
      exact List.mem_of_mem_eraseIdx hx

/-- One call keeps the pool bounds, keeps every block inside the pool, and keeps the free
blocks of positive length. -/
theorem step_pool (s s1 : gmf_memory_resource) (c : call) (hinv : Inv s)
    (hocc : ∀ e ∈ s.occupied_entity_pool_by_front_, e.front < e.back)
    (h : step s c = .ok s1) :
    s1.memory_pool_start_ = s.memory_pool_start_ ∧
    s1.memory_pool_end_ = s.memory_pool_end_ ∧
    (InPool s → InPool s1) ∧ (PositiveFree s → PositiveFree s1) := by
  cases c with
  | allocate bytes align =>
    simp only [step] at h
    split at h
    · simp at h
    · next r hr =>
      simp only [Except.ok.injEq] at h
      subst h
      obtain ⟨h1, h2, h3⟩ := do_allocate_mem s r.2 bytes align r.1 hinv hr
      refine ⟨h1, h2, ?_, ?_⟩
      · intro hin
        rcases h3 with ⟨-, hs⟩ | ⟨e, hmem, hv, h0, hfit, -, hfree, hoc⟩
        · rw [hs]; exact hin
        · obtain ⟨he1, he2⟩ := hin e ((mem_blocks s e).mpr (Or.inl hmem))
          intro x hx
          rw [h1, h2]
          rcases (mem_blocks _ x).mp hx with hx1 | hx1 | hx1
          · rcases hfree x (by simp [hx1]) with h4 | ⟨h4, h5⟩
            · exact hin x (mem_blocks_of_free s x h4)
            · rw [h5]; have := hv.2.1; exact ⟨by simp only; omega, he2⟩
          · rcases hfree x (by simp [hx1]) with h4 | ⟨h4, h5⟩
            · exact hin x (mem_blocks_of_free s x h4)
            · rw [h5]; have := hv.2.1; exact ⟨by simp only; omega, he2⟩
          · rcases hoc x hx1 with h4 | h4
            · exact hin x ((mem_blocks s x).mpr (Or.inr (Or.inr h4)))
            · rw [h4]; have := hv.2.1; exact ⟨he1, by simp only; omega⟩
      · intro hpos
        rcases h3 with ⟨-, hs⟩ | ⟨e, hmem, hv, h0, hfit, -, hfree, hoc⟩
        · rw [hs]; exact hpos
        · intro x hx
          rcases hfree x hx with h4 | ⟨h4, h5⟩
          · exact hpos x h4
          · rw [h5]; simp only; omega
  | deallocate ptr bytes align =>
    simp only [step] at h
    obtain ⟨h1, h2, h3⟩ := do_deallocate_mem s s1 ptr bytes align hinv h
    have hFv : ∀ x ∈ s.free_entity_pool_by_front_, x.front ≤ x.back :=
      fun x hx => (hinv.valid x ((mem_blocks s x).mpr (Or.inr (Or.inl hx)))).2.1
    refine ⟨h1, h2, ?_, ?_⟩
    · intro hin
      rcases h3 with hs | ⟨occ, new, hocc1, -, hnf, hnb, hfree, hoc⟩
      · rw [hs]; exact hin
      · have hio := hin occ ((mem_blocks s occ).mpr (Or.inr (Or.inr hocc1)))
        have hnew : s.memory_pool_start_ ≤ new.front ∧ new.back ≤ s.memory_pool_end_ := by
          constructor
          · rcases hnf with h4 | ⟨l, hl, -, h4⟩
            · rw [h4]; exact hio.1
            · rw [h4]; exact (hin l ((mem_blocks s l).mpr (Or.inr (Or.inl hl)))).1
          · rcases hnb with h4 | ⟨r, hr, -, h4⟩
            · rw [h4]; exact hio.2
            · rw [h4]; exact (hin r ((mem_blocks s r).mpr (Or.inr (Or.inl hr)))).2
        intro x hx
        rw [h1, h2]
        rcases (mem_blocks _ x).mp hx with hx1 | hx1 | hx1
        · rcases hfree x (by simp [hx1]) with h4 | h4
          · exact hin x (mem_blocks_of_free s x h4)
          · rw [h4]; exact hnew
        · rcases hfree x (by simp [hx1]) with h4 | h4
          · exact hin x (mem_blocks_of_free s x h4)
          · rw [h4]; exact hnew
        · exact hin x ((mem_blocks s x).mpr (Or.inr (Or.inr (hoc x hx1))))
    · intro hpos
      rcases h3 with hs | ⟨occ, new, hocc1, -, hnf, hnb, hfree, hoc⟩
      · rw [hs]; exact hpos
      · have ho := hocc occ hocc1
        have hnew : new.front < new.back := by
          have h5 : new.front ≤ occ.front := by
            rcases hnf with h4 | ⟨l, hl, hlb, h4⟩
            · omega
            · have := hFv l hl; omega
          have h6 : occ.back ≤ new.back := by
            rcases hnb with h4 | ⟨r, hr, hrf, h4⟩
            · omega
            · have := hFv r hr; omega
          omega
        intro x hx
        rcases hfree x hx with h4 | h4
        · exact hpos x h4
        · rw [h4]; exact hnew

/-- Construction and any sequence of calls that return: the state is reachable, keeps the
bounds of the pool and every block inside them, and holds only free blocks of positive
length when the pool is not empty. -/
theorem run_from_inv (cs : List call) (a b : Nat) (s : gmf_memory_resource)
    (ha : a < WORD) (hb : b < WORD) (hcs : ∀ c ∈ cs, c.in_range)
    (h : run_from a b cs = .ok s) :
    Reachable s ∧ s.memory_pool_start_ = a ∧ s.memory_pool_end_ = b ∧ InPool s ∧
      (a < b → PositiveFree s) := by
  have key : ∀ (cs : List call) (s0 s1 : gmf_memory_resource), Reachable s0 →
      (∀ c ∈ cs, c.in_range) → run s0 cs = .ok s1 →
      s1.memory_pool_start_ = s0.memory_pool_start_ ∧
      s1.memory_pool_end_ = s0.memory_pool_end_ ∧
      (InPool s0 → InPool s1) ∧ (PositiveFree s0 → PositiveFree s1) := by
    intro cs
    induction cs with
    | nil =>
      intro s0 s1 _ _ h
      simp only [run, Except.ok.injEq] at h
      subst h
      exact ⟨rfl, rfl, id, id⟩
    | cons c cs ih =>
      intro s0 s1 hr hc h
      simp only [run] at h
      split at h
      · simp at h
      · next s2 h2 =>
        have hr2 := Reachable.call s0 s2 c hr (hc c (by simp)) h2
        obtain ⟨hi, ho⟩ := reachable_inv s0 hr
        obtain ⟨p1, p2, p3, p4⟩ := step_pool s0 s2 c hi ho h2
        obtain ⟨q1, q2, q3, q4⟩ := ih s2 s1 hr2 (fun c1 h1 => hc c1 (by simp [h1])) h
        exact ⟨by rw [q1, p1], by rw [q2, p2], fun x => q3 (p3 x), fun x => q4 (p4 x)⟩
  have hreach := reachable_run_from a b cs s ha hb hcs h
  unfold run_from at h
  split at h
  · simp at h
  · next s0 h0 =>
    obtain ⟨-, -, hab, hs0⟩ := ctor_ok a b s0 h0
    obtain ⟨k1, k2, k3, k4⟩ := key cs s0 s (Reachable.init a b s0 ha hb h0) hcs h
    subst hs0
    refine ⟨hreach, k1, k2, k3 ?_, fun hlt => k4 ?_⟩
    · intro e he
      simp [gmf_memory_resource.blocks] at he
      subst he
      exact ⟨le_refl _, le_refl _⟩
    · intro e he
      simp at he
      subst he
      exact hlt

/-- The right probe on an ordered address index. -/
theorem get_next_free_smallest (F : List entity) (p : Nat)
    (hs : F.Pairwise (fun x y => x.front < y.front)) :
    smallest_front_gt F p (get_next_free F p) := by
  induction F with
  | nil => simp [get_next_free, upper_bound, imaginary_entity.of_front, smallest_front_gt]
  | cons x xs ih =>
    rw [List.pairwise_cons] at hs
    rw [get_next_free_cons]
    by_cases h : p < x.front
    · rw [if_pos h]
      refine ⟨by simp, h, ?_⟩
      intro y hy _
      rcases List.mem_cons.mp hy with h1 | h1
      · rw [h1]
      · exact Nat.le_of_lt (hs.1 y h1)
    · rw [if_neg h]
      have ih1 := ih hs.2
      cases hr : get_next_free xs p with
      | none =>
        rw [hr] at ih1
        intro y hy
        rcases List.mem_cons.mp hy with h1 | h1
        · rw [h1]; exact h
        · exact ih1 y h1
      | some e =>
        rw [hr] at ih1
        obtain ⟨h1, h2, h3⟩ := ih1
        refine ⟨by simp [h1], h2, ?_⟩
        intro y hy hpy
        rcases List.mem_cons.mp hy with h4 | h4
        · rw [h4] at hpy; exact absurd hpy h
        · exact h3 y h4 hpy

/-- The left probe on an ordered address index one of whose entries starts before `p`. -/
theorem get_preview_free_greatest_lt (F : List entity) (p : Nat)
    (hs : F.Pairwise (fun x y => x.front < y.front)) (hex : ∃ x ∈ F, x.front < p) :
    greatest_front_lt F p (get_preview_free F p) := by
  induction F with
  | nil => simp at hex
  | cons x xs ih =>
    rw [List.pairwise_cons] at hs
    have hx : x.front < p := by
      obtain ⟨y, hy, hyp⟩ := hex
      rcases List.mem_cons.mp hy with h1 | h1
      · rw [← h1]; exact hyp
      · have := hs.1 y h1; omega
    rw [get_preview_free_cons, if_pos hx]
    by_cases h0 : lower_bound entity.front p xs = 0
    · rw [if_pos h0]
      refine ⟨by simp, hx, ?_⟩
      intro y hy hyp
      rcases List.mem_cons.mp hy with h1 | h1
      · rw [h1]
      · have := lower_bound_eq_zero _ _ _ hs.2 h0 y h1
        omega
    · rw [if_neg h0]
      have ih1 := ih hs.2 (lower_bound_ne_zero _ _ _ h0)
      cases hr : get_preview_free xs p with
      | none =>
        rw [hr] at ih1
        obtain ⟨y, hy, hyp⟩ := lower_bound_ne_zero _ _ _ h0
        exact absurd hyp (ih1 y hy)
      | some e =>
        rw [hr] at ih1
        obtain ⟨h1, h2, h3⟩ := ih1
        refine ⟨by simp [h1], h2, ?_⟩
        intro y hy hyp
        rcases List.mem_cons.mp hy with h4 | h4
        · rw [h4]; exact Nat.le_of_lt (hs.1 e h1)
        · exact h3 y h4 hyp

/-- The left probe on an ordered address index none of whose entries starts before `p`. -/
theorem get_preview_free_greatest_le (F : List entity) (p : Nat)
    (hs : F.Pairwise (fun x y => x.front < y.front)) (hno : ∀ x ∈ F, ¬ x.front < p) :
    greatest_front_le F p (get_preview_free F p) := by
  cases F with
  | nil =>
    simp [get_preview_free, lower_bound, imaginary_entity.of_front, greatest_front_le]
  | cons x xs =>
    rw [List.pairwise_cons] at hs
    have hx := hno x (by simp)
    rw [get_preview_free_cons, if_neg hx]
    by_cases h : x.front > p
    · rw [if_pos h]
      intro y hy
      rcases List.mem_cons.mp hy with h1 | h1
      · rw [h1]; omega
      · have := hs.1 y h1; omega
    · rw [if_neg h]
      refine ⟨by simp, by omega, ?_⟩
      intro y hy hyp
      have := hno y hy
      omega

/-- Claim C13 as amended (the empty pool is accepted): for every non-null address `a`,
constructing the allocator over the empty pool from `a` to `a` returns the state whose
free indices both hold the zero-length block from `a` to `a` and whose occupied index is
empty; a zero-length free block is held only over an empty pool: in every state reached
from a construction with `pool_start < pool_end`, every free block has positive length. -/
theorem empty_pool_accepted (a : Nat) (ha : a ≠ 0) :
    gmf_memory_resource.ctor a a = .ok ⟨[⟨a, a⟩], [⟨a, a⟩], [], a, a⟩ ∧
    ∀ (a1 b1 : Nat) (cs : List call) (s : gmf_memory_resource), a1 < b1 → b1 < WORD →
      (∀ c ∈ cs, c.in_range) → run_from a1 b1 cs = .ok s → PositiveFree s := by
  constructor
  · simp [gmf_memory_resource.ctor, entity.ctor, ha, multiset_insert, set_insert]
  · intro a1 b1 cs s hlt hb hcs hrun
    exact (run_from_inv cs a1 b1 s (by omega) hb hcs hrun).2.2.2.2 hlt

/-- Counterexample to C13 as stated: the construction over the empty pool at the non-null
address 100 does not fail; it returns a reachable state whose address-ordered free index
holds the block from 100 to 100, of length zero. -/
theorem empty_pool_not_rejected :
    (100 : Nat) ≠ 0 ∧
    gmf_memory_resource.ctor 100 100 ≠ .error .invalid_argument ∧
    gmf_memory_resource.ctor 100 100 = .ok empty_pool_state ∧
    Reachable empty_pool_state ∧
    (⟨100, 100⟩ : entity) ∈ empty_pool_state.free_entity_pool_by_front_ ∧
    entity.get_bytes_count ⟨100, 100⟩ = 0 := by
  refine ⟨by decide, ?_, rfl, Reachable.init 100 100 _ (by decide) (by decide) rfl, by decide,
    by decide⟩
  intro h
  have h1 : gmf_memory_resource.ctor 100 100 = .ok empty_pool_state := rfl
  rw [h1] at h
  exact Except.noConfusion h

/-- Witness of the amended C13: the empty pool at 100, and `best_fit_state` over the pool
from 100 to 200. -/
theorem empty_pool_accepted_witness :
    (100 : Nat) ≠ 0 ∧
    gmf_memory_resource.ctor 100 100 = .ok ⟨[⟨100, 100⟩], [⟨100, 100⟩], [], 100, 100⟩ ∧
    PositiveFree best_fit_state :=
  ⟨by decide, (empty_pool_accepted 100 (by decide)).1,
    (empty_pool_accepted 100 (by decide)).2 100 200 best_fit_trace best_fit_state (by decide)
      (by decide) (by simp [best_fit_trace, call.in_range, WORD]) rfl⟩

/-- Claim C17 as amended (neighbour probes of the address index): on every ordered content
of the address-ordered free index and for every probe address `p`, the left probe
`get_preview_free` returns the entry with the greatest front that is less than `p` when
some entry starts before `p`; when no entry starts before `p` it returns the entry with
the greatest front that is at most `p` (the entry that starts at `p`), or nothing when
there is none.  The right probe `get_next_free` returns the entry with the smallest front
greater than `p`, or nothing when no entry has a front greater than `p`. -/
theorem probes_of_address_index (F : List entity) (p : Nat)
    (hs : F.Pairwise (fun x y => x.front < y.front)) :
    ((∃ x ∈ F, x.front < p) → greatest_front_lt F p (get_preview_free F p)) ∧
    ((∀ x ∈ F, ¬ x.front < p) → greatest_front_le F p (get_preview_free F p)) ∧
    smallest_front_gt F p (get_next_free F p) :=
  ⟨get_preview_free_greatest_lt F p hs, get_preview_free_greatest_le F p hs,
    get_next_free_smallest F p hs⟩

/-- Counterexample to C17 as stated: with entries starting at 100 and at 120 and the probe
address 120, the left probe returns the entry that starts at 100, although the entry that
starts at 120 has a front that is at most 120. -/
theorem left_probe_skips_equal_front :
    ([⟨100, 110⟩, ⟨120, 130⟩] : List entity).Pairwise (fun x y => x.front < y.front) ∧
    get_preview_free [⟨100, 110⟩, ⟨120, 130⟩] 120 = some ⟨100, 110⟩ ∧
    ¬ greatest_front_le [⟨100, 110⟩, ⟨120, 130⟩] 120
      (get_preview_free [⟨100, 110⟩, ⟨120, 130⟩] 120) := by
  refine ⟨by decide, rfl, ?_⟩
  intro h
  have h1 : get_preview_free [⟨100, 110⟩, ⟨120, 130⟩] 120 = some ⟨100, 110⟩ := rfl
  rw [h1] at h
  have := h.2.2 ⟨120, 130⟩ (by decide) (by decide)
  exact absurd this (by decide)

/-- Witness of the amended C17: the address index of `best_fit_state` probed at 170. -/
theorem probes_of_address_index_witness :
    best_fit_state.free_entity_pool_by_front_.Pairwise (fun x y => x.front < y.front) ∧
    get_preview_free best_fit_state.free_entity_pool_by_front_ 170 = some ⟨120, 170⟩ ∧
    get_next_free best_fit_state.free_entity_pool_by_front_ 170 = some ⟨180, 200⟩ ∧
    ((∃ x ∈ best_fit_state.free_entity_pool_by_front_, x.front < 170) →
      greatest_front_lt best_fit_state.free_entity_pool_by_front_ 170
        (get_preview_free best_fit_state.free_entity_pool_by_front_ 170)) ∧
    ((∀ x ∈ best_fit_state.free_entity_pool_by_front_, ¬ x.front < 170) →
      greatest_front_le best_fit_state.free_entity_pool_by_front_ 170
        (get_preview_free best_fit_state.free_entity_pool_by_front_ 170)) ∧
    smallest_front_gt best_fit_state.free_entity_pool_by_front_ 170
      (get_next_free best_fit_state.free_entity_pool_by_front_ 170) :=
  ⟨by decide, rfl, rfl,
    probes_of_address_index best_fit_state.free_entity_pool_by_front_ 170 (by decide)⟩

/-- Claim C18 (allocations stay inside the pool): in every state reached from a
construction over the pool from `a` to `b` by calls that return, for every `size` (a
request of zero bytes returns null), when `allocate(size)` returns a non-null address
`p`, then `a ≤ p`, `p + size ≤ b`, and the addition `p + size` does not wrap around the
machine word. -/
theorem allocation_inside_pool (a b : Nat) (cs : List call) (s s1 : gmf_memory_resource)
    (size align p : Nat) (ha : a < WORD) (hb : b < WORD) (hcs : ∀ c ∈ cs, c.in_range)
    (hrun : run_from a b cs = .ok s)
    (hal : do_allocate s size align = .ok (p, s1)) (hp : p ≠ 0) :
    a ≤ p ∧ p + size ≤ b ∧ p + size < WORD ∧ offset_void_ptr p size = p + size := by
  obtain ⟨hreach, hst, hen, hin, -⟩ := run_from_inv cs a b s ha hb hcs hrun
  obtain ⟨hinv, -⟩ := reachable_inv s hreach
  obtain ⟨-, -, h3⟩ := do_allocate_mem s s1 size align p hinv hal
  rcases h3 with ⟨hp0, -⟩ | ⟨e, hmem, hv, -, hfit, hpe, -, -⟩
  · exact absurd hp0 hp
  · obtain ⟨h1, h2⟩ := hin e ((mem_blocks s e).mpr (Or.inl hmem))
    rw [hst] at h1
    rw [hen] at h2
    obtain ⟨-, hv2, hv3⟩ := hv
    have hlt : p + size < WORD := by omega
    refine ⟨by omega, by omega, hlt, ?_⟩
    unfold offset_void_ptr
    exact Nat.mod_eq_of_lt hlt

/-- Witness of C18: `allocate(15)` on `best_fit_state`, over the pool from 100 to 200,
returns 180. -/
theorem allocation_inside_pool_witness :
    run_from 100 200 best_fit_trace = .ok best_fit_state ∧
    (do_allocate best_fit_state 15 1).map Prod.fst = .ok 180 ∧
    100 ≤ 180 ∧ 180 + 15 ≤ 200 ∧ 180 + 15 < WORD ∧ offset_void_ptr 180 15 = 180 + 15 :=
  ⟨rfl, rfl,
    allocation_inside_pool 100 200 best_fit_trace best_fit_state
      ⟨[⟨195, 200⟩, ⟨100, 110⟩, ⟨120, 170⟩], [⟨100, 110⟩, ⟨120, 170⟩, ⟨195, 200⟩],
        [⟨110, 120⟩, ⟨170, 180⟩, ⟨180, 195⟩], 100, 200⟩
      15 1 180 (by decide) (by decide) (by simp [best_fit_trace, call.in_range, WORD]) rfl
      rfl (by decide)⟩

/-! ### Freeing in a tiled state -/

/-- Erasing the lower bound of the length of a free block from the size index removes a
block of that length, whichever block it is. -/
theorem erase_lower_bound_lengths (B F : List entity) (x : entity)
    (hB : B.Pairwise (fun u v => u.get_bytes_count ≤ v.get_bytes_count))
    (hperm : (B.map entity.get_bytes_count).Perm (F.map entity.get_bytes_count))
    (hx : x ∈ F) :
    lower_bound entity.get_bytes_count x.get_bytes_count B < B.length ∧
    ((B.eraseIdx (lower_bound entity.get_bytes_count x.get_bytes_count B)).map
      entity.get_bytes_count).Perm ((F.erase x).map entity.get_bytes_count) := by
  have h1 : x.get_bytes_count ∈ B.map entity.get_bytes_count :=
    (List.Perm.mem_iff hperm).mpr (List.mem_map_of_mem _ hx)
  obtain ⟨y, hy, hyx⟩ := List.mem_map.mp h1
  have hlt := lower_bound_lt_length entity.get_bytes_count x.get_bytes_count B y hy
    (by omega)
  obtain ⟨m, hm⟩ : ∃ m, B[lower_bound entity.get_bytes_count x.get_bytes_count B]? = some m :=
    ⟨_, List.getElem?_eq_getElem hlt⟩
  obtain ⟨-, hge, hleast⟩ := lower_bound_least _ _ _ m hB hm
  have hmx : m.get_bytes_count = x.get_bytes_count := by
    have := hleast y hy (by omega)
    omega
  refine ⟨hlt, ?_⟩
  have hB1 := (perm_cons_eraseIdx B _ m hm).map entity.get_bytes_count
  have hF1 := (List.perm_cons_erase hx).map entity.get_bytes_count
  simp only [List.map_cons] at hB1 hF1
  rw [hmx] at hB1
  exact List.Perm.cons_inv (hB1.symm.trans (hperm.trans hF1))

/-- The first `if` of `do_deallocate` in a tiled state: `ls` is the absorbed left
neighbour, if any. -/
theorem absorb_left_tiling (F B : List entity) (p q : Nat)
    (hs : F.Pairwise (fun x y => x.front < y.front)) (hd : F.Pairwise disjoint)
    (hne : ∀ x ∈ F, x.front < x.back)
    (hB : B.Pairwise (fun u v => u.get_bytes_count ≤ v.get_bytes_count))
    (hperm : (B.map entity.get_bytes_count).Perm (F.map entity.get_bytes_count)) :
    ∃ ls new1 F1 B1,
      absorb_left (get_preview_free F p) ⟨⟨p, q⟩, F, B⟩ = .ok ⟨new1, F1, B1⟩ ∧
      F.Perm (ls ++ F1) ∧
      (∀ l ∈ ls, l.back = p) ∧
      (∀ x ∈ F1, x.back ≠ p) ∧
      new1.back = q ∧
      new1.front + (ls.map entity.length).sum = p ∧
      (∀ l ∈ ls, l.front = new1.front) ∧
      F1.Sublist F ∧ B1.Sublist B ∧
      (B1.map entity.get_bytes_count).Perm (F1.map entity.get_bytes_count) := by
  by_cases hex : ∃ l ∈ F, l.back = p
  · obtain ⟨l, hl, hb⟩ := hex
    have hprobe := get_preview_free_adjacent F p l hs hd
      (fun x hx => Nat.le_of_lt (hne x hx)) hl hb (hne l hl)
    obtain ⟨hlt, hB1⟩ := erase_lower_bound_lengths B F l hB hperm hl
    have hF1 : set_erase entity.front l.front F = F.erase l :=
      set_erase_eq_erase entity.front l F hs hl
    have hnd : F.Nodup := hs.imp (fun hab hEq => by subst hEq; exact absurd hab (lt_irrefl _))
    refine ⟨[l], ⟨l.front, q⟩, F.erase l,
      B.eraseIdx (lower_bound entity.get_bytes_count l.get_bytes_count B), ?_, ?_, ?_, ?_,
      rfl, ?_, ?_, List.erase_sublist l F, List.eraseIdx_sublist _ _, hB1⟩
    · simp only [absorb_left, hprobe, entity.close_left, hb, beq_self_eq_true, if_true,
        erase_at, hlt, hF1]
    · exact List.perm_cons_erase hl
    · intro x hx
      rw [List.mem_singleton.mp hx]; exact hb
    · intro x hx hxb
      have hxF : x ∈ F := List.mem_of_mem_erase hx
      have hxl : x = l := unique_back F hd hne x l hxF hl (by omega)
      rw [hxl] at hx
      exact hnd.not_mem_erase hx
    · have := hne l hl
      simp [entity.length]
      omega
    · intro x hx
      rw [List.mem_singleton.mp hx]
  · have hno : ∀ x ∈ F, x.back ≠ p := fun x hx hb => hex ⟨x, hx, hb⟩
    refine ⟨[], ⟨p, q⟩, F, B, ?_, by simp, by simp, hno, rfl, by simp, by simp,
      List.Sublist.refl _, List.Sublist.refl _, hperm⟩
    cases hprobe : get_preview_free F p with
    | none => simp [absorb_left]
    | some l =>
      have hl := get_preview_free_mem F p l hprobe
      have := hno l hl
      have h1 : ¬ p = l.back := fun h => this h.symm
      simp [absorb_left, entity.close_left, h1]

/-- The second `if` of `do_deallocate` in a tiled state: `rs` is the absorbed right
neighbour, if any. -/
theorem absorb_right_tiling (F F1 B1 : List entity) (p p1 q : Nat)
    (hs : F.Pairwise (fun x y => x.front < y.front))
    (hne : ∀ x ∈ F, x.front < x.back)
    (hgap : ∀ x ∈ F, p < x.front → q ≤ x.front) (hpq : p < q)
    (hsub : F1.Sublist F) (hF1 : ∀ x ∈ F, x.back ≠ p → x ∈ F1)
    (hB : B1.Pairwise (fun u v => u.get_bytes_count ≤ v.get_bytes_count))
    (hperm : (B1.map entity.get_bytes_count).Perm (F1.map entity.get_bytes_count)) :
    ∃ rs new2 F2 B2,
      absorb_right (get_next_free F p) ⟨⟨p1, q⟩, F1, B1⟩ = .ok ⟨new2, F2, B2⟩ ∧
      F1.Perm (rs ++ F2) ∧
      (∀ r ∈ rs, r.front = q) ∧
      (∀ x ∈ F2, x.front ≠ q) ∧
      new2.front = p1 ∧
      new2.back = q + (rs.map entity.length).sum ∧
      (∀ r ∈ rs, r.back = new2.back) ∧
      F2.Sublist F1 ∧ B2.Sublist B1 ∧
      (B2.map entity.get_bytes_count).Perm (F2.map entity.get_bytes_count) := by
  have hs1 : F1.Pairwise (fun x y => x.front < y.front) := hs.sublist hsub
  by_cases hex : ∃ r ∈ F, r.front = q
  · obtain ⟨r, hr, hf⟩ := hex
    have hprobe := get_next_free_adjacent F p q r hs hgap hr hf hpq
    have hr1 : r ∈ F1 := hF1 r hr (by have := hne r hr; omega)
    obtain ⟨hlt, hB2⟩ := erase_lower_bound_lengths B1 F1 r hB hperm hr1
    have hF2 : set_erase entity.front r.front F1 = F1.erase r :=
      set_erase_eq_erase entity.front r F1 hs1 hr1
    have hnd : F1.Nodup := hs1.imp (fun hab hEq => by subst hEq; exact absurd hab (lt_irrefl _))
    refine ⟨[r], ⟨p1, r.back⟩, F1.erase r,
      B1.eraseIdx (lower_bound entity.get_bytes_count r.get_bytes_count B1), ?_, ?_, ?_, ?_,
      rfl, ?_, ?_, List.erase_sublist r F1, List.eraseIdx_sublist _ _, hB2⟩
    · rw [hf] at hF2
      simp only [absorb_right, hprobe, entity.close_right, hf, beq_self_eq_true, if_true,
        erase_at, hlt, hF2]
    · exact List.perm_cons_erase hr1
    · intro x hx
      rw [List.mem_singleton.mp hx]; exact hf
    · intro x hx hxf
      have hxF : x ∈ F1 := List.mem_of_mem_erase hx
      have hxr : x = r := unique_front F1 hs1 x r hxF hr1 (by omega)
      rw [hxr] at hx
      exact hnd.not_mem_erase hx
    · have := hne r hr
      simp [entity.length]
      omega
    · intro x hx
      rw [List.mem_singleton.mp hx]
  · have hno : ∀ x ∈ F, x.front ≠ q := fun x hx hb => hex ⟨x, hx, hb⟩
    refine ⟨[], ⟨p1, q⟩, F1, B1, ?_, by simp, by simp,
      fun x hx => hno x (hsub.subset hx), rfl, by simp, by simp, List.Sublist.refl _,
      List.Sublist.refl _, hperm⟩
    cases hprobe : get_next_free F p with
    | none => simp [absorb_right]
    | some r =>
      have hr := (get_next_free_mem F p r hprobe).1
      have := hno r hr
      have h1 : ¬ q = r.front := fun h => this h.symm
      simp [absorb_right, entity.close_right, h1]

/-- Freeing an occupied block of a tiled state: the call returns, the state stays tiled,
and the occupied index loses the block. -/
theorem do_deallocate_tiling (a b : Nat) (s : gmf_memory_resource) (p q bytes align : Nat)
    (ht : Tiling a b s) (hocc : (⟨p, q⟩ : entity) ∈ s.occupied_entity_pool_by_front_) :
    ∃ s1, do_deallocate s p bytes align = .ok s1 ∧ Tiling a b s1 ∧
      s1.occupied_entity_pool_by_front_ = s.occupied_entity_pool_by_front_.erase ⟨p, q⟩ := by
  have hap := List.pairwise_append.mp ht.apart
  have hs := ht.inv.by_front_ordered
  have hne : ∀ x ∈ s.free_entity_pool_by_front_, x.front < x.back :=
    fun x hx => ht.nonempty x (by simp [hx])
  have hneO : ∀ x ∈ s.occupied_entity_pool_by_front_, x.front < x.back :=
    fun x hx => ht.nonempty x (by simp [hx])
  have hpq : p < q := hneO ⟨p, q⟩ hocc
  have hfar : ∀ x ∈ s.free_entity_pool_by_front_, x.back ≤ p ∨ q ≤ x.front :=
    fun x hx => hap.2.2 x hx ⟨p, q⟩ hocc
  have hgap : ∀ x ∈ s.free_entity_pool_by_front_, p < x.front → q ≤ x.front := by
    intro x hx h
    have := hne x hx
    rcases hfar x hx with h1 | h1 <;> omega
  have hOnd : s.occupied_entity_pool_by_front_.Nodup :=
    ht.inv.occupied_ordered.imp (fun hab hEq => by subst hEq; exact absurd hab (lt_irrefl _))
  obtain ⟨hO1, hO2⟩ := lower_bound_self entity.front ⟨p, q⟩ _ ht.inv.occupied_ordered hocc
  -- the two absorptions
  obtain ⟨ls, new1, F1, B1, hm1, hpF1, hls, hF1p, hn1b, hn1f, hlsf, hsubF1, hsubB1, hlen1⟩ :=
    absorb_left_tiling s.free_entity_pool_by_front_ s.free_entity_pool_by_bytes_ p q hs hap.1
      hne ht.inv.by_bytes_ordered ht.lengths
  obtain ⟨nf, nb1⟩ := new1
  simp only at hn1b hn1f hlsf
  have hn1b1 := hn1b.symm
  subst hn1b1
  have hF1mem : ∀ x ∈ s.free_entity_pool_by_front_, x.back ≠ p → x ∈ F1 := by
    intro x hx hxb
    rcases List.mem_append.mp ((List.Perm.mem_iff hpF1).mp hx) with h1 | h1
    · exact absurd (hls x h1) hxb
    · exact h1
  obtain ⟨rs, new2, F2, B2, hm2, hpF2, hrs, hF2q, hn2f, hn2b, hrsb, hsubF2, hsubB2, hlen2⟩ :=
    absorb_right_tiling s.free_entity_pool_by_front_ F1 B1 p nf q hs hne hgap hpq hsubF1
      hF1mem (ht.inv.by_bytes_ordered.sublist hsubB1) hlen1
  obtain ⟨nf2, nb⟩ := new2
  simp only at hn2f hn2b hrsb
  subst hn2f
  -- the call
  have hcall : do_deallocate s p bytes align = .ok
      { s with
        occupied_entity_pool_by_front_ := s.occupied_entity_pool_by_front_.erase ⟨p, q⟩
        free_entity_pool_by_front_ := set_insert entity.front ⟨nf2, nb⟩ F2
        free_entity_pool_by_bytes_ := multiset_insert entity.get_bytes_count ⟨nf2, nb⟩ B2 } := by
    simp only [do_deallocate, imaginary_entity.of_front]
    simp only [entity.front] at hO1 hO2
    simp only [hO1, hO2, ne_eq, not_true_eq_false, if_false, hm1, hm2]
  -- the neighbours, if any
  have hL : nf2 = p ∨ ∃ l ∈ s.free_entity_pool_by_front_, l.back = p ∧ l.front = nf2 := by
    cases ls with
    | nil => left; simpa using hn1f
    | cons l t =>
      right
      exact ⟨l, (List.Perm.mem_iff hpF1).mpr (by simp), hls l (by simp), hlsf l (by simp)⟩
  have hR : nb = q ∨ ∃ r ∈ s.free_entity_pool_by_front_, r.front = q ∧ r.back = nb := by
    cases rs with
    | nil => left; simpa using hn2b
    | cons r t =>
      right
      exact ⟨r, hsubF1.subset ((List.Perm.mem_iff hpF2).mpr (by simp)), hrs r (by simp),
        hrsb r (by simp)⟩
  have hnf_le : nf2 ≤ p := by omega
  have hnb_ge : q ≤ nb := by omega
  have hF2F : ∀ x ∈ F2, x ∈ s.free_entity_pool_by_front_ :=
    fun x hx => hsubF1.subset (hsubF2.subset hx)
  have hF2p : ∀ x ∈ F2, x.back ≠ p := fun x hx => hF1p x (hsubF2.subset hx)
  have hfresh : ∀ y ∈ F2, entity.front y ≠ entity.front (⟨nf2, nb⟩ : entity) := by
    intro y hy hyf
    have hyf1 : y.front = nf2 := hyf
    have hyF := hF2F y hy
    rcases hL with h1 | ⟨l, hl, hlb, hlf⟩
    · have := hne y hyF
      rcases hfar y hyF with h2 | h2 <;> omega
    · have := unique_front _ hs y l hyF hl (by omega)
      rw [this] at hy
      exact hF2p l hy hlb
  have hpF' := set_insert_perm entity.front ⟨nf2, nb⟩ F2 hfresh
  have hpB' := multiset_insert_perm entity.get_bytes_count ⟨nf2, nb⟩ B2
  -- every remaining block lies before or after the merged block
  have hout : ∀ x ∈ F2 ++ s.occupied_entity_pool_by_front_.erase ⟨p, q⟩,
      x.front < x.back ∧ (nb ≤ x.front ∨ x.back ≤ nf2) := by
    intro x hx
    have hxFO : x ∈ s.free_entity_pool_by_front_ ++ s.occupied_entity_pool_by_front_ := by
      rcases List.mem_append.mp hx with h1 | h1
      · exact List.mem_append.mpr (Or.inl (hF2F x h1))
      · exact List.mem_append.mpr (Or.inr (List.mem_of_mem_erase h1))
    have hxne := ht.nonempty x hxFO
    have hxocc : x.back ≤ p ∨ q ≤ x.front := by
      rcases List.mem_append.mp hx with h1 | h1
      · exact hfar x (hF2F x h1)
      · have hxO := List.mem_of_mem_erase h1
        have hxo : x ≠ ⟨p, q⟩ := by
          intro h; rw [h] at h1; exact hOnd.not_mem_erase h1
        exact hap.2.1.forall disjoint_symm hxO hocc hxo
    have hxF : ∀ y ∈ s.free_entity_pool_by_front_, (x ∈ F2 → x.back ≠ y.back ∨ x.front ≠ y.front) →
        x.back ≤ y.front ∨ y.back ≤ x.front := by
      intro y hy hne1
      rcases List.mem_append.mp hx with h1 | h1
      · have hxy : x ≠ y := by
          intro h
          rcases hne1 h1 with h2 | h2
          · exact h2 (by rw [h])
          · exact h2 (by rw [h])
        exact hap.1.forall disjoint_symm (hF2F x h1) hy hxy
      · exact (hap.2.2 y hy x (List.mem_of_mem_erase h1)).symm
    refine ⟨hxne, ?_⟩
    have hl : nf2 = p ∨ ∃ l ∈ s.free_entity_pool_by_front_, l.back = p ∧ l.front = nf2 ∧
        (x.back ≤ l.front ∨ l.back ≤ x.front) := by
      rcases hL with h1 | ⟨l, hl, hlb, hlf⟩
      · exact Or.inl h1
      · exact Or.inr ⟨l, hl, hlb, hlf, hxF l hl (fun h => Or.inl (by rw [hlb]; exact hF2p x h))⟩
    have hr : nb = q ∨ ∃ r ∈ s.free_entity_pool_by_front_, r.front = q ∧ r.back = nb ∧
        (x.back ≤ r.front ∨ r.back ≤ x.front) := by
      rcases hR with h1 | ⟨r, hr, hrf, hrb⟩
      · exact Or.inl h1
      · exact Or.inr ⟨r, hr, hrf, hrb, hxF r hr (fun h => Or.inr (by rw [hrf]; exact hF2q x h))⟩
    rcases hl with h1 | ⟨l, -, hlb, hlf, h1⟩ <;> rcases hr with h2 | ⟨r, -, hrf, hrb, h2⟩
    · rcases hxocc with h3 | h3 <;> omega
    · rcases hxocc with h3 | h3 <;> rcases h2 with h2 | h2 <;> omega
    · rcases hxocc with h3 | h3 <;> rcases h1 with h1 | h1 <;> omega
    · rcases hxocc with h3 | h3 <;> rcases h1 with h1 | h1 <;> rcases h2 with h2 | h2 <;> omega
  refine ⟨_, hcall, ?_, rfl⟩
  have hinv1 := (do_deallocate_inv s _ p bytes align ht.inv hneO hcall).1
  have hstep : step s (.deallocate p bytes align) = .ok
      { s with
        occupied_entity_pool_by_front_ := s.occupied_entity_pool_by_front_.erase ⟨p, q⟩
        free_entity_pool_by_front_ := set_insert entity.front ⟨nf2, nb⟩ F2
        free_entity_pool_by_bytes_ := multiset_insert entity.get_bytes_count ⟨nf2, nb⟩ B2 } :=
    hcall
  have hpool := (step_pool s _ _ ht.inv hneO hstep).2.2.1 ht.inside
  have hpermFO : (set_insert entity.front ⟨nf2, nb⟩ F2 ++
      s.occupied_entity_pool_by_front_.erase ⟨p, q⟩).Perm
      (⟨nf2, nb⟩ :: (F2 ++ s.occupied_entity_pool_by_front_.erase ⟨p, q⟩)) :=
    List.Perm.append_right _ hpF'
  refine ⟨hinv1, ?_, ?_, ?_, hpool, ?_, ?_, ht.pool_start, ht.pool_end⟩
  · -- lengths
    have h1 := hpB'.map entity.get_bytes_count
    have h2 := hpF'.map entity.get_bytes_count
    simp only [List.map_cons] at h1 h2
    exact h1.trans ((hlen2.cons _).trans h2.symm)
  · -- apart
    refine (List.Perm.pairwise_iff (fun h => disjoint_symm h) hpermFO).mpr ?_
    rw [List.pairwise_cons]
    constructor
    · intro x hx
      rcases (hout x hx).2 with h1 | h1
      · exact Or.inl h1
      · exact Or.inr h1
    · exact ht.apart.sublist (List.Sublist.append (hsubF2.trans hsubF1)
        (List.erase_sublist _ _))
  · -- nonempty
    intro x hx
    rcases List.mem_cons.mp ((List.Perm.mem_iff hpermFO).mp hx) with h1 | h1
    · rw [h1]; simp only; omega
    · exact (hout x h1).1
  · -- total
    have h1 := (hpermFO.map entity.length).sum_eq
    have h2 := ((hpF1.append_right s.occupied_entity_pool_by_front_).map entity.length).sum_eq
    have h3 := (hpF2.map entity.length).sum_eq
    have h4 := ((List.perm_cons_erase hocc).map entity.length).sum_eq
    have h5 := ht.total
    simp only [List.map_append, List.sum_append, List.map_cons, List.sum_cons,
      entity.length] at h1 h2 h3 h4 h5 hn1f hn2b ⊢
    omega
  · -- coalesced
    intro x hx y hy hxy
    have hx1 := List.mem_cons.mp ((List.Perm.mem_iff hpF').mp hx)
    have hy1 := List.mem_cons.mp ((List.Perm.mem_iff hpF').mp hy)
    rcases hx1 with hx1 | hx1 <;> rcases hy1 with hy1 | hy1
    · rw [hx1, hy1] at hxy
      simp only at hxy
      omega
    · rw [hx1] at hxy
      simp only at hxy
      rcases hR with h1 | ⟨r, hr, hrf, hrb⟩
      · exact hF2q y hy1 (by omega)
      · exact ht.coalesced r hr y (hF2F y hy1) (by omega)
    · rw [hy1] at hxy
      simp only at hxy
      rcases hL with h1 | ⟨l, hl, hlb, hlf⟩
      · exact hF2p x hx1 (by omega)
      · exact ht.coalesced x (hF2F x hx1) l hl (by omega)
    · exact ht.coalesced x (hF2F x hx1) y (hF2F y hy1) hxy

/-! ### A tiled state with nothing occupied -/

/-- Ordered blocks lying one after the other between `lo` and `hi` are not longer, taken
together, than the distance from `lo` to `hi`. -/
theorem tiled_sum_le (l : List entity) : ∀ (lo hi : Nat),
    l.Pairwise (fun x y => x.front < y.front) → l.Pairwise disjoint →
    (∀ x ∈ l, x.front < x.back) → (∀ x ∈ l, lo ≤ x.front ∧ x.back ≤ hi) → lo ≤ hi →
    (l.map entity.length).sum + lo ≤ hi := by
  induction l with
  | nil => intro lo hi _ _ _ _ h; simpa using h
  | cons x xs ih =>
    intro lo hi hs hd hne hin hlh
    rw [List.pairwise_cons] at hs hd
    have hx := hne x (by simp)
    obtain ⟨hx1, hx2⟩ := hin x (by simp)
    have hxs : ∀ y ∈ xs, x.back ≤ y.front ∧ y.back ≤ hi := by
      intro y hy
      have h1 := hs.1 y hy
      have h2 := hd.1 y hy
      have h3 := hne y (by simp [hy])
      have h4 := (hin y (by simp [hy])).2
      rcases h2 with h2 | h2
      · exact ⟨h2, h4⟩
      · omega
    have := ih x.back hi hs.2 hd.2 (fun y hy => hne y (by simp [hy])) hxs hx2
    simp only [List.map_cons, List.sum_cons, entity.length]
    omega

/-- When such blocks fill the distance from `lo` to `hi`, the first one starts at `lo` and
the others fill the distance from its back to `hi`. -/
theorem tiled_head (l : List entity) (lo hi : Nat)
    (hs : l.Pairwise (fun x y => x.front < y.front)) (hd : l.Pairwise disjoint)
    (hne : ∀ x ∈ l, x.front < x.back) (hin : ∀ x ∈ l, lo ≤ x.front ∧ x.back ≤ hi)
    (hlt : lo < hi) (heq : (l.map entity.length).sum + lo = hi) :
    ∃ x xs, l = x :: xs ∧ x.front = lo ∧ (xs.map entity.length).sum + x.back = hi ∧
      ∀ y ∈ xs, x.back ≤ y.front ∧ y.back ≤ hi := by
  cases l with
  | nil => simp at heq; omega
  | cons x xs =>
    rw [List.pairwise_cons] at hs hd
    have hx := hne x (by simp)
    obtain ⟨hx1, hx2⟩ := hin x (by simp)
    have hxs : ∀ y ∈ xs, x.back ≤ y.front ∧ y.back ≤ hi := by
      intro y hy
      have h1 := hs.1 y hy
      have h2 := hd.1 y hy
      have h3 := hne y (by simp [hy])
      have h4 := (hin y (by simp [hy])).2
      rcases h2 with h2 | h2
      · exact ⟨h2, h4⟩
      · omega
    have := tiled_sum_le xs x.back hi hs.2 hd.2 (fun y hy => hne y (by simp [hy])) hxs hx2
    simp only [List.map_cons, List.sum_cons, entity.length] at heq
    exact ⟨x, xs, rfl, by omega, by omega, hxs⟩

/-- A tiled state of a non-empty pool with nothing occupied is the state after
construction. -/
theorem tiling_single (a b : Nat) (s : gmf_memory_resource) (ht : Tiling a b s)
    (hO : s.occupied_entity_pool_by_front_ = []) (hab : a < b) :
    s = ⟨[⟨a, b⟩], [⟨a, b⟩], [], a, b⟩ := by
  have hap := List.pairwise_append.mp ht.apart
  have hne : ∀ x ∈ s.free_entity_pool_by_front_, x.front < x.back :=
    fun x hx => ht.nonempty x (by simp [hx])
  have hin : ∀ x ∈ s.free_entity_pool_by_front_, a ≤ x.front ∧ x.back ≤ b := by
    intro x hx
    have := ht.inside x ((mem_blocks s x).mpr (Or.inr (Or.inl hx)))
    rw [ht.pool_start, ht.pool_end] at this
    exact this
  have htot := ht.total
  rw [hO, List.append_nil] at htot
  obtain ⟨x, xs, hF, hxa, hxs, hxin⟩ := tiled_head s.free_entity_pool_by_front_ a b
    ht.inv.by_front_ordered hap.1 hne hin hab (by omega)
  have hs := ht.inv.by_front_ordered
  have hd := hap.1
  rw [hF] at hs hd hne
  rw [List.pairwise_cons] at hs hd
  have hxb : x.back ≤ b := (hin x (by rw [hF]; simp)).2
  have hxs_nil : xs = [] := by
    cases hxs1 : xs with
    | nil => rfl
    | cons y ys =>
      exfalso
      rw [hxs1] at hxin hs hd hxs hne
      have hy := hne y (by simp)
      have hy1 := hxin y (by simp)
      obtain ⟨y1, ys1, hl, hy1f, -, -⟩ := tiled_head (y :: ys) x.back b hs.2 hd.2
        (fun z hz => hne z (by simp [hz])) hxin (by omega) hxs
      have hyy : y1 = y := by
        simp only [List.cons.injEq] at hl
        exact hl.1.symm
      rw [hyy] at hy1f
      exact ht.coalesced x (by rw [hF]; simp) y (by rw [hF, hxs1]; simp) hy1f.symm
  rw [hxs_nil] at hxs hF
  simp only [List.map_nil, List.sum_nil, zero_add] at hxs
  have hx_eq : x = ⟨a, b⟩ := by
    cases x
    simp only at hxa hxs
    rw [hxa, hxs]
  rw [hx_eq] at hF
  -- the size index
  have hlen := ht.lengths
  rw [hF] at hlen
  simp only [List.map_cons, List.map_nil] at hlen
  have hlen1 := List.perm_singleton.mp hlen
  obtain ⟨m, hm⟩ : ∃ m, s.free_entity_pool_by_bytes_ = [m] := by
    cases hB : s.free_entity_pool_by_bytes_ with
    | nil => rw [hB] at hlen1; simp at hlen1
    | cons m ms =>
      cases ms with
      | nil => exact ⟨m, rfl⟩
      | cons m2 ms2 => rw [hB] at hlen1; simp at hlen1
  have hmB : m ∈ s.free_entity_pool_by_bytes_ := by rw [hm]; simp
  have hmv := ht.inv.valid m ((mem_blocks s m).mpr (Or.inl hmB))
  have hmin := ht.inside m ((mem_blocks s m).mpr (Or.inl hmB))
  rw [ht.pool_start, ht.pool_end] at hmin
  have habv := ht.inv.valid ⟨a, b⟩ ((mem_blocks s _).mpr (Or.inr (Or.inl (by rw [hF]; simp))))
  rw [hm] at hlen1
  simp only [List.map_cons, List.map_nil, List.cons.injEq, and_true] at hlen1
  rw [bytes_of_valid m hmv, bytes_of_valid _ habv] at hlen1
  simp only at hlen1
  have hm_eq : m = ⟨a, b⟩ := by
    obtain ⟨-, hm2, -⟩ := hmv
    obtain ⟨mf, mb⟩ := m
    simp only at hlen1 hmin hm2
    have h1 : mf = a := by omega
    have h2 : mb = b := by omega
    rw [h1, h2]
  rw [hm_eq] at hm
  obtain ⟨B, F, O, st, en⟩ := s
  simp only at hm hF hO
  have h1 := ht.pool_start
  have h2 := ht.pool_end
  simp only at h1 h2
  rw [hm, hF, hO, h1, h2]

/-- Freeing every occupied block of a tiled state, one call for each front and in any
order: every call returns, and nothing is occupied at the end. -/
theorem deallocate_all_tiling (a b : Nat) (frees : List (Nat × Nat × Nat)) :
    ∀ s : gmf_memory_resource, Tiling a b s →
      (frees.map (fun f => f.1)).Perm (s.occupied_entity_pool_by_front_.map entity.front) →
      ∃ s1, deallocate_all s frees = .ok s1 ∧ Tiling a b s1 ∧
        s1.occupied_entity_pool_by_front_ = [] := by
  induction frees with
  | nil =>
    intro s ht hperm
    simp only [List.map_nil] at hperm
    have := List.Perm.eq_nil hperm.symm
    exact ⟨s, rfl, ht, List.map_eq_nil_iff.mp this⟩
  | cons f rest ih =>
    intro s ht hperm
    obtain ⟨p, n, al⟩ := f
    simp only [List.map_cons] at hperm
    have hp : p ∈ s.occupied_entity_pool_by_front_.map entity.front :=
      (List.Perm.mem_iff hperm).mp (by simp)
    obtain ⟨occ, hocc, hoccf⟩ := List.mem_map.mp hp
    obtain ⟨of, q⟩ := occ
    simp only at hoccf
    subst hoccf
    obtain ⟨s1, hd, ht1, hO1⟩ := do_deallocate_tiling a b s of q n al ht hocc
    have hperm1 : (rest.map (fun f => f.1)).Perm
        (s1.occupied_entity_pool_by_front_.map entity.front) := by
      rw [hO1]
      have h1 := (List.perm_cons_erase hocc).map entity.front
      simp only [List.map_cons] at h1
      exact List.Perm.cons_inv (hperm.trans h1)
    obtain ⟨s2, hd2, ht2, hO2⟩ := ih s1 ht1 hperm1
    exact ⟨s2, by simp only [deallocate_all, hd, hd2], ht2, hO2⟩

/-! ### Allocating in a tiled state whose free indices agree -/

/-- In a state that satisfies the container invariants `do_allocate` returns. -/
theorem do_allocate_total (s : gmf_memory_resource) (n al : Nat) (hinv : Inv s) :
    ∃ p s1, do_allocate s n al = .ok (p, s1) := by
  by_cases h0 : n = 0
  · subst h0
    exact ⟨0, s, allocate_zero_eq s al⟩
  · by_cases hfit : ∃ x ∈ s.free_entity_pool_by_bytes_, n ≤ x.get_bytes_count
    · obtain ⟨e, -, s1, h1, -⟩ := allocate_fit s n al hinv (by omega) hfit
      exact ⟨e.front, s1, h1⟩
    · have hno : ∀ x ∈ s.free_entity_pool_by_bytes_, x.get_bytes_count < n := by
        intro x hx
        by_contra hx1
        exact hfit ⟨x, hx, by omega⟩
      have h1 := lower_bound_eq_length entity.get_bytes_count n _ hno
      exact ⟨0, s, by simp [do_allocate, h0, imaginary_entity.of_count,
        imaginary_entity.get_bytes_count, h1]⟩

/-- The three indices after `do_allocate` has taken the block `e` in a well-formed state,
up to the order of the entries; `rem` is the remainder, if any. -/
theorem do_allocate_perm (s s1 : gmf_memory_resource) (n al p : Nat) (hwf : WellFormed s)
    (h : do_allocate s n al = .ok (p, s1)) :
    (p = 0 ∧ s1 = s) ∨
    ∃ e rem, 0 < n ∧ n ≤ e.back - e.front ∧ p = e.front ∧ e.valid ∧
      e ∈ s.free_entity_pool_by_front_ ∧
      rem = (if n < e.back - e.front then [(⟨e.front + n, e.back⟩ : entity)] else []) ∧
      s1.occupied_entity_pool_by_front_.Perm
        (⟨e.front, e.front + n⟩ :: s.occupied_entity_pool_by_front_) ∧
      s1.free_entity_pool_by_bytes_.Perm (rem ++ s.free_entity_pool_by_bytes_.erase e) ∧
      s1.free_entity_pool_by_front_.Perm (rem ++ s.free_entity_pool_by_front_.erase e) := by
  rcases do_allocate_cases s s1 n al p hwf.inv h with h1 | ⟨e, h0, hmemB, hv, hch, hfit, hp, hs1⟩
  · exact Or.inl h1
  · right
    have hmemF : e ∈ s.free_entity_pool_by_front_ := (List.Perm.mem_iff hwf.agree).mp hmemB
    have hb := bytes_of_valid e hv
    have hapart := List.pairwise_append.mp hwf.apart
    have hocc : ∀ x ∈ s.occupied_entity_pool_by_front_,
        entity.front x ≠ entity.front (⟨e.front, e.front + n⟩ : entity) := by
      intro x hx hfr
      have hd := hapart.2.2 e hmemF x hx
      have hne := hwf.nonempty x (by simp [hx])
      have hfr1 : x.front = e.front := hfr
      rcases hd with hd | hd <;> omega
    have hfree : n < e.back - e.front → ∀ x ∈ s.free_entity_pool_by_front_.erase e,
        entity.front x ≠ entity.front (⟨e.front + n, e.back⟩ : entity) := by
      intro hlt x hx hfr
      have hxF : x ∈ s.free_entity_pool_by_front_ := List.mem_of_mem_erase hx
      have hxe : x ≠ e := by
        intro h; subst h
        exact absurd hx (hwf.by_front_nodup.not_mem_erase)
      have hd := hapart.1.forall disjoint_symm hxF hmemF hxe
      obtain ⟨-, hvx, -⟩ := hwf.inv.valid x ((mem_blocks s x).mpr (Or.inr (Or.inl hxF)))
      have hfr1 : x.front = e.front + n := hfr
      rcases hd with hd | hd <;> omega
    have hperm := perm_cons_eraseIdx _ _ e hch
    have hB : (s.free_entity_pool_by_bytes_.eraseIdx (lower_bound entity.get_bytes_count n
        s.free_entity_pool_by_bytes_)).Perm (s.free_entity_pool_by_bytes_.erase e) :=
      List.Perm.cons_inv (hperm.symm.trans (List.perm_cons_erase hmemB))
    have hF : set_erase entity.front e.front s.free_entity_pool_by_front_ =
        s.free_entity_pool_by_front_.erase e :=
      set_erase_eq_erase entity.front e _ hwf.inv.by_front_ordered hmemF
    subst hs1
    refine ⟨e, _, h0, hfit, hp, hv, hmemF, rfl, set_insert_perm _ _ _ hocc, ?_, ?_⟩
    · by_cases hlt : n < e.back - e.front
      · have hlt1 : n < e.get_bytes_count := by omega
        simp only [hlt, hlt1, if_true]
        exact (multiset_insert_perm _ _ _).trans (hB.cons _)
      · have hlt1 : ¬ n < e.get_bytes_count := by omega
        simp only [hlt, hlt1, if_false, List.nil_append]
        exact hB
    · by_cases hlt : n < e.back - e.front
      · have hlt1 : n < e.get_bytes_count := by omega
        simp only [hlt, hlt1, if_true, hF]
        exact set_insert_perm _ _ _ (hfree hlt)
      · have hlt1 : ¬ n < e.get_bytes_count := by omega
        simp only [hlt, hlt1, if_false, hF, List.nil_append]
        exact List.Perm.refl _

/-- Allocation keeps a tiled state with agreeing free indices tiled and agreeing; the
occupied index gains a block that starts at the returned address, when that is not
null. -/
theorem do_allocate_tiling (a b : Nat) (s s1 : gmf_memory_resource) (n al p : Nat)
    (ht : Tiling a b s) (hag : IndexAgreement s)
    (h : do_allocate s n al = .ok (p, s1)) :
    Tiling a b s1 ∧ IndexAgreement s1 ∧
    (s1.occupied_entity_pool_by_front_.map entity.front).Perm
      ((if p = 0 then [] else [p]) ++ s.occupied_entity_pool_by_front_.map entity.front) := by
  have hwf : WellFormed s := ⟨ht.inv, hag, ht.apart, ht.nonempty⟩
  have hneO : ∀ x ∈ s.occupied_entity_pool_by_front_, x.front < x.back :=
    fun x hx => ht.nonempty x (by simp [hx])
  rcases do_allocate_perm s s1 n al p hwf h with ⟨hp, hs⟩ |
    ⟨e, rem, h0, hfit, hp, hv, hmemF, hrem, hO, hB, hF⟩
  · subst hs
    refine ⟨ht, hag, ?_⟩
    simp [hp]
  · have hap := List.pairwise_append.mp ht.apart
    obtain ⟨hv1, hv2, hv3⟩ := hv
    have hnW : n < WORD := by omega
    have hinv1 := (do_allocate_inv s s1 n al p hnW ht.inv hneO h).1
    have hstep : step s (.allocate n al) = .ok s1 := by simp [step, h]
    have hpool := (step_pool s s1 _ ht.inv hneO hstep)
    have hag1 : IndexAgreement s1 :=
      hB.trans (((List.Perm.erase e hag).append_left rem).trans hF.symm)
    have hremmem : ∀ r ∈ rem, n < e.back - e.front ∧ r = ⟨e.front + n, e.back⟩ := by
      intro r hr
      rw [hrem] at hr
      by_cases hlt : n < e.back - e.front
      · simp only [hlt, if_true, List.mem_singleton] at hr
        exact ⟨hlt, hr⟩
      · simp [hlt] at hr
    have hremsum : (rem.map entity.length).sum + n = e.back - e.front := by
      rw [hrem]
      by_cases hlt : n < e.back - e.front
      · simp only [hlt, if_true, List.map_cons, List.map_nil, List.sum_cons, List.sum_nil,
          entity.length]
        omega
      · simp only [hlt, if_false, List.map_nil, List.sum_nil]
        omega
    have hnd := hwf.by_front_nodup
    have hrest : ∀ y ∈ s.free_entity_pool_by_front_.erase e ++ s.occupied_entity_pool_by_front_,
        y.front < y.back ∧ (e.back ≤ y.front ∨ y.back ≤ e.front) := by
      intro y hy
      rcases List.mem_append.mp hy with h1 | h1
      · have hyF := List.mem_of_mem_erase h1
        have hye : y ≠ e := by
          intro hEq; rw [hEq] at h1; exact hnd.not_mem_erase h1
        have := hap.1.forall disjoint_symm hmemF hyF (fun hEq => hye hEq.symm)
        exact ⟨ht.nonempty y (by simp [hyF]), this⟩
      · exact ⟨hneO y h1, hap.2.2 e hmemF y h1⟩
    have hFO : (s1.free_entity_pool_by_front_ ++ s1.occupied_entity_pool_by_front_).Perm
        (⟨e.front, e.front + n⟩ :: (rem ++ (s.free_entity_pool_by_front_.erase e ++
          s.occupied_entity_pool_by_front_))) := by
      have h1 := List.Perm.append hF hO
      have h2 : ((rem ++ s.free_entity_pool_by_front_.erase e) ++
          (⟨e.front, e.front + n⟩ :: s.occupied_entity_pool_by_front_)).Perm
          (⟨e.front, e.front + n⟩ :: ((rem ++ s.free_entity_pool_by_front_.erase e) ++
            s.occupied_entity_pool_by_front_)) := List.perm_middle
      have h3 := h1.trans h2
      rw [List.append_assoc] at h3
      exact h3
    refine ⟨⟨hinv1, hag1.map _, ?_, ?_, hpool.2.2.1 ht.inside, ?_, ?_, ?_, ?_⟩, hag1, ?_⟩
    · -- apart
      refine (List.Perm.pairwise_iff (fun h => disjoint_symm h) hFO).mpr ?_
      rw [List.pairwise_cons, List.pairwise_append]
      refine ⟨?_, ?_, ?_, ?_⟩
      · intro y hy
        rcases List.mem_append.mp hy with h1 | h1
        · obtain ⟨hlt, hr⟩ := hremmem y h1
          rw [hr]
          exact Or.inl (le_refl _)
        · have := (hrest y h1).2
          rcases this with h2 | h2
          · exact Or.inl (by simp only; omega)
          · exact Or.inr h2
      · rw [hrem]
        by_cases hlt : n < e.back - e.front
        · simp [hlt]
        · simp [hlt]
      · exact ht.apart.sublist (List.Sublist.append (List.erase_sublist _ _)
          (List.Sublist.refl _))
      · intro r hr y hy
        obtain ⟨hlt, hr1⟩ := hremmem r hr
        rw [hr1]
        rcases (hrest y hy).2 with h2 | h2
        · exact Or.inl h2
        · exact Or.inr (by simp only; omega)
    · -- nonempty
      intro x hx
      rcases List.mem_cons.mp ((List.Perm.mem_iff hFO).mp hx) with h1 | h1
      · rw [h1]; simp only; omega
      · rcases List.mem_append.mp h1 with h2 | h2
        · obtain ⟨hlt, hr1⟩ := hremmem x h2
          rw [hr1]; simp only; omega
        · exact (hrest x h2).1
    · -- total
      have h1 := (hFO.map entity.length).sum_eq
      have h2 := (((List.perm_cons_erase hmemF).append_right
        s.occupied_entity_pool_by_front_).map entity.length).sum_eq
      have h5 := ht.total
      simp only [List.map_append, List.sum_append, List.map_cons, List.sum_cons,
        List.cons_append, entity.length] at h1 h2 h5 hremsum ⊢
      omega
    · -- coalesced
      intro x hx y hy hxy
      have hx1 := List.mem_append.mp ((List.Perm.mem_iff hF).mp hx)
      have hy1 := List.mem_append.mp ((List.Perm.mem_iff hF).mp hy)
      have hfree : ∀ z ∈ s.free_entity_pool_by_front_.erase e,
          z ∈ s.free_entity_pool_by_front_ ∧ z.front < z.back ∧
            (e.back ≤ z.front ∨ z.back ≤ e.front) := by
        intro z hz
        exact ⟨List.mem_of_mem_erase hz, hrest z (List.mem_append.mpr (Or.inl hz))⟩
      rcases hx1 with hx1 | hx1 <;> rcases hy1 with hy1 | hy1
      · obtain ⟨hlt, hr1⟩ := hremmem x hx1
        obtain ⟨-, hr2⟩ := hremmem y hy1
        rw [hr1, hr2] at hxy
        simp only at hxy
        omega
      · obtain ⟨hlt, hr1⟩ := hremmem x hx1
        obtain ⟨hyF, -, -⟩ := hfree y hy1
        rw [hr1] at hxy
        exact ht.coalesced e hmemF y hyF hxy
      · obtain ⟨hlt, hr1⟩ := hremmem y hy1
        obtain ⟨hxF, hxne, hxd⟩ := hfree x hx1
        rw [hr1] at hxy
        simp only at hxy
        rcases hxd with h2 | h2 <;> omega
      · exact ht.coalesced x (hfree x hx1).1 y (hfree y hy1).1 hxy
    · rw [hpool.1]; exact ht.pool_start
    · rw [hpool.2.1]; exact ht.pool_end
    · have hp0 : p ≠ 0 := by omega
      simp only [hp0, if_false, List.singleton_append]
      have := hO.map entity.front
      simp only [List.map_cons] at this
      rw [hp]
      exact this

/-- A batch of allocations from a tiled state with agreeing free indices: every call
returns, the state stays tiled, and the occupied index gains one block for each address
that was returned and is not null. -/
theorem allocate_all_tiling (a b : Nat) (reqs : List (Nat × Nat)) :
    ∀ s : gmf_memory_resource, Tiling a b s → IndexAgreement s →
      ∃ ps s1, allocate_all s reqs = .ok (ps, s1) ∧ Tiling a b s1 ∧
        (s1.occupied_entity_pool_by_front_.map entity.front).Perm
          (ps ++ s.occupied_entity_pool_by_front_.map entity.front) := by
  induction reqs with
  | nil =>
    intro s ht _
    exact ⟨[], s, rfl, ht, by simp⟩
  | cons r rest ih =>
    intro s ht hag
    obtain ⟨n, al⟩ := r
    obtain ⟨p, s1, h1⟩ := do_allocate_total s n al ht.inv
    obtain ⟨ht1, hag1, hO1⟩ := do_allocate_tiling a b s s1 n al p ht hag h1
    obtain ⟨ps, s2, h2, ht2, hO2⟩ := ih s1 ht1 hag1
    refine ⟨if p = 0 then ps else p :: ps, s2, by simp only [allocate_all, h1, h2], ht2, ?_⟩
    have h3 := hO2.trans (List.Perm.append_left ps hO1)
    by_cases hp : p = 0
    · simpa [hp] using h3
    · simp only [hp, if_false, List.singleton_append, List.cons_append] at h3 ⊢
      exact h3.trans List.perm_middle

/-- The state after the construction over a non-empty pool is tiled, and its free indices
agree. -/
theorem ctor_tiling (a b : Nat) (ha : a ≠ 0) (hab : a < b) (hb : b < WORD) :
    Tiling a b ⟨[⟨a, b⟩], [⟨a, b⟩], [], a, b⟩ ∧
    IndexAgreement ⟨[⟨a, b⟩], [⟨a, b⟩], [], a, b⟩ := by
  have hv : ∀ e ∈ gmf_memory_resource.blocks ⟨[⟨a, b⟩], [⟨a, b⟩], [], a, b⟩,
      e = ⟨a, b⟩ := by
    intro e he
    simpa [gmf_memory_resource.blocks] using he
  refine ⟨⟨⟨by simp, by simp, by simp, ?_⟩, List.Perm.refl _, by simp, ?_, ?_, ?_, ?_, rfl,
    rfl⟩, List.Perm.refl _⟩
  · intro e he
    rw [hv e he]
    exact ⟨by simp only; omega, by simp only; omega, hb⟩
  · intro e he
    simp only [List.append_nil, List.mem_singleton] at he
    rw [he]
    exact hab
  · intro e he
    rw [hv e he]
    exact ⟨le_refl _, le_refl _⟩
  · simp [entity.length]
  · intro x hx y hy hxy
    simp only [List.mem_singleton] at hx hy
    rw [hx, hy] at hxy
    simp only at hxy
    omega

/-- Every allocation from the state of an empty pool returns null and leaves the state. -/
theorem allocate_all_empty_pool (a : Nat) (ha : a < WORD) (reqs : List (Nat × Nat)) :
    allocate_all ⟨[⟨a, a⟩], [⟨a, a⟩], [], a, a⟩ reqs =
      .ok ([], ⟨[⟨a, a⟩], [⟨a, a⟩], [], a, a⟩) := by
  induction reqs with
  | nil => rfl
  | cons r rest ih =>
    obtain ⟨n, al⟩ := r
    have h1 : do_allocate ⟨[⟨a, a⟩], [⟨a, a⟩], [], a, a⟩ n al =
        .ok (0, ⟨[⟨a, a⟩], [⟨a, a⟩], [], a, a⟩) := by
      by_cases h0 : n = 0
      · subst h0
        exact allocate_zero_eq _ al
      · have hb : entity.get_bytes_count ⟨a, a⟩ = 0 := by
          rw [bytes_of_le ⟨a, a⟩ (le_refl _) ha]
          simp
        have hlt : entity.get_bytes_count ⟨a, a⟩ < n := by omega
        simp [do_allocate, h0, imaginary_entity.of_count, imaginary_entity.get_bytes_count,
          lower_bound, hlt]
    simp only [allocate_all, h1, ih, if_true]

/-- Claim C19 (allocate-all-then-free-all restores the pool): for every allocator
constructed over the pool from `a` to `b`, whose state has nothing occupied and the one
free block from `a` to `b` in both free indices, and for every finite sequence of
`allocate` calls, every call returns; and every sequence of `deallocate` calls that frees
each address that was returned and is not null exactly once, in any order, returns at
every call and ends in the state after construction. -/
theorem allocate_all_then_free_all (a b : Nat) (s0 : gmf_memory_resource)
    (reqs : List (Nat × Nat)) (hb : b < WORD)
    (h0 : gmf_memory_resource.ctor a b = .ok s0) :
    s0.occupied_entity_pool_by_front_ = [] ∧
    s0.free_entity_pool_by_front_ = [⟨a, b⟩] ∧
    s0.free_entity_pool_by_bytes_ = [⟨a, b⟩] ∧
    ∃ ps s1, allocate_all s0 reqs = .ok (ps, s1) ∧
      ∀ frees : List (Nat × Nat × Nat), (frees.map (fun f => f.1)).Perm ps →
        deallocate_all s1 frees = .ok s0 := by
  obtain ⟨ha0, -, hab, hs0⟩ := ctor_ok a b s0 h0
  subst hs0
  refine ⟨rfl, rfl, rfl, ?_⟩
  by_cases hlt : a < b
  · obtain ⟨ht, hag⟩ := ctor_tiling a b ha0 hlt hb
    obtain ⟨ps, s1, h1, ht1, hO1⟩ := allocate_all_tiling a b reqs _ ht hag
    refine ⟨ps, s1, h1, ?_⟩
    intro frees hperm
    simp only [List.map_nil, List.append_nil] at hO1
    obtain ⟨s2, h2, ht2, hO2⟩ := deallocate_all_tiling a b frees s1 ht1 (hperm.trans hO1.symm)
    rw [h2, tiling_single a b s2 ht2 hO2 hlt]
  · have hEq : a = b := by omega
    subst hEq
    refine ⟨[], _, allocate_all_empty_pool a hb reqs, ?_⟩
    intro frees hperm
    have := List.map_eq_nil_iff.mp (List.Perm.eq_nil hperm)
    rw [this]
    rfl

/-- Witness of C19: five allocations from the pool from 100 to 200, freed in another
order. -/
theorem allocate_all_then_free_all_witness :
    200 < WORD ∧
    gmf_memory_resource.ctor 100 200 = .ok ⟨[⟨100, 200⟩], [⟨100, 200⟩], [], 100, 200⟩ ∧
    (allocate_all ⟨[⟨100, 200⟩], [⟨100, 200⟩], [], 100, 200⟩
      [(10, 1), (10, 1), (50, 1), (10, 1), (20, 1), (5, 1)]).map Prod.fst =
        .ok [100, 110, 120, 170, 180] ∧
    (∀ st, (allocate_all ⟨[⟨100, 200⟩], [⟨100, 200⟩], [], 100, 200⟩
      [(10, 1), (10, 1), (50, 1), (10, 1), (20, 1), (5, 1)]).map Prod.snd = .ok st →
      deallocate_all st [(120, 50, 1), (100, 10, 1), (180, 20, 1), (110, 10, 1), (170, 10, 1)] =
        .ok ⟨[⟨100, 200⟩], [⟨100, 200⟩], [], 100, 200⟩) ∧
    ∃ ps s1, allocate_all ⟨[⟨100, 200⟩], [⟨100, 200⟩], [], 100, 200⟩
        [(10, 1), (10, 1), (50, 1), (10, 1), (20, 1), (5, 1)] = .ok (ps, s1) ∧
      ∀ frees : List (Nat × Nat × Nat), (frees.map (fun f => f.1)).Perm ps →
        deallocate_all s1 frees = .ok ⟨[⟨100, 200⟩], [⟨100, 200⟩], [], 100, 200⟩ := by
  refine ⟨by decide, rfl, rfl, ?_,
    (allocate_all_then_free_all 100 200 ⟨[⟨100, 200⟩], [⟨100, 200⟩], [], 100, 200⟩
      [(10, 1), (10, 1), (50, 1), (10, 1), (20, 1), (5, 1)] (by decide) rfl).2.2.2⟩
  intro st hst
  have h1 : (allocate_all ⟨[⟨100, 200⟩], [⟨100, 200⟩], [], 100, 200⟩
      [(10, 1), (10, 1), (50, 1), (10, 1), (20, 1), (5, 1)]).map Prod.snd =
      .ok ⟨[], [], [⟨100, 110⟩, ⟨110, 120⟩, ⟨120, 170⟩, ⟨170, 180⟩, ⟨180, 200⟩], 100, 200⟩ := rfl
  rw [h1] at hst
  injection hst with hst
  subst hst
  rfl

/-! ### The extent that `do_deallocate` frees -/

/-- The first `if` of `do_deallocate` fails only by erasing the end of the size index, and
otherwise only removes entries from the two free pools. -/
theorem absorb_left_sub (lf : Option entity) (m : merge_state) :
    absorb_left lf m = .error .undefined_behaviour ∨
    ∃ m1, absorb_left lf m = .ok m1 ∧ m1.by_front.Sublist m.by_front ∧
      m1.by_bytes.Sublist m.by_bytes := by
  unfold absorb_left
  cases lf with
  | none => exact Or.inr ⟨m, rfl, List.Sublist.refl _, List.Sublist.refl _⟩
  | some l =>
    simp only
    by_cases hc : m.new_free_entity.close_left l = true
    · simp only [hc, if_true, erase_at]
      by_cases hlt : lower_bound entity.get_bytes_count l.get_bytes_count m.by_bytes <
          m.by_bytes.length
      · simp only [hlt, if_true]
        exact Or.inr ⟨_, rfl, set_erase_sublist _ _ _, List.eraseIdx_sublist _ _⟩
      · left
        simp only [hlt, if_false]
    · simp only [hc, Bool.false_eq_true, if_false]
      exact Or.inr ⟨m, rfl, List.Sublist.refl _, List.Sublist.refl _⟩

/-- The second `if` of `do_deallocate` fails only by erasing the end of the size index, and
otherwise only removes entries from the two free pools. -/
theorem absorb_right_sub (rf : Option entity) (m : merge_state) :
    absorb_right rf m = .error .undefined_behaviour ∨
    ∃ m1, absorb_right rf m = .ok m1 ∧ m1.by_front.Sublist m.by_front ∧
      m1.by_bytes.Sublist m.by_bytes := by
  unfold absorb_right
  cases rf with
  | none => exact Or.inr ⟨m, rfl, List.Sublist.refl _, List.Sublist.refl _⟩
  | some r =>
    simp only
    by_cases hc : m.new_free_entity.close_right r = true
    · simp only [hc, if_true, erase_at]
      by_cases hlt : lower_bound entity.get_bytes_count r.get_bytes_count m.by_bytes <
          m.by_bytes.length
      · simp only [hlt, if_true]
        exact Or.inr ⟨_, rfl, set_erase_sublist _ _ _, List.eraseIdx_sublist _ _⟩
      · left
        simp only [hlt, if_false]
    · simp only [hc, Bool.false_eq_true, if_false]
      exact Or.inr ⟨m, rfl, List.Sublist.refl _, List.Sublist.refl _⟩

/-- What `do_deallocate` does with the front `p` of an occupied block in any state whose
occupied index is ordered, whatever size and alignment the caller passes: unless it
erases the end of the size index, it takes the recorded block from `p` to `q` out of the
occupied index and inserts into both free indices a block that starts at `p`, or at the
front of a free block that ends at `p`, and ends at `q`, or at the back of a free block
that starts at `q`. -/
theorem do_deallocate_extent (s : gmf_memory_resource) (p q n al : Nat)
    (hO : s.occupied_entity_pool_by_front_.Pairwise (fun x y => x.front < y.front))
    (hocc : (⟨p, q⟩ : entity) ∈ s.occupied_entity_pool_by_front_) :
    do_deallocate s p n al = .error .undefined_behaviour ∨
    ∃ new F2 B2,
      do_deallocate s p n al = .ok
        { s with
          occupied_entity_pool_by_front_ := s.occupied_entity_pool_by_front_.erase ⟨p, q⟩
          free_entity_pool_by_front_ := set_insert entity.front new F2
          free_entity_pool_by_bytes_ := multiset_insert entity.get_bytes_count new B2 } ∧
      (new.front = p ∨ ∃ l ∈ s.free_entity_pool_by_front_, l.back = p ∧ new.front = l.front) ∧
      (new.back = q ∨ ∃ r ∈ s.free_entity_pool_by_front_, r.front = q ∧ new.back = r.back) ∧
      F2.Sublist s.free_entity_pool_by_front_ ∧
      B2.Sublist s.free_entity_pool_by_bytes_ := by
  obtain ⟨hO1, hO2⟩ := lower_bound_self entity.front ⟨p, q⟩ _ hO hocc
  simp only [entity.front] at hO1 hO2
  rcases absorb_left_sub (get_preview_free s.free_entity_pool_by_front_ p)
      ⟨⟨p, q⟩, s.free_entity_pool_by_front_, s.free_entity_pool_by_bytes_⟩ with
    h1 | ⟨m1, h1, hF1, hB1⟩
  · left
    simp only [do_deallocate, imaginary_entity.of_front, hO1, ne_eq, not_true_eq_false,
      if_false, h1]
  · rcases absorb_right_sub (get_next_free s.free_entity_pool_by_front_ p) m1 with
      h2 | ⟨m2, h2, hF2, hB2⟩
    · left
      simp only [do_deallocate, imaginary_entity.of_front, hO1, ne_eq, not_true_eq_false,
        if_false, h1, h2]
    · right
      have hn1 := absorb_left_new _ _ m1 h1
      have hn2 := absorb_right_new _ _ m2 h2
      simp only at hn1 hF1 hB1
      refine ⟨m2.new_free_entity, m2.by_front, m2.by_bytes, ?_, ?_, ?_, hF2.trans hF1,
        hB2.trans hB1⟩
      · simp only [do_deallocate, imaginary_entity.of_front, hO1, hO2, ne_eq,
          not_true_eq_false, if_false, h1, h2]
      · have hf2 : m2.new_free_entity.front = m1.new_free_entity.front := by
          rcases hn2 with h3 | ⟨r, -, -, h3⟩
          · rw [h3]
          · rw [h3]
        rw [hf2]
        rcases hn1 with h3 | ⟨l, hl, hlb, h3⟩
        · exact Or.inl (by rw [h3])
        · exact Or.inr ⟨l, get_preview_free_mem _ _ l hl, hlb, by rw [h3]⟩
      · have hb1 : m1.new_free_entity.back = q := by
          rcases hn1 with h3 | ⟨l, -, -, h3⟩
          · rw [h3]
          · rw [h3]
        rcases hn2 with h3 | ⟨r, hr, hrf, h3⟩
        · exact Or.inl (by rw [h3, hb1])
        · exact Or.inr ⟨r, (get_next_free_mem _ _ r hr).1, by rw [hrf, hb1], by rw [h3]⟩

/-- Claim C14 (caller-supplied size and alignment are ignored): `allocate` returns the same
address and state for every alignment argument, and `deallocate` produces the same state
for every size and alignment argument.  The extent that `deallocate(p, bytes, align)`
frees is the one recorded in the occupied index, whatever `bytes` is: when the occupied
index is ordered and holds the block from `p` to `q`, the call either erases the end of
the size index or takes exactly that block out of the occupied index and inserts into
both free indices a block that reaches from `p`, or from the front of the free block
that ends at `p`, to `q`, or to the back of the free block that starts at `q`; and in a
well-formed state the call returns, with the inserted block from `merged_front` to
`merged_back`. -/
theorem size_and_alignment_ignored (s : gmf_memory_resource)
    (bytes align1 align2 p bytes1 bytes2 : Nat) :
    do_allocate s bytes align1 = do_allocate s bytes align2 ∧
    do_deallocate s p bytes1 align1 = do_deallocate s p bytes2 align2 ∧
    (∀ q, s.occupied_entity_pool_by_front_.Pairwise (fun x y => x.front < y.front) →
      (⟨p, q⟩ : entity) ∈ s.occupied_entity_pool_by_front_ →
      do_deallocate s p bytes1 align1 = .error .undefined_behaviour ∨
      ∃ new F2 B2,
        do_deallocate s p bytes1 align1 = .ok
          { s with
            occupied_entity_pool_by_front_ := s.occupied_entity_pool_by_front_.erase ⟨p, q⟩
            free_entity_pool_by_front_ := set_insert entity.front new F2
            free_entity_pool_by_bytes_ := multiset_insert entity.get_bytes_count new B2 } ∧
        (new.front = p ∨
          ∃ l ∈ s.free_entity_pool_by_front_, l.back = p ∧ new.front = l.front) ∧
        (new.back = q ∨
          ∃ r ∈ s.free_entity_pool_by_front_, r.front = q ∧ new.back = r.back) ∧
        F2.Sublist s.free_entity_pool_by_front_ ∧
        B2.Sublist s.free_entity_pool_by_bytes_) ∧
    (∀ q, WellFormed s → (⟨p, q⟩ : entity) ∈ s.occupied_entity_pool_by_front_ →
      ∃ F2 B2,
        do_deallocate s p bytes1 align1 = .ok
          { s with
            occupied_entity_pool_by_front_ := s.occupied_entity_pool_by_front_.erase ⟨p, q⟩
            free_entity_pool_by_front_ := set_insert entity.front
              ⟨merged_front s.free_entity_pool_by_front_ p,
                merged_back s.free_entity_pool_by_front_ q⟩ F2
            free_entity_pool_by_bytes_ := multiset_insert entity.get_bytes_count
              ⟨merged_front s.free_entity_pool_by_front_ p,
                merged_back s.free_entity_pool_by_front_ q⟩ B2 } ∧
        (∀ x, x ∈ F2 ↔ x ∈ s.free_entity_pool_by_front_ ∧ x.back ≠ p ∧ x.front ≠ q) ∧
        B2.Sublist s.free_entity_pool_by_bytes_) := by
  refine ⟨rfl, rfl, ?_, ?_⟩
  · intro q hO hocc
    exact do_deallocate_extent s p q bytes1 align1 hO hocc
  · intro q hwf hocc
    obtain ⟨F2, B2, h1, h2, -, h3, -⟩ := do_deallocate_spec s p q bytes1 align1 hwf hocc
    exact ⟨F2, B2, h1, h2, h3⟩

/-- Witness of C14: on `best_fit_state`, `deallocate(110, 999, 7)` frees the recorded block
from 110 to 120, as `deallocate(110, 10, 1)` does, and merges it with both neighbours. -/
theorem size_and_alignment_ignored_witness :
    WellFormed best_fit_state ∧
    (⟨110, 120⟩ : entity) ∈ best_fit_state.occupied_entity_pool_by_front_ ∧
    do_deallocate best_fit_state 110 999 7 = .ok
      ⟨[⟨180, 200⟩, ⟨100, 170⟩], [⟨100, 170⟩, ⟨180, 200⟩], [⟨170, 180⟩], 100, 200⟩ ∧
    do_deallocate best_fit_state 110 999 7 = do_deallocate best_fit_state 110 10 1 ∧
    do_allocate best_fit_state 15 64 = do_allocate best_fit_state 15 1 ∧
    ∃ F2 B2,
      do_deallocate best_fit_state 110 999 7 = .ok
        { best_fit_state with
          occupied_entity_pool_by_front_ :=
            best_fit_state.occupied_entity_pool_by_front_.erase ⟨110, 120⟩
          free_entity_pool_by_front_ := set_insert entity.front
            ⟨merged_front best_fit_state.free_entity_pool_by_front_ 110,
              merged_back best_fit_state.free_entity_pool_by_front_ 120⟩ F2
          free_entity_pool_by_bytes_ := multiset_insert entity.get_bytes_count
            ⟨merged_front best_fit_state.free_entity_pool_by_front_ 110,
              merged_back best_fit_state.free_entity_pool_by_front_ 120⟩ B2 } ∧
      (∀ x, x ∈ F2 ↔
        x ∈ best_fit_state.free_entity_pool_by_front_ ∧ x.back ≠ 110 ∧ x.front ≠ 120) ∧
      B2.Sublist best_fit_state.free_entity_pool_by_bytes_ :=
  ⟨best_fit_state_wf, by decide, rfl,
    (size_and_alignment_ignored best_fit_state 15 64 1 110 999 10).2.1,
    (size_and_alignment_ignored best_fit_state 15 64 1 110 999 10).1,
    (size_and_alignment_ignored best_fit_state 15 64 1 110 999 10).2.2.2 120
      best_fit_state_wf (by decide)⟩

end GMF
